import Mathlib

/-!
# Unscented Kalman filter (`src/ukf.cpp`): shallow embedding

The filter object of `src/ukf.cpp` is embedded as a record `UKF` of its member
variables, and each member function as a function from the record (and its
arguments) to the record after the call.

Conventions of the embedding:

* in the filter state a C++ `double` is a real number (`ℝ`): arithmetic is exact,
  `M_PI` is `Real.pi`, `sin`, `cos`, `sqrt`, `fabs` are `Real.sin`, `Real.cos`,
  `Real.sqrt`, `|·|`, and `atan2 y x` is the argument of the complex number
  `x + y i`; rounding, overflow and infinities are outside this part of the
  embedding, and a division is only meaningful where the divisor is not zero;
* the two kinds of loop whose number of iterations depends on rounding, the
  sub-stepping of `delta_t` (lines 131-135) and the angle normalisation, are modelled
  a second time in binary64 arithmetic: a `double` is the rational it denotes, an
  operation is the exact operation followed by `roundDouble`, and the loop is a
  function of a bound `fuel` on the number of tests of its condition, with `none`
  when the bound is reached (`subStepLoopDouble`, `normalizeAngleDouble`,
  `UKF.ProcessMeasurementDouble`);
* the one place where the code divides by a quantity that can be zero, the range rate
  of line 370, is modelled a second time with `none` for "not a number"
  (`radarMeasurementDefined`, `UKF.radarSDefined`, `UKF.radarNISDefined`);
* `long long` time stamps are integers (`ℤ`); where their difference is converted to
  `double` it is taken to fit a `long long`;
* `VectorXd` / `MatrixXd` of fixed run-time size are `Fin n → ℝ` and
  `Matrix (Fin m) (Fin n) ℝ`; the dimensions `n_x_ = 5`, `n_aug_ = 7` and
  `n_aug_sigma_ = 15` set once by the constructor are the index types;
* an accumulation loop `for i … acc += f i` is the finite sum `∑ i, f i`;
* `P.llt().matrixL()` belongs to the Eigen library, not to this repository: the
  factorisation is a parameter `llt` of `Prediction`; `S.inverse()` is the matrix
  inverse `S⁻¹`;
* in exact arithmetic a `while` loop is a function defined by well-founded
  recursion, so that the function being total is the loop terminating.
-/

open Matrix

/-- Modelled from the spec: the sensor-type discriminator of a measurement record
(`MeasurementPackage::SensorType`, declared in `measurement_package.h`). The two
known kinds are `LASER` (position sensor) and `RADAR` (range sensor); `UNKNOWN`
stands for any other value the discriminator may hold. -/
inductive SensorType where
  | LASER
  | RADAR
  | UNKNOWN (tag : ℕ)
  deriving DecidableEq

/-- Modelled from the spec: the measurement record (`MeasurementPackage`, declared in
`measurement_package.h`): sensor type, raw values (indexed from 0) and a time stamp
in microseconds. -/
structure MeasurementPackage where
  sensor_type_ : SensorType
  raw_measurements_ : ℕ → ℝ
  timestamp_ : ℤ

/-- The member variables of class `UKF`. -/
structure UKF where
  is_initialized_ : Bool
  use_laser_ : Bool
  use_radar_ : Bool
  x_ : Fin 5 → ℝ
  P_ : Matrix (Fin 5) (Fin 5) ℝ
  Xsig_pred_ : Matrix (Fin 5) (Fin 15) ℝ
  Xsig_aug_ : Matrix (Fin 7) (Fin 15) ℝ
  time_us_ : ℤ
  std_a_ : ℝ
  std_yawdd_ : ℝ
  std_laspx_ : ℝ
  std_laspy_ : ℝ
  std_radr_ : ℝ
  std_radphi_ : ℝ
  std_radrd_ : ℝ
  weights_ : Fin 15 → ℝ
  lambda_ : ℝ
  NIS_radar_ : ℝ
  NIS_laser_ : ℝ

/-- The constructor `UKF::UKF()` (lines 10-93). `P_` is allocated but not filled, so
its content `P0` is whatever the storage holds; likewise the two sigma-point
matrices. `n_aug_ = 7` enters the weights as the real number `7`. -/
noncomputable def UKF.construct (P0 : Matrix (Fin 5) (Fin 5) ℝ)
    (Xp0 : Matrix (Fin 5) (Fin 15) ℝ) (Xa0 : Matrix (Fin 7) (Fin 15) ℝ) : UKF :=
  let lambda : ℝ := 0
  let t : ℝ := lambda + 7
  { is_initialized_ := false
    use_laser_ := true
    use_radar_ := true
    x_ := fun _ => 0
    P_ := P0
    Xsig_pred_ := Xp0
    Xsig_aug_ := Xa0
    time_us_ := 0
    std_a_ := 0.8
    std_yawdd_ := 0.6
    std_laspx_ := 0.15
    std_laspy_ := 0.15
    std_radr_ := 0.3
    std_radphi_ := 0.03
    std_radrd_ := 0.3
    weights_ := fun i => if i = 0 then lambda / t else 0.5 / t
    lambda_ := lambda
    NIS_radar_ := 0
    NIS_laser_ := 0 }

/-! ## Angle normalisation (the two `while` loops at each "normalize angles" site) -/

/-- The loop `while (x > M_PI) x -= 2 * M_PI;` in exact arithmetic, `M_PI` being `π`
(in binary64 arithmetic: `subWhileAbovePiDouble`). -/
noncomputable def subWhileAbovePi (x : ℝ) : ℝ :=
  if h : x > Real.pi then subWhileAbovePi (x - 2 * Real.pi) else x
termination_by ⌈(x - Real.pi) / (2 * Real.pi)⌉.toNat
decreasing_by
  have hpi := Real.pi_pos
  have e : (x - 2 * Real.pi - Real.pi) / (2 * Real.pi) = (x - Real.pi) / (2 * Real.pi) - 1 := by
    field_simp
    ring
  have hpos : 0 < (x - Real.pi) / (2 * Real.pi) := by
    apply div_pos <;> linarith
  have h1 : 0 < ⌈(x - Real.pi) / (2 * Real.pi)⌉ := Int.ceil_pos.mpr hpos
  rw [e, Int.ceil_sub_one]
  omega

/-- The loop `while (x < -M_PI) x += 2 * M_PI;` in exact arithmetic, `M_PI` being `π`
(in binary64 arithmetic: `addWhileBelowNegPiDouble`). -/
noncomputable def addWhileBelowNegPi (x : ℝ) : ℝ :=
  if h : x < -Real.pi then addWhileBelowNegPi (x + 2 * Real.pi) else x
termination_by ⌈(-Real.pi - x) / (2 * Real.pi)⌉.toNat
decreasing_by
  have hpi := Real.pi_pos
  have e : (-Real.pi - (x + 2 * Real.pi)) / (2 * Real.pi)
      = (-Real.pi - x) / (2 * Real.pi) - 1 := by
    field_simp
    ring
  have hpos : 0 < (-Real.pi - x) / (2 * Real.pi) := by
    apply div_pos <;> linarith
  have h1 : 0 < ⌈(-Real.pi - x) / (2 * Real.pi)⌉ := Int.ceil_pos.mpr hpos
  rw [e, Int.ceil_sub_one]
  omega

/-- The angle normalisation written out at lines 233-236, 307-310, 383-386, 417-420,
424-427 and 437-440, in exact arithmetic: first the subtracting loop, then the adding
loop (in binary64 arithmetic: `normalizeAngleDouble`). -/
noncomputable def normalizeAngle (x : ℝ) : ℝ :=
  addWhileBelowNegPi (subWhileAbovePi x)

/-! ## Prediction (lines 151-240) -/

/-- The augmented mean `x_aug_` (lines 153-160): the state followed by two zeros. -/
def augmentedMean (x : Fin 5 → ℝ) : Fin 7 → ℝ :=
  fun r => if h : r.val < 5 then x ⟨r.val, h⟩ else 0

/-- The augmented covariance `P_aug_` (lines 157-166): zero, except for `P_` in the top
left corner and the two process-noise variances at `(5, 5)` and `(6, 6)`. -/
def augmentedCovariance (P : Matrix (Fin 5) (Fin 5) ℝ) (std_a std_yawdd : ℝ) :
    Matrix (Fin 7) (Fin 7) ℝ :=
  fun r c =>
    if hr : r.val < 5 then
      if hc : c.val < 5 then P ⟨r.val, hr⟩ ⟨c.val, hc⟩ else 0
    else if r.val = 5 ∧ c.val = 5 then std_a * std_a
    else if r.val = 6 ∧ c.val = 6 then std_yawdd * std_yawdd
    else 0

/-- The augmented sigma points `Xsig_aug_` (lines 172-176): column `0` is the mean,
column `i + 1` is the mean plus `sqrt(lambda_ + n_aug_)` times column `i` of the
square root `A`, and column `i + 1 + n_aug_` the mean minus it, for `i < 7`. -/
noncomputable def augmentedSigmaPoints (lambda : ℝ) (x_aug : Fin 7 → ℝ)
    (A : Matrix (Fin 7) (Fin 7) ℝ) : Matrix (Fin 7) (Fin 15) ℝ :=
  fun r c =>
    if c.val = 0 then x_aug r
    else if h : c.val < 8 then
      x_aug r + Real.sqrt (lambda + 7) * A r ⟨c.val - 1, by omega⟩
    else
      x_aug r - Real.sqrt (lambda + 7) * A r ⟨c.val - 8, by omega⟩

/-- The body of the loop "predict sigma points" (lines 180-218): one augmented sigma
point through the process model for `delta_t` seconds. -/
noncomputable def predictSigmaPoint (delta_t : ℝ) (p : Fin 7 → ℝ) : Fin 5 → ℝ :=
  let px := p 0
  let py := p 1
  let v := p 2
  let yaw := p 3
  let yawd := p 4
  let v_aug := p 5
  let v_yawdd := p 6
  let px_p :=
    if |yawd| > 0.001 then px + v / yawd * (Real.sin (yaw + yawd * delta_t) - Real.sin yaw)
    else px + v * delta_t * Real.cos yaw
  let py_p :=
    if |yawd| > 0.001 then py + v / yawd * (Real.cos yaw - Real.cos (yaw + yawd * delta_t))
    else py + v * delta_t * Real.sin yaw
  let v_p := v
  let yaw_p := yaw + yawd * delta_t
  let yawd_p := yawd
  ![px_p + 0.5 * v_aug * delta_t * delta_t * Real.cos yaw,
    py_p + 0.5 * v_aug * delta_t * delta_t * Real.sin yaw,
    v_p + v_aug * delta_t,
    yaw_p + 0.5 * v_yawdd * delta_t * delta_t,
    yawd_p + v_yawdd * delta_t]

/-- The weighted mean of the columns of a sigma-point matrix (lines 222-225, 274, 377). -/
def weightedMean {n : ℕ} (w : Fin 15 → ℝ) (X : Matrix (Fin n) (Fin 15) ℝ) : Fin n → ℝ :=
  ∑ i, w i • fun r => X r i

/-- The state deviation `x_diff` of sigma point `i` (lines 230-236, 304-310, 415-420):
the column minus the mean, with component `3` (the yaw) angle-normalised. -/
noncomputable def stateDiff (X : Matrix (Fin 5) (Fin 15) ℝ) (x : Fin 5 → ℝ) (i : Fin 15) :
    Fin 5 → ℝ :=
  let x_diff : Fin 5 → ℝ := fun r => X r i - x r
  Function.update x_diff 3 (normalizeAngle (x_diff 3))

/-- The member function `UKF::Prediction` (lines 151-240). -/
noncomputable def UKF.Prediction (llt : Matrix (Fin 7) (Fin 7) ℝ → Matrix (Fin 7) (Fin 7) ℝ)
    (s : UKF) (delta_t : ℝ) : UKF :=
  let x_aug := augmentedMean s.x_
  let P_aug := augmentedCovariance s.P_ s.std_a_ s.std_yawdd_
  let A_aug := llt P_aug
  let Xsig_aug := augmentedSigmaPoints s.lambda_ x_aug A_aug
  let Xsig_pred : Matrix (Fin 5) (Fin 15) ℝ :=
    fun r i => predictSigmaPoint delta_t (fun k => Xsig_aug k i) r
  let x := weightedMean s.weights_ Xsig_pred
  let P : Matrix (Fin 5) (Fin 5) ℝ :=
    ∑ i, s.weights_ i • vecMulVec (stateDiff Xsig_pred x i) (stateDiff Xsig_pred x i)
  { s with Xsig_aug_ := Xsig_aug, Xsig_pred_ := Xsig_pred, x_ := x, P_ := P }

/-! ## Measurement updates (lines 242-332 and 334-452) -/

/-- The member function `UKF::UpdateLidar` (lines 242-332). -/
noncomputable def UKF.UpdateLidar (s : UKF) (meas_package : MeasurementPackage) : UKF :=
  let Zsig : Matrix (Fin 2) (Fin 15) ℝ := fun r i => ![s.Xsig_pred_ 0 i, s.Xsig_pred_ 1 i] r
  let z_pred := weightedMean s.weights_ Zsig
  let zDiff : Fin 15 → Fin 2 → ℝ := fun i r => Zsig r i - z_pred r
  let R : Matrix (Fin 2) (Fin 2) ℝ :=
    !![s.std_laspx_ * s.std_laspx_, 0; 0, s.std_laspy_ * s.std_laspy_]
  let S : Matrix (Fin 2) (Fin 2) ℝ := (∑ i, s.weights_ i • vecMulVec (zDiff i) (zDiff i)) + R
  let z : Fin 2 → ℝ := ![meas_package.raw_measurements_ 0, meas_package.raw_measurements_ 1]
  let Tc : Matrix (Fin 5) (Fin 2) ℝ :=
    ∑ i, s.weights_ i • vecMulVec (stateDiff s.Xsig_pred_ s.x_ i) (zDiff i)
  let z_diff : Fin 2 → ℝ := z - z_pred
  let K := Tc * S⁻¹
  { s with
      NIS_laser_ := z_diff ⬝ᵥ (S⁻¹ *ᵥ z_diff)
      x_ := s.x_ + K *ᵥ z_diff
      P_ := s.P_ - K * S * Kᵀ }

/-- The function `atan2` of the C library: the angle in `(-π, π]` of the point
`(x, y)`, and `0` at the origin. -/
noncomputable def atan2 (y x : ℝ) : ℝ := Complex.arg ⟨x, y⟩

/-- The body of the first loop of `UpdateRadar` (lines 361-374): a predicted sigma
point in measurement space. Where the range `rho` is zero the quotient `rho_d` is the
real number `0` here and is not a number in the code (`radarMeasurementDefined`). -/
noncomputable def radarMeasurement (state_vec : Fin 5 → ℝ) : Fin 3 → ℝ :=
  let px := state_vec 0
  let py := state_vec 1
  let v := state_vec 2
  let yaw := state_vec 3
  let rho := Real.sqrt (px * px + py * py)
  let phi := atan2 py px
  let rho_d := (px * Real.cos yaw * v + py * Real.sin yaw * v) / rho
  ![rho, phi, rho_d]

/-- A measurement-space difference with its component `1` (the bearing)
angle-normalised (lines 382-386, 422-427, 434-440). -/
noncomputable def bearingNormalized (z_diff : Fin 3 → ℝ) : Fin 3 → ℝ :=
  Function.update z_diff 1 (normalizeAngle (z_diff 1))

/-- The member function `UKF::UpdateRadar` (lines 334-452). -/
noncomputable def UKF.UpdateRadar (s : UKF) (meas_package : MeasurementPackage) : UKF :=
  let Zsig : Matrix (Fin 3) (Fin 15) ℝ := fun r i => radarMeasurement (fun k => s.Xsig_pred_ k i) r
  let z_pred := weightedMean s.weights_ Zsig
  let zDiff : Fin 15 → Fin 3 → ℝ := fun i => bearingNormalized (fun r => Zsig r i - z_pred r)
  let R : Matrix (Fin 3) (Fin 3) ℝ :=
    !![s.std_radr_ * s.std_radr_, 0, 0;
       0, s.std_radphi_ * s.std_radphi_, 0;
       0, 0, s.std_radrd_ * s.std_radrd_]
  let S : Matrix (Fin 3) (Fin 3) ℝ := (∑ i, s.weights_ i • vecMulVec (zDiff i) (zDiff i)) + R
  let z : Fin 3 → ℝ :=
    ![meas_package.raw_measurements_ 0, meas_package.raw_measurements_ 1,
      meas_package.raw_measurements_ 2]
  let Tc : Matrix (Fin 5) (Fin 3) ℝ :=
    ∑ i, s.weights_ i • vecMulVec (stateDiff s.Xsig_pred_ s.x_ i) (zDiff i)
  let z_diff : Fin 3 → ℝ := bearingNormalized (z - z_pred)
  let K := Tc * S⁻¹
  { s with
      NIS_radar_ := z_diff ⬝ᵥ (S⁻¹ *ᵥ z_diff)
      x_ := s.x_ + K *ᵥ z_diff
      P_ := s.P_ - K * S * Kᵀ }

/-! ## ProcessMeasurement (lines 97-144) -/

/-- The loop of lines 131-135, `while (delta_t > 0.1) { Prediction(0.05); delta_t -= 0.05; }`,
in exact arithmetic, for any step function `Prediction` on any state: it returns the
state and the `delta_t` left when the loop exits (in binary64 arithmetic, where the
number of steps can differ: `subStepLoopDouble`). -/
noncomputable def subStepLoop {σ : Type} (Prediction : σ → ℝ → σ) (s : σ) (delta_t : ℝ) :
    σ × ℝ :=
  if h : delta_t > 0.1 then subStepLoop Prediction (Prediction s 0.05) (delta_t - 0.05)
  else (s, delta_t)
termination_by ⌈(delta_t - 0.1) / 0.05⌉.toNat
decreasing_by
  have e : (delta_t - 0.05 - 0.1) / 0.05 = (delta_t - 0.1) / 0.05 - 1 := by
    field_simp
    ring
  have hpos : 0 < (delta_t - 0.1) / 0.05 := by
    apply div_pos
    · linarith
    · norm_num
  have h1 : 0 < ⌈(delta_t - 0.1) / 0.05⌉ := Int.ceil_pos.mpr hpos
  rw [e, Int.ceil_sub_one]
  omega

/-- The matrix written into `P_` at lines 116-120. -/
def identityLiteral : Matrix (Fin 5) (Fin 5) ℝ :=
  !![1, 0, 0, 0, 0;
     0, 1, 0, 0, 0;
     0, 0, 1, 0, 0;
     0, 0, 0, 1, 0;
     0, 0, 0, 0, 1]

/-- The member function `UKF::ProcessMeasurement` (lines 97-144), with `delta_t` a real
number (with `delta_t` a `double`: `UKF.ProcessMeasurementDouble`). -/
noncomputable def UKF.ProcessMeasurement
    (llt : Matrix (Fin 7) (Fin 7) ℝ → Matrix (Fin 7) (Fin 7) ℝ)
    (s : UKF) (meas_package : MeasurementPackage) : UKF :=
  if !s.is_initialized_ then
    if meas_package.sensor_type_ = SensorType.RADAR then
      let rho := meas_package.raw_measurements_ 0
      let phi := meas_package.raw_measurements_ 1
      let px := Real.cos phi * rho
      let py := Real.sin phi * rho
      { s with x_ := ![px, py, 0, 0, 0], P_ := identityLiteral, is_initialized_ := true,
               time_us_ := meas_package.timestamp_ }
    else if meas_package.sensor_type_ = SensorType.LASER then
      { s with x_ := ![meas_package.raw_measurements_ 0, meas_package.raw_measurements_ 1,
                       0, 0, 0.0],
               P_ := identityLiteral, is_initialized_ := true,
               time_us_ := meas_package.timestamp_ }
    else s
  else
    let delta_t : ℝ := ((meas_package.timestamp_ - s.time_us_ : ℤ) : ℝ) / 1000000.0
    let s1 := { s with time_us_ := meas_package.timestamp_ }
    let (s2, delta_t2) := subStepLoop (UKF.Prediction llt) s1 delta_t
    let s3 := UKF.Prediction llt s2 delta_t2
    if meas_package.sensor_type_ = SensorType.RADAR then UKF.UpdateRadar s3 meas_package
    else UKF.UpdateLidar s3 meas_package

/-! ## Predicates and sample inputs used by the theorems -/

/-- The parameter members hold the values the constructor gives them. -/
def UKF.Configured (s : UKF) : Prop :=
  s.weights_ = (UKF.construct 0 0 0).weights_
    ∧ s.lambda_ = (UKF.construct 0 0 0).lambda_
    ∧ s.std_a_ = (UKF.construct 0 0 0).std_a_
    ∧ s.std_yawdd_ = (UKF.construct 0 0 0).std_yawdd_
    ∧ s.std_laspx_ = (UKF.construct 0 0 0).std_laspx_
    ∧ s.std_laspy_ = (UKF.construct 0 0 0).std_laspy_
    ∧ s.std_radr_ = (UKF.construct 0 0 0).std_radr_
    ∧ s.std_radphi_ = (UKF.construct 0 0 0).std_radphi_
    ∧ s.std_radrd_ = (UKF.construct 0 0 0).std_radrd_

/-- A factorisation that is the Cholesky factor on diagonal matrices: the diagonal
matrix of the square roots of the diagonal. -/
noncomputable def diagonalCholesky (A : Matrix (Fin 7) (Fin 7) ℝ) : Matrix (Fin 7) (Fin 7) ℝ :=
  Matrix.diagonal fun i => Real.sqrt (A i i)

/-- A filter as the constructor leaves it, then bootstrapped by the position reading
`(5.0, 3.0)`: initialized, mean `[5, 3, 0, 0, 0]`, identity covariance. -/
noncomputable def bootstrappedSample : UKF :=
  { UKF.construct 0 0 0 with is_initialized_ := true, x_ := ![5, 3, 0, 0, 0], P_ := 1 }

/-- The sample filter with the yaw variance `P_(3, 3)` raised to `16`. -/
noncomputable def wideYawSample : UKF :=
  { bootstrappedSample with P_ := Matrix.diagonal ![1, 1, 1, 16, 1] }

/-- The diagonal of the augmented covariance of a diagonal covariance. -/
def augmentedDiagonal (d : Fin 5 → ℝ) (std_a std_yawdd : ℝ) : Fin 7 → ℝ :=
  fun r => if h : r.val < 5 then d ⟨r.val, h⟩
    else if r.val = 5 then std_a * std_a else std_yawdd * std_yawdd

/-- The bootstrapped sample filter with the laser toggle switched off. -/
noncomputable def laserDisabledSample : UKF :=
  { bootstrappedSample with use_laser_ := false }

/-- A position reading `(6, 3)` taken at time `0`. -/
noncomputable def laserReading : MeasurementPackage :=
  ⟨SensorType.LASER, fun i => if i = 0 then 6 else 3, 0⟩

/-! ## The parts of the two updates, named -/

/-- The sigma points in lidar measurement space, `Zsig` of `UpdateLidar` (lines
264-271): the first two rows of the predicted sigma points. -/
def lidarZsig (X : Matrix (Fin 5) (Fin 15) ℝ) : Matrix (Fin 2) (Fin 15) ℝ :=
  fun r i => ![X 0 i, X 1 i] r

/-- The predicted lidar measurement `z_pred` (line 274). -/
def UKF.lidarPredictedMeasurement (s : UKF) : Fin 2 → ℝ :=
  weightedMean s.weights_ (lidarZsig s.Xsig_pred_)

/-- The lidar measurement-noise matrix `R` (lines 284-286). -/
def UKF.lidarR (s : UKF) : Matrix (Fin 2) (Fin 2) ℝ :=
  !![s.std_laspx_ * s.std_laspx_, 0; 0, s.std_laspy_ * s.std_laspy_]

/-- The lidar innovation covariance `S` (lines 278-287). -/
def UKF.lidarS (s : UKF) : Matrix (Fin 2) (Fin 2) ℝ :=
  (∑ i, s.weights_ i •
    vecMulVec (fun r => lidarZsig s.Xsig_pred_ r i - s.lidarPredictedMeasurement r)
      (fun r => lidarZsig s.Xsig_pred_ r i - s.lidarPredictedMeasurement r)) + s.lidarR

/-- The lidar cross-covariance `Tc` (lines 299-317). -/
noncomputable def UKF.lidarTc (s : UKF) : Matrix (Fin 5) (Fin 2) ℝ :=
  ∑ i, s.weights_ i • vecMulVec (stateDiff s.Xsig_pred_ s.x_ i)
    (fun r => lidarZsig s.Xsig_pred_ r i - s.lidarPredictedMeasurement r)

/-- The lidar innovation `z_diff = z - z_pred` (lines 290-296 and 320). -/
def UKF.lidarInnovation (s : UKF) (meas_package : MeasurementPackage) : Fin 2 → ℝ :=
  ![meas_package.raw_measurements_ 0, meas_package.raw_measurements_ 1]
    - s.lidarPredictedMeasurement

/-- The sigma points in radar measurement space, `Zsig` of `UpdateRadar` (lines
359-374). -/
noncomputable def radarZsig (X : Matrix (Fin 5) (Fin 15) ℝ) : Matrix (Fin 3) (Fin 15) ℝ :=
  fun r i => radarMeasurement (fun k => X k i) r

/-- The predicted radar measurement `z_pred` (line 377). -/
noncomputable def UKF.radarPredictedMeasurement (s : UKF) : Fin 3 → ℝ :=
  weightedMean s.weights_ (radarZsig s.Xsig_pred_)

/-- The radar measurement-noise matrix `R` (lines 392-395). -/
def UKF.radarR (s : UKF) : Matrix (Fin 3) (Fin 3) ℝ :=
  !![s.std_radr_ * s.std_radr_, 0, 0;
     0, s.std_radphi_ * s.std_radphi_, 0;
     0, 0, s.std_radrd_ * s.std_radrd_]

/-- The radar measurement deviation of sigma point `i`, bearing normalised (lines
382-386 and 422-427). -/
noncomputable def UKF.radarZdiff (s : UKF) (i : Fin 15) : Fin 3 → ℝ :=
  bearingNormalized (fun r => radarZsig s.Xsig_pred_ r i - s.radarPredictedMeasurement r)

/-- The radar innovation covariance `S` (lines 381-396). -/
noncomputable def UKF.radarS (s : UKF) : Matrix (Fin 3) (Fin 3) ℝ :=
  (∑ i, s.weights_ i • vecMulVec (s.radarZdiff i) (s.radarZdiff i)) + s.radarR

/-- The radar cross-covariance `Tc` (lines 410-431). -/
noncomputable def UKF.radarTc (s : UKF) : Matrix (Fin 5) (Fin 3) ℝ :=
  ∑ i, s.weights_ i • vecMulVec (stateDiff s.Xsig_pred_ s.x_ i) (s.radarZdiff i)

/-- The radar innovation `z_diff = z - z_pred`, bearing normalised (lines 399-407 and
434-440). -/
noncomputable def UKF.radarInnovation (s : UKF) (meas_package : MeasurementPackage) :
    Fin 3 → ℝ :=
  bearingNormalized
    (![meas_package.raw_measurements_ 0, meas_package.raw_measurements_ 1,
        meas_package.raw_measurements_ 2] - s.radarPredictedMeasurement)

/-- The state handed to the update by `ProcessMeasurement` on an initialized filter
(lines 127-136): time stamp stored, sub-stepping loop run, and `Prediction` called on
what is left of `delta_t`. -/
noncomputable def UKF.predictedFor (llt : Matrix (Fin 7) (Fin 7) ℝ → Matrix (Fin 7) (Fin 7) ℝ)
    (s : UKF) (meas_package : MeasurementPackage) : UKF :=
  UKF.Prediction llt
    (subStepLoop (UKF.Prediction llt) { s with time_us_ := meas_package.timestamp_ }
      (((meas_package.timestamp_ - s.time_us_ : ℤ) : ℝ) / 1000000)).1
    (subStepLoop (UKF.Prediction llt) { s with time_us_ := meas_package.timestamp_ }
      (((meas_package.timestamp_ - s.time_us_ : ℤ) : ℝ) / 1000000)).2

/-- The filter with other values in its two NIS members. -/
def UKF.withNIS (s : UKF) (nis_laser nis_radar : ℝ) : UKF :=
  { s with NIS_laser_ := nis_laser, NIS_radar_ := nis_radar }

/-! ## The linear Kalman update, for comparison with `UpdateLidar` -/

/-- The measurement matrix `H = [I₂ | 0]` of a sensor that reads the first two state
components. -/
def positionH : Matrix (Fin 2) (Fin 5) ℝ :=
  fun r c => if c.val = r.val then 1 else 0

/-- The standard linear Kalman update, written from its textbook statement and not from
the source: for a measurement `z` with matrix `H` and noise `R`, and a belief with mean
`x` and covariance `P`, the innovation is `y = z - H x`, its covariance
`S = H P Hᵀ + R`, the gain `K = P Hᵀ S⁻¹`, and the result is the mean `x + K y`, the
covariance `P - K S Kᵀ` and the normalised innovation squared `yᵀ S⁻¹ y`. -/
noncomputable def linearKalmanUpdate {k n : ℕ} (H : Matrix (Fin k) (Fin n) ℝ)
    (R : Matrix (Fin k) (Fin k) ℝ) (x : Fin n → ℝ) (P : Matrix (Fin n) (Fin n) ℝ)
    (z : Fin k → ℝ) : (Fin n → ℝ) × Matrix (Fin n) (Fin n) ℝ × ℝ :=
  let y := z - H *ᵥ x
  let S := H * P * Hᵀ + R
  let K := P * Hᵀ * S⁻¹
  (x + K *ᵥ y, P - K * S * Kᵀ, y ⬝ᵥ (S⁻¹ *ᵥ y))

/-! ## Binary64 arithmetic of the loop variables

The loops of lines 131-135 (`delta_t`) and of every "normalize angles" site run on
`double` values, and how often they iterate depends on the rounding of each
subtraction. For these loops the `double` values are modelled as the rationals they
denote, and each operation as the exact operation followed by `roundDouble`. -/

/-- Rounding of a rational to the nearest integer, a tie going to the even one. -/
def roundHalfEven (y : ℚ) : ℤ :=
  if y - ⌊y⌋ < 1 / 2 then ⌊y⌋
  else if 1 / 2 < y - ⌊y⌋ then ⌊y⌋ + 1
  else if ⌊y⌋ % 2 = 0 then ⌊y⌋
  else ⌊y⌋ + 1

/-- Rounding of a non-negative rational `a` to 53 significant bits, to nearest with
ties to even: with `2 ^ e ≤ a < 2 ^ (e + 1)` the result is the nearest multiple of
`2 ^ (e - 52)`. -/
def roundMagnitude (a : ℚ) : ℚ :=
  (roundHalfEven (a / 2 ^ (Int.log 2 a - 52)) : ℚ) * 2 ^ (Int.log 2 a - 52)

/-- The rounding that binary64 arithmetic applies to the exact result `x` of an
operation (round to nearest, ties to even, on sign and magnitude). The exponent range
is not modelled: the value agrees with the machine's wherever `x` is zero or
`2 ^ (-1022) ≤ |x| < 2 ^ 1024`, which covers every operation of the loops below on
binary64 arguments (there a result that is not zero has a magnitude of at least
`2 ^ (-56)` and below `2 ^ 1024`). -/
def roundDouble (x : ℚ) : ℚ :=
  if x < 0 then -roundMagnitude (-x) else roundMagnitude x

/-- The constant `M_PI` of `<cmath>`, the literal `3.14159265358979323846` as a
`double`. -/
def M_PI : ℚ := roundDouble (314159265358979323846 / 100000000000000000000)

/-- The loop `while (x > M_PI) x -= 2.*M_PI;` in binary64 arithmetic, run for at most
`fuel` tests of the condition: `none` when the loop has not left by then. -/
def subWhileAbovePiDouble : ℕ → ℚ → Option ℚ
  | 0, _ => none
  | fuel + 1, x =>
    if x > M_PI then subWhileAbovePiDouble fuel (roundDouble (x - roundDouble (2 * M_PI)))
    else some x

/-- The loop `while (x < -M_PI) x += 2.*M_PI;` in binary64 arithmetic, run for at most
`fuel` tests of the condition. -/
def addWhileBelowNegPiDouble : ℕ → ℚ → Option ℚ
  | 0, _ => none
  | fuel + 1, x =>
    if x < -M_PI then addWhileBelowNegPiDouble fuel (roundDouble (x + roundDouble (2 * M_PI)))
    else some x

/-- The angle normalisation of lines 233-236, 307-310, 383-386, 417-420, 424-427 and
437-440 in binary64 arithmetic: the subtracting loop, then the adding loop, each run
for at most `fuel` tests. -/
def normalizeAngleDouble (fuel : ℕ) (x : ℚ) : Option ℚ :=
  (subWhileAbovePiDouble fuel x).bind (addWhileBelowNegPiDouble fuel)

/-- The literal `0.05` of line 132 as a `double`. -/
def subStepSeconds : ℚ := roundDouble (5 / 100)

/-- The literal `0.1` of line 131 as a `double`. -/
def subStepLimit : ℚ := roundDouble (1 / 10)

/-- The value of `delta_t` at line 128: the difference of the two time stamps
converted to `double`, divided by `1000000.0`. -/
def elapsedSeconds (timestamp time_us : ℤ) : ℚ :=
  roundDouble (roundDouble ((timestamp - time_us : ℤ) : ℚ) / 1000000)

/-- The loop of lines 131-135 in binary64 arithmetic, for any step function
`Prediction` on any state, run for at most `fuel` tests of the condition: the state
and the `delta_t` left when the loop exits, `none` when it has not left by then. -/
def subStepLoopDouble {σ : Type} (Prediction : σ → ℚ → σ) : ℕ → σ → ℚ → Option (σ × ℚ)
  | 0, _, _ => none
  | fuel + 1, s, delta_t =>
    if delta_t > subStepLimit then
      subStepLoopDouble Prediction fuel (Prediction s subStepSeconds)
        (roundDouble (delta_t - subStepSeconds))
    else some (s, delta_t)

/-- The member function `UKF::ProcessMeasurement` (lines 97-144) with the loop variable
`delta_t` of lines 128-136 in binary64 arithmetic, the loop run for at most `fuel`
tests of its condition (`none` when it has not left by then). The filter state keeps
its real-number model: `Prediction` is called on the real number each `double`
denotes. -/
noncomputable def UKF.ProcessMeasurementDouble (fuel : ℕ)
    (llt : Matrix (Fin 7) (Fin 7) ℝ → Matrix (Fin 7) (Fin 7) ℝ)
    (s : UKF) (meas_package : MeasurementPackage) : Option UKF :=
  if !s.is_initialized_ then
    if meas_package.sensor_type_ = SensorType.RADAR then
      let rho := meas_package.raw_measurements_ 0
      let phi := meas_package.raw_measurements_ 1
      let px := Real.cos phi * rho
      let py := Real.sin phi * rho
      some { s with x_ := ![px, py, 0, 0, 0], P_ := identityLiteral, is_initialized_ := true,
                    time_us_ := meas_package.timestamp_ }
    else if meas_package.sensor_type_ = SensorType.LASER then
      some { s with x_ := ![meas_package.raw_measurements_ 0,
                            meas_package.raw_measurements_ 1, 0, 0, 0.0],
                    P_ := identityLiteral, is_initialized_ := true,
                    time_us_ := meas_package.timestamp_ }
    else some s
  else
    let delta_t : ℚ := elapsedSeconds meas_package.timestamp_ s.time_us_
    let s1 := { s with time_us_ := meas_package.timestamp_ }
    match subStepLoopDouble (fun t dt => UKF.Prediction llt t (dt : ℝ)) fuel s1 delta_t with
    | none => none
    | some (s2, delta_t2) =>
      let s3 := UKF.Prediction llt s2 (delta_t2 : ℝ)
      if meas_package.sensor_type_ = SensorType.RADAR then some (UKF.UpdateRadar s3 meas_package)
      else some (UKF.UpdateLidar s3 meas_package)

/-! ## The radar update where a sigma point has range zero

In the real-number model a quotient by zero is the number `0`; in the code the range
rate of line 370 at range zero is `0 / 0`, not a number, and whatever is computed from
it is not a number either. The definitions below give the values of `UpdateRadar` as
the code has them, `none` standing for "not a number". -/

/-- The body of the first loop of `UpdateRadar` (lines 361-374) as the code has it:
where the range `rho` of line 368 is zero, `px` and `py` are zero, the quotient
`rho_d` of line 370 is `0 / 0`, and the sigma point has no value in measurement
space. -/
noncomputable def radarMeasurementDefined (state_vec : Fin 5 → ℝ) : Option (Fin 3 → ℝ) :=
  let px := state_vec 0
  let py := state_vec 1
  let rho := Real.sqrt (px * px + py * py)
  if rho = 0 then none else some (radarMeasurement state_vec)

/-- The innovation covariance `S` of `UpdateRadar` (lines 359-396) as the code has it:
`z_pred` is a sum over all 15 sigma points (a zero weight does not remove a term that
is not a number), and `S` is built from the deviations from `z_pred`, so `S` has a
value only when every sigma point has one in measurement space. -/
noncomputable def UKF.radarSDefined (s : UKF) : Option (Matrix (Fin 3) (Fin 3) ℝ) :=
  if ∀ i, (radarMeasurementDefined (fun k => s.Xsig_pred_ k i)).isSome then some s.radarS
  else none

/-- The value stored in `NIS_radar_` by `UpdateRadar` (line 444) as the code has it:
the quadratic form of `S⁻¹` at `z - z_pred`, a number only when every sigma point has
a value in measurement space. -/
noncomputable def UKF.radarNISDefined (s : UKF) (meas_package : MeasurementPackage) :
    Option ℝ :=
  if ∀ i, (radarMeasurementDefined (fun k => s.Xsig_pred_ k i)).isSome then
    some (UKF.UpdateRadar s meas_package).NIS_radar_
  else none

/-- A freshly constructed filter after a first RADAR reading with range `0` at time
`0`. -/
noncomputable def zeroRangeFilter : UKF :=
  UKF.ProcessMeasurement diagonalCholesky (UKF.construct 0 0 0)
    ⟨SensorType.RADAR, fun _ => 0, 0⟩

/-- A RADAR reading `(rho, phi, rho_dot) = (1, 0, 0)` at time `50000`. -/
def laterRadarReading : MeasurementPackage :=
  ⟨SensorType.RADAR, fun i => if i = 0 then 1 else 0, 50000⟩

/-- The state that `ProcessMeasurement` hands to `UpdateRadar` when `zeroRangeFilter`
is given `laterRadarReading`. -/
noncomputable def zeroRangePredicted : UKF :=
  UKF.predictedFor diagonalCholesky zeroRangeFilter laterRadarReading

/-! ## Bootstrap (claims C1, C2, C3) -/

/-- The literal written into `P_` by the bootstrap is the 5x5 identity matrix. -/
theorem identityLiteral_eq_one : identityLiteral = 1 := by
  ext i j
  fin_cases i <;> fin_cases j <;> simp [identityLiteral, Matrix.one_apply, vecHead, vecTail]

/-- C1: on an uninitialized filter, a LASER measurement `(x, y)` with time stamp `t`
makes the state mean `[x, y, 0, 0, 0]`, the covariance the identity, the filter
initialized and its time `t`; every other member (both NIS scalars and the
sigma-point matrices that a prediction would overwrite) keeps its value, and the
factorisation `llt` is not consulted. -/
theorem C1_laser_bootstrap (llt : Matrix (Fin 7) (Fin 7) ℝ → Matrix (Fin 7) (Fin 7) ℝ)
    (s : UKF) (m : MeasurementPackage)
    (hs : s.is_initialized_ = false) (hm : m.sensor_type_ = SensorType.LASER) :
    UKF.ProcessMeasurement llt s m =
        { s with x_ := ![m.raw_measurements_ 0, m.raw_measurements_ 1, 0, 0, 0]
                 P_ := 1
                 is_initialized_ := true
                 time_us_ := m.timestamp_ }
      ∧ (UKF.ProcessMeasurement llt s m).NIS_laser_ = s.NIS_laser_
      ∧ (UKF.ProcessMeasurement llt s m).NIS_radar_ = s.NIS_radar_
      ∧ (UKF.ProcessMeasurement llt s m).Xsig_pred_ = s.Xsig_pred_
      ∧ (UKF.ProcessMeasurement llt s m).Xsig_aug_ = s.Xsig_aug_ := by
  have h0 : (0.0 : ℝ) = 0 := by norm_num
  simp [UKF.ProcessMeasurement, hs, hm, identityLiteral_eq_one, h0]

/-- The scenario of C1 on a freshly constructed filter: the position reading
`(5.0, 3.0)` at time `1000` gives the mean `[5, 3, 0, 0, 0]`, the identity covariance,
an initialized filter at time `1000`, and the NIS scalars still at their initial `0`. -/
theorem C1_laser_bootstrap_witness :
    (UKF.ProcessMeasurement id (UKF.construct 0 0 0)
        ⟨SensorType.LASER, fun i => if i = 0 then 5.0 else 3.0, 1000⟩).x_ = ![5, 3, 0, 0, 0]
      ∧ (UKF.ProcessMeasurement id (UKF.construct 0 0 0)
        ⟨SensorType.LASER, fun i => if i = 0 then 5.0 else 3.0, 1000⟩).P_ = 1
      ∧ (UKF.ProcessMeasurement id (UKF.construct 0 0 0)
        ⟨SensorType.LASER, fun i => if i = 0 then 5.0 else 3.0, 1000⟩).is_initialized_ = true
      ∧ (UKF.ProcessMeasurement id (UKF.construct 0 0 0)
        ⟨SensorType.LASER, fun i => if i = 0 then 5.0 else 3.0, 1000⟩).time_us_ = 1000
      ∧ (UKF.ProcessMeasurement id (UKF.construct 0 0 0)
        ⟨SensorType.LASER, fun i => if i = 0 then 5.0 else 3.0, 1000⟩).NIS_laser_ = 0
      ∧ (UKF.ProcessMeasurement id (UKF.construct 0 0 0)
        ⟨SensorType.LASER, fun i => if i = 0 then 5.0 else 3.0, 1000⟩).NIS_radar_ = 0 := by
  have h := C1_laser_bootstrap id (UKF.construct 0 0 0)
    ⟨SensorType.LASER, fun i => if i = 0 then 5.0 else 3.0, 1000⟩ rfl rfl
  obtain ⟨h1, h2, h3, -, -⟩ := h
  refine ⟨?_, ?_, ?_, ?_, ?_, ?_⟩
  · rw [h1]
    norm_num
  · rw [h1]
  · rw [h1]
  · rw [h1]
  · rw [h2]
    rfl
  · rw [h3]
    rfl

/-- C2: on an uninitialized filter, a RADAR measurement `(rho, phi, rho_dot)` with
time stamp `t` makes the state mean `[rho * cos phi, rho * sin phi, 0, 0, 0]` (the
range rate `rho_dot` does not enter), the covariance the identity, the filter
initialized and its time `t`, every other member keeping its value; the reading
`(5.0, 0, 0)` gives the mean `[5, 0, 0, 0, 0]`. -/
theorem C2_radar_bootstrap (llt : Matrix (Fin 7) (Fin 7) ℝ → Matrix (Fin 7) (Fin 7) ℝ)
    (s : UKF) (m : MeasurementPackage)
    (hs : s.is_initialized_ = false) (hm : m.sensor_type_ = SensorType.RADAR) :
    UKF.ProcessMeasurement llt s m =
        { s with x_ := ![m.raw_measurements_ 0 * Real.cos (m.raw_measurements_ 1),
                         m.raw_measurements_ 0 * Real.sin (m.raw_measurements_ 1), 0, 0, 0]
                 P_ := 1
                 is_initialized_ := true
                 time_us_ := m.timestamp_ }
      ∧ (m.raw_measurements_ 0 = 5.0 → m.raw_measurements_ 1 = 0 →
          (UKF.ProcessMeasurement llt s m).x_ = ![5, 0, 0, 0, 0]) := by
  have hx : UKF.ProcessMeasurement llt s m =
        { s with x_ := ![m.raw_measurements_ 0 * Real.cos (m.raw_measurements_ 1),
                         m.raw_measurements_ 0 * Real.sin (m.raw_measurements_ 1), 0, 0, 0]
                 P_ := 1
                 is_initialized_ := true
                 time_us_ := m.timestamp_ } := by
    simp [UKF.ProcessMeasurement, hs, hm, identityLiteral_eq_one, mul_comm]
  refine ⟨hx, ?_⟩
  intro h0 h1
  rw [hx]
  simp only [h0, h1, Real.cos_zero, Real.sin_zero]
  norm_num

/-- The scenario of C2 on a freshly constructed filter: the range reading
`(rho, phi, rho_dot) = (5.0, 0, 7)` at time `1000` gives the mean `[5, 0, 0, 0, 0]`
whatever the range rate, the identity covariance and an initialized filter. -/
theorem C2_radar_bootstrap_witness :
    (UKF.ProcessMeasurement id (UKF.construct 0 0 0)
        ⟨SensorType.RADAR, fun i => if i = 0 then 5.0 else if i = 1 then 0 else 7, 1000⟩).x_
        = ![5, 0, 0, 0, 0]
      ∧ (UKF.ProcessMeasurement id (UKF.construct 0 0 0)
        ⟨SensorType.RADAR, fun i => if i = 0 then 5.0 else if i = 1 then 0 else 7, 1000⟩).P_ = 1
      ∧ (UKF.ProcessMeasurement id (UKF.construct 0 0 0)
        ⟨SensorType.RADAR, fun i => if i = 0 then 5.0 else if i = 1 then 0 else 7,
          1000⟩).is_initialized_ = true
      ∧ (UKF.ProcessMeasurement id (UKF.construct 0 0 0)
        ⟨SensorType.RADAR, fun i => if i = 0 then 5.0 else if i = 1 then 0 else 7,
          1000⟩).time_us_ = 1000 := by
  have h := C2_radar_bootstrap id (UKF.construct 0 0 0)
    ⟨SensorType.RADAR, fun i => if i = 0 then 5.0 else if i = 1 then 0 else 7, 1000⟩ rfl rfl
  obtain ⟨h1, h2⟩ := h
  refine ⟨h2 (by norm_num) (by norm_num), ?_, ?_, ?_⟩
  · rw [h1]
  · rw [h1]
  · rw [h1]

/-- C3: on an uninitialized filter, a measurement whose sensor type is neither RADAR
nor LASER is discarded: the call returns normally and the filter is exactly as before
(still uninitialized; mean, covariance, time and NIS scalars unchanged). -/
theorem C3_unknown_sensor_discarded
    (llt : Matrix (Fin 7) (Fin 7) ℝ → Matrix (Fin 7) (Fin 7) ℝ)
    (s : UKF) (m : MeasurementPackage)
    (hs : s.is_initialized_ = false)
    (hr : m.sensor_type_ ≠ SensorType.RADAR) (hl : m.sensor_type_ ≠ SensorType.LASER) :
    UKF.ProcessMeasurement llt s m = s
      ∧ (UKF.ProcessMeasurement llt s m).is_initialized_ = false
      ∧ (UKF.ProcessMeasurement llt s m).x_ = s.x_
      ∧ (UKF.ProcessMeasurement llt s m).P_ = s.P_
      ∧ (UKF.ProcessMeasurement llt s m).time_us_ = s.time_us_
      ∧ (UKF.ProcessMeasurement llt s m).NIS_laser_ = s.NIS_laser_
      ∧ (UKF.ProcessMeasurement llt s m).NIS_radar_ = s.NIS_radar_ := by
  have h : UKF.ProcessMeasurement llt s m = s := by
    simp [UKF.ProcessMeasurement, hs, hr, hl]
  rw [h]
  exact ⟨rfl, hs, rfl, rfl, rfl, rfl, rfl⟩

/-- The scenario of C3 on a freshly constructed filter: a reading tagged with an
unknown sensor type leaves the filter as constructed, uninitialized at time `0`. -/
theorem C3_unknown_sensor_discarded_witness :
    UKF.ProcessMeasurement id (UKF.construct 0 0 0)
        ⟨SensorType.UNKNOWN 2, fun _ => 1, 1000⟩ = UKF.construct 0 0 0
      ∧ (UKF.ProcessMeasurement id (UKF.construct 0 0 0)
        ⟨SensorType.UNKNOWN 2, fun _ => 1, 1000⟩).is_initialized_ = false
      ∧ (UKF.ProcessMeasurement id (UKF.construct 0 0 0)
        ⟨SensorType.UNKNOWN 2, fun _ => 1, 1000⟩).time_us_ = 0 := by
  have h := C3_unknown_sensor_discarded id (UKF.construct 0 0 0)
    ⟨SensorType.UNKNOWN 2, fun _ => 1, 1000⟩ rfl (by simp) (by simp)
  exact ⟨h.1, h.2.1, h.2.2.2.2.1⟩

/-! ## Angle normalisation in exact arithmetic (claim C10) -/

/-- The subtracting loop ends at most at `π`; it leaves a value `≤ π` alone, ends
above `-π` when it started above `π`, and moves by a whole number of turns. -/
theorem subWhileAbovePi_spec (x : ℝ) :
    subWhileAbovePi x ≤ Real.pi ∧ (x ≤ Real.pi → subWhileAbovePi x = x) ∧
      (Real.pi < x → -Real.pi < subWhileAbovePi x) ∧
      ∃ k : ℤ, subWhileAbovePi x = x + k * (2 * Real.pi) := by
  induction x using subWhileAbovePi.induct with
  | case1 x h ih =>
    rw [subWhileAbovePi, dif_pos h]
    obtain ⟨ih1, ih2, ih3, k, hk⟩ := ih
    refine ⟨ih1, fun h' => absurd h (not_lt.mpr h'), fun _ => ?_, k - 1, ?_⟩
    · by_cases h2 : x - 2 * Real.pi ≤ Real.pi
      · rw [ih2 h2]
        linarith
      · exact ih3 (lt_of_not_le h2)
    · rw [hk]
      push_cast
      ring
  | case2 x h =>
    rw [subWhileAbovePi, dif_neg h]
    exact ⟨not_lt.mp h, fun _ => rfl, fun h' => absurd h' h, 0, by simp⟩

/-- The adding loop ends at least at `-π`; it leaves a value `≥ -π` alone, ends
below `π` when it started below `-π`, and moves by a whole number of turns. -/
theorem addWhileBelowNegPi_spec (x : ℝ) :
    -Real.pi ≤ addWhileBelowNegPi x ∧ (-Real.pi ≤ x → addWhileBelowNegPi x = x) ∧
      (x < -Real.pi → addWhileBelowNegPi x < Real.pi) ∧
      ∃ k : ℤ, addWhileBelowNegPi x = x + k * (2 * Real.pi) := by
  induction x using addWhileBelowNegPi.induct with
  | case1 x h ih =>
    rw [addWhileBelowNegPi, dif_pos h]
    obtain ⟨ih1, ih2, ih3, k, hk⟩ := ih
    refine ⟨ih1, fun h' => absurd h (not_lt.mpr h'), fun _ => ?_, k + 1, ?_⟩
    · by_cases h2 : -Real.pi ≤ x + 2 * Real.pi
      · rw [ih2 h2]
        linarith
      · exact ih3 (lt_of_not_le h2)
    · rw [hk]
      push_cast
      ring
  | case2 x h =>
    rw [addWhileBelowNegPi, dif_neg h]
    exact ⟨not_lt.mp h, fun _ => rfl, fun h' => absurd h' h, 0, by simp⟩

/-- The normalisation leaves a value of `[-π, π]` as it is. -/
theorem normalizeAngle_of_mem (d : ℝ) (h1 : -Real.pi ≤ d) (h2 : d ≤ Real.pi) :
    normalizeAngle d = d := by
  unfold normalizeAngle
  rw [(subWhileAbovePi_spec d).2.1 h2, (addWhileBelowNegPi_spec d).2.1 h1]

/-- The normalisation returns a value of the closed interval `[-π, π]`. -/
theorem normalizeAngle_mem (d : ℝ) :
    -Real.pi ≤ normalizeAngle d ∧ normalizeAngle d ≤ Real.pi := by
  obtain ⟨s1, -, -, -⟩ := subWhileAbovePi_spec d
  obtain ⟨a1, a2, a3, -⟩ := addWhileBelowNegPi_spec (subWhileAbovePi d)
  unfold normalizeAngle
  refine ⟨a1, ?_⟩
  by_cases h : -Real.pi ≤ subWhileAbovePi d
  · rw [a2 h]
    exact s1
  · exact le_of_lt (a3 (lt_of_not_le h))

/-- C10 as stated fails at `d = -π`: the adding loop tests `d < -π`, so `-π` is
returned as it is, and the result is not in the half-open interval `(-π, π]`. -/
theorem C10_normalizeAngle_counterexample :
    normalizeAngle (-Real.pi) = -Real.pi
      ∧ ¬ (-Real.pi < normalizeAngle (-Real.pi) ∧ normalizeAngle (-Real.pi) ≤ Real.pi) := by
  have hpi := Real.pi_pos
  have h : normalizeAngle (-Real.pi) = -Real.pi :=
    normalizeAngle_of_mem _ le_rfl (by linarith)
  refine ⟨h, ?_⟩
  rw [h]
  intro h'
  exact lt_irrefl _ h'.1

/-! ## Sub-stepping of the elapsed time in exact arithmetic -/

/-- The loop of lines 131-135 on an elapsed time of at most `0.1` does nothing. -/
theorem subStepLoop_of_le {σ : Type} (step : σ → ℝ → σ) (s : σ) (dt : ℝ) (h : dt ≤ 0.1) :
    subStepLoop step s dt = (s, dt) := by
  rw [subStepLoop, dif_neg (not_lt.mpr h)]

/-- On an initialized filter `ProcessMeasurement` is lines 127-143: store the time
stamp, run the sub-stepping loop, predict over what is left of `delta_t`, and update
by `UpdateRadar` for a RADAR measurement and by `UpdateLidar` for any other. -/
theorem ProcessMeasurement_of_initialized
    (llt : Matrix (Fin 7) (Fin 7) ℝ → Matrix (Fin 7) (Fin 7) ℝ)
    (s : UKF) (m : MeasurementPackage) (hs : s.is_initialized_ = true) :
    UKF.ProcessMeasurement llt s m =
      if m.sensor_type_ = SensorType.RADAR then
        UKF.UpdateRadar (UKF.Prediction llt
          (subStepLoop (UKF.Prediction llt) { s with time_us_ := m.timestamp_ }
            (((m.timestamp_ - s.time_us_ : ℤ) : ℝ) / 1000000)).1
          (subStepLoop (UKF.Prediction llt) { s with time_us_ := m.timestamp_ }
            (((m.timestamp_ - s.time_us_ : ℤ) : ℝ) / 1000000)).2) m
      else
        UKF.UpdateLidar (UKF.Prediction llt
          (subStepLoop (UKF.Prediction llt) { s with time_us_ := m.timestamp_ }
            (((m.timestamp_ - s.time_us_ : ℤ) : ℝ) / 1000000)).1
          (subStepLoop (UKF.Prediction llt) { s with time_us_ := m.timestamp_ }
            (((m.timestamp_ - s.time_us_ : ℤ) : ℝ) / 1000000)).2) m := by
  have h6 : (1000000.0 : ℝ) = 1000000 := by norm_num
  unfold UKF.ProcessMeasurement
  rw [if_neg (by rw [hs]; decide)]
  simp only [h6]

/-! ## The weights (claim C6) -/

/-- A property of the state that every step keeps holds of the state the sub-stepping
loop returns. -/
theorem subStepLoop_preserves {σ : Type} (step : σ → ℝ → σ) (Q : σ → Prop)
    (hstep : ∀ s dt, Q s → Q (step s dt)) (s : σ) (dt : ℝ) :
    Q s → Q (subStepLoop step s dt).1 := by
  induction s, dt using subStepLoop.induct step with
  | case1 s dt hdt ih =>
    intro h
    rw [subStepLoop, dif_pos hdt]
    exact ih (hstep s _ h)
  | case2 s dt hdt =>
    intro h
    rw [subStepLoop, dif_neg hdt]
    exact h

/-- C6: the weights the constructor computes are `w_0 = 0` and `w_i = 0.5 / 7` for
`i = 1..14`, they sum to exactly `1`, and none of `ProcessMeasurement`, `Prediction`,
`UpdateLidar`, `UpdateRadar` changes the member `weights_`. -/
theorem C6_weights_sum_and_frame :
    (∀ P0 Xp0 Xa0, (UKF.construct P0 Xp0 Xa0).weights_ 0 = 0
        ∧ (∀ i, i ≠ 0 → (UKF.construct P0 Xp0 Xa0).weights_ i = 0.5 / 7)
        ∧ ∑ i, (UKF.construct P0 Xp0 Xa0).weights_ i = 1)
      ∧ (∀ llt s m, (UKF.ProcessMeasurement llt s m).weights_ = s.weights_)
      ∧ (∀ llt s dt, (UKF.Prediction llt s dt).weights_ = s.weights_)
      ∧ (∀ s m, (UKF.UpdateLidar s m).weights_ = s.weights_)
      ∧ (∀ s m, (UKF.UpdateRadar s m).weights_ = s.weights_) := by
  refine ⟨?_, ?_, fun _ _ _ => rfl, fun _ _ => rfl, fun _ _ => rfl⟩
  · intro P0 Xp0 Xa0
    refine ⟨by simp [UKF.construct], ?_, ?_⟩
    · intro i hi
      simp [UKF.construct, hi]
    · rw [Fin.sum_univ_succ]
      simp [UKF.construct, Fin.succ_ne_zero]
      norm_num
  · intro llt s m
    cases hs : s.is_initialized_ with
    | false =>
      unfold UKF.ProcessMeasurement
      rw [if_pos (by rw [hs]; decide)]
      split_ifs <;> rfl
    | true =>
      rw [ProcessMeasurement_of_initialized llt s m hs]
      have hloop : (subStepLoop (UKF.Prediction llt) { s with time_us_ := m.timestamp_ }
          (((m.timestamp_ - s.time_us_ : ℤ) : ℝ) / 1000000)).1.weights_ = s.weights_ :=
        subStepLoop_preserves (UKF.Prediction llt) (fun s' => s'.weights_ = s.weights_)
          (fun _ _ h => h) _ _ rfl
      split_ifs
      · exact hloop
      · exact hloop

/-! ## Prediction over zero elapsed time (claims C7, C8) -/

/-- A sum over the 15 sigma-point columns, split as the code numbers them: column `0`,
columns `i + 1` and columns `i + 1 + 7` for `i < 7`. -/
theorem sum_sigma_columns {M : Type} [AddCommMonoid M] (f : Fin 15 → M) :
    ∑ c, f c = f 0 + ∑ i : Fin 7, f ⟨i.val + 1, by omega⟩
      + ∑ i : Fin 7, f ⟨i.val + 8, by omega⟩ := by
  simp only [Fin.sum_univ_succ, Fin.sum_univ_zero, Fin.val_succ, Fin.val_zero]
  simp only [add_zero, zero_add, add_assoc]
  rfl

/-- The weights of a configured filter: `0` for column `0`, `1 / 14` for the others. -/
theorem UKF.Configured.weights_apply {s : UKF} (hc : s.Configured) (c : Fin 15) :
    s.weights_ c = if c = 0 then 0 else 1 / 14 := by
  rw [hc.1]
  simp [UKF.construct]
  norm_num

/-- With `delta_t = 0` the process model returns the first five components of the
augmented sigma point unchanged. -/
theorem predictSigmaPoint_zero (p : Fin 7 → ℝ) :
    predictSigmaPoint 0 p = ![p 0, p 1, p 2, p 3, p 4] := by
  simp [predictSigmaPoint]

/-- Column `0` of the augmented sigma points is the augmented mean. -/
theorem augmentedSigmaPoints_zero (lambda : ℝ) (xa : Fin 7 → ℝ) (A : Matrix (Fin 7) (Fin 7) ℝ)
    (r : Fin 7) : augmentedSigmaPoints lambda xa A r 0 = xa r := by
  simp [augmentedSigmaPoints]

/-- Column `i + 1` of the augmented sigma points. -/
theorem augmentedSigmaPoints_plus (lambda : ℝ) (xa : Fin 7 → ℝ) (A : Matrix (Fin 7) (Fin 7) ℝ)
    (r i : Fin 7) :
    augmentedSigmaPoints lambda xa A r ⟨i.val + 1, by omega⟩
      = xa r + Real.sqrt (lambda + 7) * A r i := by
  have h : i.val + 1 < 8 := by omega
  simp [augmentedSigmaPoints, h]

/-- Column `i + 1 + 7` of the augmented sigma points. -/
theorem augmentedSigmaPoints_minus (lambda : ℝ) (xa : Fin 7 → ℝ) (A : Matrix (Fin 7) (Fin 7) ℝ)
    (r i : Fin 7) :
    augmentedSigmaPoints lambda xa A r ⟨i.val + 8, by omega⟩
      = xa r - Real.sqrt (lambda + 7) * A r i := by
  have h : ¬ i.val + 8 < 8 := by omega
  simp [augmentedSigmaPoints, h]

/-- With `delta_t = 0` the predicted sigma points are the first five rows of the
augmented sigma points. -/
theorem Prediction_zero_Xsig_pred (llt : Matrix (Fin 7) (Fin 7) ℝ → Matrix (Fin 7) (Fin 7) ℝ)
    (s : UKF) (r : Fin 5) (c : Fin 15) :
    (UKF.Prediction llt s 0).Xsig_pred_ r c
      = augmentedSigmaPoints s.lambda_ (augmentedMean s.x_)
          (llt (augmentedCovariance s.P_ s.std_a_ s.std_yawdd_)) (Fin.castLE (by norm_num) r) c := by
  simp only [UKF.Prediction, predictSigmaPoint_zero]
  fin_cases r <;> rfl

/-- The augmented mean restricted to the first five components is the state mean. -/
theorem augmentedMean_castLE (x : Fin 5 → ℝ) (r : Fin 5) :
    augmentedMean x (Fin.castLE (by norm_num) r) = x r := by
  simp [augmentedMean]

/-- The weighted mean of sigma points placed symmetrically around `x`, under the
constructor's weights, is `x`. -/
theorem weightedMean_symmetric {s : UKF} (hc : s.Configured) (X : Matrix (Fin 5) (Fin 15) ℝ)
    (x : Fin 5 → ℝ) (D : Matrix (Fin 5) (Fin 7) ℝ)
    (hplus : ∀ r (i : Fin 7), X r ⟨i.val + 1, by omega⟩ = x r + D r i)
    (hminus : ∀ r (i : Fin 7), X r ⟨i.val + 8, by omega⟩ = x r - D r i) :
    weightedMean s.weights_ X = x := by
  funext r
  simp only [weightedMean, Finset.sum_apply, Pi.smul_apply, smul_eq_mul]
  rw [sum_sigma_columns]
  simp only [hc.weights_apply, hplus, hminus]
  simp [Fin.ext_iff, Finset.sum_add_distrib, Finset.sum_sub_distrib, ← Finset.mul_sum]
  ring

/-- The mean after `Prediction(0)` of a configured filter is the mean before. -/
theorem Prediction_zero_x (llt : Matrix (Fin 7) (Fin 7) ℝ → Matrix (Fin 7) (Fin 7) ℝ)
    (s : UKF) (hc : s.Configured) : (UKF.Prediction llt s 0).x_ = s.x_ := by
  have h : (UKF.Prediction llt s 0).x_ = weightedMean s.weights_ (UKF.Prediction llt s 0).Xsig_pred_ :=
    rfl
  rw [h]
  apply weightedMean_symmetric hc _ _
    (fun r i => Real.sqrt (s.lambda_ + 7)
      * llt (augmentedCovariance s.P_ s.std_a_ s.std_yawdd_) (Fin.castLE (by norm_num) r) i)
  · intro r i
    rw [Prediction_zero_Xsig_pred, augmentedSigmaPoints_plus, augmentedMean_castLE]
  · intro r i
    rw [Prediction_zero_Xsig_pred, augmentedSigmaPoints_minus, augmentedMean_castLE]

/-- The state deviation of a sigma point whose yaw deviation is within `[-π, π]` is the
plain difference. -/
theorem stateDiff_of_mem (X : Matrix (Fin 5) (Fin 15) ℝ) (x : Fin 5 → ℝ) (c : Fin 15)
    (h1 : -Real.pi ≤ X 3 c - x 3) (h2 : X 3 c - x 3 ≤ Real.pi) :
    stateDiff X x c = fun r => X r c - x r := by
  unfold stateDiff
  simp only [normalizeAngle_of_mem _ h1 h2]
  exact Function.update_eq_self 3 _

/-- The covariance rebuilt from sigma points placed symmetrically around `x` at the
columns of `D`, under the constructor's weights, is `(1 / 7) • D * Dᵀ` when no yaw
deviation leaves `[-π, π]`. -/
theorem covariance_symmetric {s : UKF} (hc : s.Configured) (X : Matrix (Fin 5) (Fin 15) ℝ)
    (x : Fin 5 → ℝ) (D : Matrix (Fin 5) (Fin 7) ℝ)
    (hplus : ∀ r (i : Fin 7), X r ⟨i.val + 1, by omega⟩ = x r + D r i)
    (hminus : ∀ r (i : Fin 7), X r ⟨i.val + 8, by omega⟩ = x r - D r i)
    (hD : ∀ i, |D 3 i| ≤ Real.pi) :
    ∑ c, s.weights_ c • vecMulVec (stateDiff X x c) (stateDiff X x c)
      = (1 / 7 : ℝ) • (D * Dᵀ) := by
  have hp : ∀ i : Fin 7, stateDiff X x ⟨i.val + 1, by omega⟩ = fun r => D r i := by
    intro i
    have h := abs_le.mp (hD i)
    rw [stateDiff_of_mem]
    · funext r
      rw [hplus]
      ring
    · rw [hplus]
      linarith
    · rw [hplus]
      linarith
  have hm : ∀ i : Fin 7, stateDiff X x ⟨i.val + 8, by omega⟩ = fun r => - D r i := by
    intro i
    have h := abs_le.mp (hD i)
    rw [stateDiff_of_mem]
    · funext r
      rw [hminus]
      ring
    · rw [hminus]
      linarith
    · rw [hminus]
      linarith
  rw [sum_sigma_columns]
  simp only [hc.weights_apply, hp, hm]
  ext a b
  simp [Fin.ext_iff, Matrix.add_apply, Matrix.sum_apply, Matrix.smul_apply, vecMulVec_apply,
    Matrix.mul_apply, ← Finset.sum_add_distrib, Finset.mul_sum]
  apply Finset.sum_congr rfl
  intro i _
  ring

/-- With `delta_t = 0`, a factor `L` with `L * Lᵀ = P_aug` and every yaw deviation
`sqrt 7 * L 3 i` within `[-π, π]`, `Prediction` rebuilds the covariance it started from. -/
theorem Prediction_zero_P (llt : Matrix (Fin 7) (Fin 7) ℝ → Matrix (Fin 7) (Fin 7) ℝ)
    (s : UKF) (hc : s.Configured)
    (hL : llt (augmentedCovariance s.P_ s.std_a_ s.std_yawdd_)
        * (llt (augmentedCovariance s.P_ s.std_a_ s.std_yawdd_))ᵀ
      = augmentedCovariance s.P_ s.std_a_ s.std_yawdd_)
    (hyaw : ∀ i, |Real.sqrt 7 * llt (augmentedCovariance s.P_ s.std_a_ s.std_yawdd_) 3 i|
      ≤ Real.pi) :
    (UKF.Prediction llt s 0).P_ = s.P_ := by
  have hlam : s.lambda_ = 0 := hc.2.1
  have h : (UKF.Prediction llt s 0).P_ = ∑ c, s.weights_ c •
      vecMulVec (stateDiff (UKF.Prediction llt s 0).Xsig_pred_ (UKF.Prediction llt s 0).x_ c)
        (stateDiff (UKF.Prediction llt s 0).Xsig_pred_ (UKF.Prediction llt s 0).x_ c) := rfl
  rw [h, Prediction_zero_x llt s hc]
  rw [covariance_symmetric hc _ _
    (fun r i => Real.sqrt 7
      * llt (augmentedCovariance s.P_ s.std_a_ s.std_yawdd_) (Fin.castLE (by norm_num) r) i)]
  · ext a b
    have hab := congrFun (congrFun hL (Fin.castLE (by norm_num) a)) (Fin.castLE (by norm_num) b)
    have h7 : Real.sqrt 7 * Real.sqrt 7 = 7 := Real.mul_self_sqrt (by norm_num)
    have hP : augmentedCovariance s.P_ s.std_a_ s.std_yawdd_
        (Fin.castLE (by norm_num) a) (Fin.castLE (by norm_num) b) = s.P_ a b := by
      simp [augmentedCovariance]
    rw [hP] at hab
    rw [← hab]
    simp only [Matrix.smul_apply, Matrix.mul_apply, Matrix.transpose_apply, smul_eq_mul,
      Finset.mul_sum]
    apply Finset.sum_congr rfl
    intro i _
    linear_combination (1 / 7 : ℝ)
      * llt (augmentedCovariance s.P_ s.std_a_ s.std_yawdd_) (Fin.castLE (by norm_num) a) i
      * llt (augmentedCovariance s.P_ s.std_a_ s.std_yawdd_) (Fin.castLE (by norm_num) b) i * h7
  · intro r i
    rw [Prediction_zero_Xsig_pred, augmentedSigmaPoints_plus, augmentedMean_castLE, hlam,
      zero_add]
  · intro r i
    rw [Prediction_zero_Xsig_pred, augmentedSigmaPoints_minus, augmentedMean_castLE, hlam,
      zero_add]
  · intro i
    exact hyaw i

/-- The yaw variance `P_(3, 3)` that `Prediction` rebuilds is at most `π²`, whatever the
state, the factorisation and `delta_t`: every yaw deviation is normalised into
`[-π, π]` and the weights are non-negative with sum `1`. -/
theorem Prediction_yaw_variance_le (llt : Matrix (Fin 7) (Fin 7) ℝ → Matrix (Fin 7) (Fin 7) ℝ)
    (s : UKF) (hc : s.Configured) (dt : ℝ) :
    (UKF.Prediction llt s dt).P_ 3 3 ≤ Real.pi ^ 2 := by
  have h : (UKF.Prediction llt s dt).P_ = ∑ c, s.weights_ c •
      vecMulVec (stateDiff (UKF.Prediction llt s dt).Xsig_pred_ (UKF.Prediction llt s dt).x_ c)
        (stateDiff (UKF.Prediction llt s dt).Xsig_pred_ (UKF.Prediction llt s dt).x_ c) := rfl
  rw [h]
  simp only [Matrix.sum_apply, Matrix.smul_apply, vecMulVec_apply, smul_eq_mul]
  have hbound : ∀ c : Fin 15, s.weights_ c *
      (stateDiff (UKF.Prediction llt s dt).Xsig_pred_ (UKF.Prediction llt s dt).x_ c 3
        * stateDiff (UKF.Prediction llt s dt).Xsig_pred_ (UKF.Prediction llt s dt).x_ c 3)
      ≤ s.weights_ c * Real.pi ^ 2 := by
    intro c
    have hw : 0 ≤ s.weights_ c := by
      rw [hc.weights_apply]
      split_ifs <;> norm_num
    apply mul_le_mul_of_nonneg_left _ hw
    have hn : stateDiff (UKF.Prediction llt s dt).Xsig_pred_ (UKF.Prediction llt s dt).x_ c 3
        = normalizeAngle ((UKF.Prediction llt s dt).Xsig_pred_ 3 c
            - (UKF.Prediction llt s dt).x_ 3) := by
      simp [stateDiff]
    rw [hn]
    obtain ⟨h1, h2⟩ := normalizeAngle_mem
      ((UKF.Prediction llt s dt).Xsig_pred_ 3 c - (UKF.Prediction llt s dt).x_ 3)
    nlinarith
  calc ∑ c, s.weights_ c *
      (stateDiff (UKF.Prediction llt s dt).Xsig_pred_ (UKF.Prediction llt s dt).x_ c 3
        * stateDiff (UKF.Prediction llt s dt).Xsig_pred_ (UKF.Prediction llt s dt).x_ c 3)
      ≤ ∑ c, s.weights_ c * Real.pi ^ 2 := Finset.sum_le_sum fun c _ => hbound c
    _ = Real.pi ^ 2 := by
      rw [← Finset.sum_mul, sum_sigma_columns]
      simp [hc.weights_apply, Fin.ext_iff]
      norm_num

theorem bootstrappedSample_configured : bootstrappedSample.Configured :=
  ⟨rfl, rfl, rfl, rfl, rfl, rfl, rfl, rfl, rfl⟩

theorem wideYawSample_configured : wideYawSample.Configured :=
  ⟨rfl, rfl, rfl, rfl, rfl, rfl, rfl, rfl, rfl⟩

/-- The augmented covariance of a diagonal covariance is diagonal. -/
theorem augmentedCovariance_diagonal (d : Fin 5 → ℝ) (a b : ℝ) :
    augmentedCovariance (Matrix.diagonal d) a b = Matrix.diagonal (augmentedDiagonal d a b) := by
  ext r c
  fin_cases r <;> fin_cases c <;>
    simp [augmentedCovariance, augmentedDiagonal, Matrix.diagonal, Fin.coe_ofNat_eq_mod]

/-- On a diagonal matrix with non-negative diagonal, `diagonalCholesky` is a Cholesky
factor: `L * Lᵀ` is the matrix. -/
theorem diagonalCholesky_mul_transpose (v : Fin 7 → ℝ) (hv : ∀ i, 0 ≤ v i) :
    diagonalCholesky (Matrix.diagonal v) * (diagonalCholesky (Matrix.diagonal v))ᵀ
      = Matrix.diagonal v := by
  simp only [diagonalCholesky, Matrix.diagonal_apply_eq, Matrix.diagonal_transpose,
    Matrix.diagonal_mul_diagonal]
  rw [show (fun i => Real.sqrt (v i) * Real.sqrt (v i)) = v from
    funext fun i => Real.mul_self_sqrt (hv i)]

/-- The entries of `diagonalCholesky` on a diagonal matrix. -/
theorem diagonalCholesky_apply (v : Fin 7 → ℝ) (r i : Fin 7) :
    diagonalCholesky (Matrix.diagonal v) r i = if r = i then Real.sqrt (v r) else 0 := by
  simp [diagonalCholesky, Matrix.diagonal_apply]

/-- C7: with `delta_t = 0`, `Prediction` on a filter with the constructor's weights
leaves the state mean as it was, for every mean, covariance and factorisation: the
weighted sum of the 15 propagated sigma points equals `x_` exactly. -/
theorem C7_prediction_zero_mean (llt : Matrix (Fin 7) (Fin 7) ℝ → Matrix (Fin 7) (Fin 7) ℝ)
    (s : UKF) (hc : s.Configured) :
    (UKF.Prediction llt s 0).x_ = s.x_
      ∧ weightedMean s.weights_ (UKF.Prediction llt s 0).Xsig_pred_ = s.x_ :=
  ⟨Prediction_zero_x llt s hc, Prediction_zero_x llt s hc⟩

/-- The scenario of C7: the bootstrapped sample filter, with the Cholesky factor of its
diagonal augmented covariance, keeps its mean `[5, 3, 0, 0, 0]` under `Prediction(0)`. -/
theorem C7_prediction_zero_mean_witness :
    (UKF.Prediction diagonalCholesky bootstrappedSample 0).x_ = ![5, 3, 0, 0, 0] :=
  (C7_prediction_zero_mean diagonalCholesky bootstrappedSample bootstrappedSample_configured).1

/-- C8, as the code has it: with `delta_t = 0`, a factor `L` of the augmented covariance
(`L * Lᵀ = P_aug`) and every yaw deviation `sqrt 7 * L 3 i` of a sigma point within
`[-π, π]`, `Prediction` on a filter with the constructor's parameters leaves the
covariance as it was. -/
theorem C8_prediction_zero_covariance
    (llt : Matrix (Fin 7) (Fin 7) ℝ → Matrix (Fin 7) (Fin 7) ℝ) (s : UKF) (hc : s.Configured)
    (hL : llt (augmentedCovariance s.P_ s.std_a_ s.std_yawdd_)
        * (llt (augmentedCovariance s.P_ s.std_a_ s.std_yawdd_))ᵀ
      = augmentedCovariance s.P_ s.std_a_ s.std_yawdd_)
    (hyaw : ∀ i, |Real.sqrt 7 * llt (augmentedCovariance s.P_ s.std_a_ s.std_yawdd_) 3 i|
      ≤ Real.pi) :
    (UKF.Prediction llt s 0).P_ = s.P_ :=
  Prediction_zero_P llt s hc hL hyaw

/-- The augmented covariance of the bootstrapped sample filter is diagonal. -/
theorem bootstrappedSample_augmented :
    augmentedCovariance bootstrappedSample.P_ bootstrappedSample.std_a_
        bootstrappedSample.std_yawdd_
      = Matrix.diagonal (augmentedDiagonal (fun _ => 1) 0.8 0.6) := by
  rw [← augmentedCovariance_diagonal, Matrix.diagonal_one]
  rfl

/-- The augmented covariance of the wide-yaw sample filter is diagonal. -/
theorem wideYawSample_augmented :
    augmentedCovariance wideYawSample.P_ wideYawSample.std_a_ wideYawSample.std_yawdd_
      = Matrix.diagonal (augmentedDiagonal ![1, 1, 1, 16, 1] 0.8 0.6) := by
  rw [← augmentedCovariance_diagonal]
  rfl

/-- The scenario of C8: the bootstrapped sample filter (identity covariance, yaw
deviations `± sqrt 7` within `[-π, π]`) keeps its covariance under `Prediction(0)`. -/
theorem C8_prediction_zero_covariance_witness :
    (UKF.Prediction diagonalCholesky bootstrappedSample 0).P_ = 1 := by
  have hnn : ∀ i, 0 ≤ augmentedDiagonal (fun _ => 1) 0.8 0.6 i := by
    intro i
    fin_cases i <;> simp [augmentedDiagonal, Fin.coe_ofNat_eq_mod] <;> norm_num
  refine C8_prediction_zero_covariance diagonalCholesky bootstrappedSample
    bootstrappedSample_configured ?_ ?_
  · rw [bootstrappedSample_augmented]
    exact diagonalCholesky_mul_transpose _ hnn
  · intro i
    rw [bootstrappedSample_augmented, diagonalCholesky_apply]
    have h7 : Real.sqrt 7 ≤ 3 := by
      rw [Real.sqrt_le_left (by norm_num)]
      norm_num
    have hpi := Real.pi_gt_three
    split_ifs
    · simp [augmentedDiagonal, Fin.coe_ofNat_eq_mod]
      rw [abs_of_nonneg (Real.sqrt_nonneg 7)]
      linarith
    · simp
      linarith

/-- C8 as stated fails on the wide-yaw sample filter: its covariance
`diag(1, 1, 1, 16, 1)` is symmetric positive semi-definite and the augmented covariance
has the Cholesky factor `diag(1, 1, 1, 4, 1, 0.8, 0.6)`, but the yaw deviations
`± 4 * sqrt 7` are wrapped into `[-π, π]`, so the rebuilt yaw variance is at most
`π² < 16` and `Prediction(0)` changes the covariance. -/
theorem C8_prediction_zero_covariance_counterexample :
    wideYawSample.P_.IsSymm ∧ wideYawSample.P_.PosSemidef
      ∧ diagonalCholesky
            (augmentedCovariance wideYawSample.P_ wideYawSample.std_a_ wideYawSample.std_yawdd_)
          * (diagonalCholesky
            (augmentedCovariance wideYawSample.P_ wideYawSample.std_a_
              wideYawSample.std_yawdd_))ᵀ
        = augmentedCovariance wideYawSample.P_ wideYawSample.std_a_ wideYawSample.std_yawdd_
      ∧ (UKF.Prediction diagonalCholesky wideYawSample 0).P_ 3 3 ≤ Real.pi ^ 2
      ∧ wideYawSample.P_ 3 3 = 16
      ∧ (UKF.Prediction diagonalCholesky wideYawSample 0).P_ ≠ wideYawSample.P_ := by
  have hnn5 : ∀ i, 0 ≤ (![1, 1, 1, 16, 1] : Fin 5 → ℝ) i := by
    intro i
    fin_cases i <;> simp
  have hnn : ∀ i, 0 ≤ augmentedDiagonal ![1, 1, 1, 16, 1] 0.8 0.6 i := by
    intro i
    fin_cases i <;> simp [augmentedDiagonal, Fin.coe_ofNat_eq_mod] <;> norm_num
  have hP : wideYawSample.P_ = Matrix.diagonal ![1, 1, 1, 16, 1] := rfl
  have h33 : wideYawSample.P_ 3 3 = 16 := by
    rw [hP]
    simp
  have hle := Prediction_yaw_variance_le diagonalCholesky wideYawSample wideYawSample_configured 0
  refine ⟨?_, ?_, ?_, hle, h33, ?_⟩
  · rw [hP]
    exact Matrix.isSymm_diagonal _
  · rw [hP]
    exact Matrix.PosSemidef.diagonal hnn5
  · rw [wideYawSample_augmented]
    exact diagonalCholesky_mul_transpose _ hnn
  · intro h
    rw [h, h33] at hle
    have hpi := Real.pi_lt_d2
    have hpos := Real.pi_pos
    nlinarith

/-! ## The covariance after an update (claim C9) -/

/-- A non-negative multiple of `v * vᵀ` is positive semi-definite. -/
theorem posSemidef_smul_vecMulVec_self {n : Type} [Fintype n] (w : ℝ) (hw : 0 ≤ w) (v : n → ℝ) :
    (w • vecMulVec v v).PosSemidef := by
  refine ⟨?_, ?_⟩
  · ext a b
    simp [vecMulVec_apply, mul_comm]
  · intro x
    have h : star x ⬝ᵥ (w • vecMulVec v v) *ᵥ x = w * ((x ⬝ᵥ v) * (x ⬝ᵥ v)) := by
      simp only [star_trivial, Matrix.smul_mulVec_assoc, dotProduct_smul, smul_eq_mul]
      congr 1
      simp only [dotProduct, mulVec, vecMulVec_apply, Finset.sum_mul, Finset.mul_sum]
      apply Finset.sum_congr rfl
      intro a _
      apply Finset.sum_congr rfl
      intro b _
      ring
    rw [h]
    exact mul_nonneg hw (mul_self_nonneg _)

/-- A finite sum of positive semi-definite matrices is positive semi-definite. -/
theorem posSemidef_sum {n ι : Type} [Fintype n] (t : Finset ι) (M : ι → Matrix n n ℝ)
    (h : ∀ i, (M i).PosSemidef) : (∑ i in t, M i).PosSemidef := by
  classical
  induction t using Finset.induction_on with
  | empty =>
    rw [Finset.sum_empty]
    exact Matrix.PosSemidef.zero
  | insert hi ih =>
    rw [Finset.sum_insert hi]
    exact (h _).add ih

/-- The covariance update of the unscented filter keeps the covariance positive
semi-definite: with non-negative weights `w`, state deviations `d i`, measurement
deviations `e i` and a positive definite noise matrix `R`, and with
`P = ∑ w (d dᵀ)`, `Tc = ∑ w (d eᵀ)`, `S = ∑ w (e eᵀ) + R`, `K = Tc * S⁻¹`, the matrix
`P - K * S * Kᵀ` is positive semi-definite (a Schur complement of the joint covariance). -/
theorem update_posSemidef {n m : Type} [Fintype n] [Fintype m] [DecidableEq n] [DecidableEq m]
    (w : Fin 15 → ℝ) (hw : ∀ i, 0 ≤ w i) (d : Fin 15 → n → ℝ) (e : Fin 15 → m → ℝ)
    (R : Matrix m m ℝ) (hR : R.PosDef) :
    ((∑ i, w i • vecMulVec (d i) (d i))
      - ((∑ i, w i • vecMulVec (d i) (e i)) * ((∑ i, w i • vecMulVec (e i) (e i)) + R)⁻¹)
        * ((∑ i, w i • vecMulVec (e i) (e i)) + R)
        * ((∑ i, w i • vecMulVec (d i) (e i))
            * ((∑ i, w i • vecMulVec (e i) (e i)) + R)⁻¹)ᵀ).PosSemidef := by
  set P : Matrix n n ℝ := ∑ i, w i • vecMulVec (d i) (d i) with hPdef
  set Tc : Matrix n m ℝ := ∑ i, w i • vecMulVec (d i) (e i) with hTdef
  set Szz : Matrix m m ℝ := ∑ i, w i • vecMulVec (e i) (e i) with hSdef
  have hSzz : Szz.PosSemidef :=
    posSemidef_sum _ _ fun i => posSemidef_smul_vecMulVec_self (w i) (hw i) (e i)
  have hS : (Szz + R).PosDef := Matrix.PosDef.posSemidef_add hSzz hR
  haveI : Invertible (Szz + R) := hS.isUnit.invertible
  have hdet : IsUnit (Szz + R).det := (Matrix.isUnit_iff_isUnit_det _).mp hS.isUnit
  have hSsymm : (Szz + R)ᵀ = Szz + R := by
    have h := hS.isHermitian
    rwa [Matrix.IsHermitian, Matrix.conjTranspose_eq_transpose_of_trivial] at h
  -- the gain form `K * S * Kᵀ` is `Tc * S⁻¹ * Tcᵀ`
  have hK : Tc * (Szz + R)⁻¹ * (Szz + R) * (Tc * (Szz + R)⁻¹)ᵀ
      = Tc * (Szz + R)⁻¹ * Tcᴴ := by
    rw [Matrix.mul_assoc Tc, Matrix.nonsing_inv_mul _ hdet, Matrix.mul_one,
      Matrix.transpose_mul, Matrix.transpose_nonsing_inv, hSsymm,
      Matrix.conjTranspose_eq_transpose_of_trivial, Matrix.mul_assoc]
  rw [hK, ← Matrix.PosSemidef.fromBlocks₂₂ P Tc hS]
  -- the joint covariance is a sum of positive semi-definite matrices
  have hjoint : Matrix.fromBlocks P Tc Tcᴴ (Szz + R)
      = (∑ i, w i • vecMulVec (Sum.elim (d i) (e i)) (Sum.elim (d i) (e i)))
        + Matrix.fromBlocks 0 0 0 R := by
    ext a b
    rcases a with a | a <;> rcases b with b | b <;>
      simp [hPdef, hTdef, hSdef, Matrix.sum_apply, vecMulVec_apply, Matrix.add_apply, mul_comm]
  rw [hjoint]
  apply Matrix.PosSemidef.add
  · exact posSemidef_sum _ _ fun i => posSemidef_smul_vecMulVec_self (w i) (hw i) _
  · haveI : Invertible R := hR.isUnit.invertible
    have h0 := (Matrix.PosSemidef.fromBlocks₂₂ (0 : Matrix n n ℝ) (0 : Matrix n m ℝ) hR).mpr
      (by simpa using Matrix.PosSemidef.zero)
    simpa using h0

/-- The lidar noise matrix `R` of a configured filter is positive definite. -/
theorem lidar_noise_posDef {s : UKF} (hc : s.Configured) :
    (!![s.std_laspx_ * s.std_laspx_, 0; 0, s.std_laspy_ * s.std_laspy_] :
      Matrix (Fin 2) (Fin 2) ℝ).PosDef := by
  have hx : s.std_laspx_ = 0.15 := hc.2.2.2.2.1
  have hy : s.std_laspy_ = 0.15 := hc.2.2.2.2.2.1
  have hR : (!![s.std_laspx_ * s.std_laspx_, 0; 0, s.std_laspy_ * s.std_laspy_] :
      Matrix (Fin 2) (Fin 2) ℝ)
      = Matrix.diagonal ![s.std_laspx_ * s.std_laspx_, s.std_laspy_ * s.std_laspy_] := by
    ext a b
    fin_cases a <;> fin_cases b <;> simp
  rw [hR]
  apply Matrix.PosDef.diagonal
  intro i
  fin_cases i <;> simp [hx, hy] <;> norm_num

/-- The radar noise matrix `R` of a configured filter is positive definite. -/
theorem radar_noise_posDef {s : UKF} (hc : s.Configured) :
    (!![s.std_radr_ * s.std_radr_, 0, 0;
        0, s.std_radphi_ * s.std_radphi_, 0;
        0, 0, s.std_radrd_ * s.std_radrd_] : Matrix (Fin 3) (Fin 3) ℝ).PosDef := by
  have hr : s.std_radr_ = 0.3 := hc.2.2.2.2.2.2.1
  have hp : s.std_radphi_ = 0.03 := hc.2.2.2.2.2.2.2.1
  have hd : s.std_radrd_ = 0.3 := hc.2.2.2.2.2.2.2.2
  have hR : (!![s.std_radr_ * s.std_radr_, 0, 0;
        0, s.std_radphi_ * s.std_radphi_, 0;
        0, 0, s.std_radrd_ * s.std_radrd_] : Matrix (Fin 3) (Fin 3) ℝ)
      = Matrix.diagonal ![s.std_radr_ * s.std_radr_, s.std_radphi_ * s.std_radphi_,
          s.std_radrd_ * s.std_radrd_] := by
    ext a b
    fin_cases a <;> fin_cases b <;> simp [vecHead, vecTail]
  rw [hR]
  apply Matrix.PosDef.diagonal
  intro i
  fin_cases i <;> simp [hr, hp, hd] <;> norm_num

/-- The weights of a configured filter are non-negative. -/
theorem UKF.Configured.weights_nonneg {s : UKF} (hc : s.Configured) (c : Fin 15) :
    0 ≤ s.weights_ c := by
  rw [hc.weights_apply]
  split_ifs <;> norm_num

/-- A real positive semi-definite matrix is symmetric. -/
theorem isSymm_of_posSemidef {n : Type} [Fintype n] {M : Matrix n n ℝ} (h : M.PosSemidef) :
    M.IsSymm := by
  have h1 := h.isHermitian
  rwa [Matrix.IsHermitian, Matrix.conjTranspose_eq_transpose_of_trivial] at h1

/-- The covariance after `Prediction` and `UpdateLidar` is positive semi-definite. -/
theorem lidar_update_posSemidef (llt : Matrix (Fin 7) (Fin 7) ℝ → Matrix (Fin 7) (Fin 7) ℝ)
    (s : UKF) (hc : s.Configured) (dt : ℝ) (m : MeasurementPackage) :
    (UKF.UpdateLidar (UKF.Prediction llt s dt) m).P_.PosSemidef :=
  update_posSemidef s.weights_ hc.weights_nonneg
    (stateDiff (UKF.Prediction llt s dt).Xsig_pred_ (UKF.Prediction llt s dt).x_)
    (fun i r => ![(UKF.Prediction llt s dt).Xsig_pred_ 0 i,
        (UKF.Prediction llt s dt).Xsig_pred_ 1 i] r
      - weightedMean s.weights_ (fun r i => ![(UKF.Prediction llt s dt).Xsig_pred_ 0 i,
        (UKF.Prediction llt s dt).Xsig_pred_ 1 i] r) r)
    _ (lidar_noise_posDef hc)

/-- The covariance after `Prediction` and `UpdateRadar` is positive semi-definite. -/
theorem radar_update_posSemidef (llt : Matrix (Fin 7) (Fin 7) ℝ → Matrix (Fin 7) (Fin 7) ℝ)
    (s : UKF) (hc : s.Configured) (dt : ℝ) (m : MeasurementPackage) :
    (UKF.UpdateRadar (UKF.Prediction llt s dt) m).P_.PosSemidef :=
  update_posSemidef s.weights_ hc.weights_nonneg
    (stateDiff (UKF.Prediction llt s dt).Xsig_pred_ (UKF.Prediction llt s dt).x_)
    (fun i => bearingNormalized (fun r =>
      radarMeasurement (fun k => (UKF.Prediction llt s dt).Xsig_pred_ k i) r
      - weightedMean s.weights_ (fun r i =>
          radarMeasurement (fun k => (UKF.Prediction llt s dt).Xsig_pred_ k i) r) r))
    _ (radar_noise_posDef hc)

/-- C9: for a filter with the constructor's parameters, every factorisation, every
`dt` and every measurement, the covariance `P - K * S * Kᵀ` left by `Prediction(dt)`
followed by `UpdateLidar` is symmetric and positive semi-definite, and so is the one
left by `Prediction(dt)` followed by `UpdateRadar` whenever every predicted sigma point
has non-zero range. -/
theorem C9_covariance_symmetric_psd
    (llt : Matrix (Fin 7) (Fin 7) ℝ → Matrix (Fin 7) (Fin 7) ℝ)
    (s : UKF) (hc : s.Configured) (dt : ℝ) (m : MeasurementPackage) :
    ((UKF.UpdateLidar (UKF.Prediction llt s dt) m).P_.IsSymm
        ∧ (UKF.UpdateLidar (UKF.Prediction llt s dt) m).P_.PosSemidef)
      ∧ ((∀ i, radarMeasurement (fun k => (UKF.Prediction llt s dt).Xsig_pred_ k i) 0 ≠ 0) →
          (UKF.UpdateRadar (UKF.Prediction llt s dt) m).P_.IsSymm
            ∧ (UKF.UpdateRadar (UKF.Prediction llt s dt) m).P_.PosSemidef) :=
  ⟨⟨isSymm_of_posSemidef (lidar_update_posSemidef llt s hc dt m),
      lidar_update_posSemidef llt s hc dt m⟩,
    fun _ => ⟨isSymm_of_posSemidef (radar_update_posSemidef llt s hc dt m),
      radar_update_posSemidef llt s hc dt m⟩⟩

/-- On the bootstrapped sample filter with `delta_t = 0`, every predicted sigma point
has a positive first coordinate: it is `5`, `5 + sqrt 7` or `5 - sqrt 7`. -/
theorem bootstrappedSample_px_pos (c : Fin 15) :
    0 < (UKF.Prediction diagonalCholesky bootstrappedSample 0).Xsig_pred_ 0 c := by
  rw [Prediction_zero_Xsig_pred, bootstrappedSample_augmented]
  have h7 : Real.sqrt 7 ≤ 3 := by
    rw [Real.sqrt_le_left (by norm_num)]
    norm_num
  have h7' := Real.sqrt_nonneg 7
  have hx : augmentedMean bootstrappedSample.x_ (Fin.castLE (by norm_num : 5 ≤ 7) (0 : Fin 5)) = 5 := by
    rw [augmentedMean_castLE]
    rfl
  have hlam : bootstrappedSample.lambda_ = 0 := rfl
  have hL : ∀ j : Fin 7, 0 ≤ diagonalCholesky
      (Matrix.diagonal (augmentedDiagonal (fun _ => 1) 0.8 0.6)) (Fin.castLE (by norm_num : 5 ≤ 7) (0 : Fin 5)) j
      ∧ diagonalCholesky
      (Matrix.diagonal (augmentedDiagonal (fun _ => 1) 0.8 0.6)) (Fin.castLE (by norm_num : 5 ≤ 7) (0 : Fin 5)) j
        ≤ 1 := by
    intro j
    rw [diagonalCholesky_apply]
    split_ifs
    · simp [augmentedDiagonal]
    · simp
  unfold augmentedSigmaPoints
  rw [hx, hlam, zero_add]
  split_ifs
  · norm_num
  · have := hL ⟨c.val - 1, by omega⟩
    nlinarith
  · have := hL ⟨c.val - 8, by omega⟩
    nlinarith

/-- The range of a point with positive first coordinate is not zero. -/
theorem radarMeasurement_range_ne_zero (v : Fin 5 → ℝ) (h : 0 < v 0) :
    radarMeasurement v 0 ≠ 0 := by
  have hpos : 0 < v 0 * v 0 + v 1 * v 1 := by nlinarith [mul_self_nonneg (v 1)]
  have : radarMeasurement v 0 = Real.sqrt (v 0 * v 0 + v 1 * v 1) := by
    simp [radarMeasurement]
  rw [this]
  exact ne_of_gt (Real.sqrt_pos.mpr hpos)

/-- The scenario of C9: the bootstrapped sample filter, predicted over `0` seconds and
updated with a lidar reading or with a radar reading (every sigma point has non-zero
range there), has a symmetric positive semi-definite covariance. -/
theorem C9_covariance_symmetric_psd_witness :
    ((UKF.UpdateLidar (UKF.Prediction diagonalCholesky bootstrappedSample 0)
          ⟨SensorType.LASER, fun _ => 1, 0⟩).P_.IsSymm
      ∧ (UKF.UpdateLidar (UKF.Prediction diagonalCholesky bootstrappedSample 0)
          ⟨SensorType.LASER, fun _ => 1, 0⟩).P_.PosSemidef)
    ∧ ((UKF.UpdateRadar (UKF.Prediction diagonalCholesky bootstrappedSample 0)
          ⟨SensorType.RADAR, fun _ => 1, 0⟩).P_.IsSymm
      ∧ (UKF.UpdateRadar (UKF.Prediction diagonalCholesky bootstrappedSample 0)
          ⟨SensorType.RADAR, fun _ => 1, 0⟩).P_.PosSemidef) :=
  ⟨(C9_covariance_symmetric_psd diagonalCholesky bootstrappedSample
      bootstrappedSample_configured 0 ⟨SensorType.LASER, fun _ => 1, 0⟩).1,
    (C9_covariance_symmetric_psd diagonalCholesky bootstrappedSample
      bootstrappedSample_configured 0 ⟨SensorType.RADAR, fun _ => 1, 0⟩).2
      (fun i => radarMeasurement_range_ne_zero _ (bootstrappedSample_px_pos i))⟩

/-! ## The sensor toggles (claim C5) -/

theorem laserDisabledSample_configured : laserDisabledSample.Configured :=
  ⟨rfl, rfl, rfl, rfl, rfl, rfl, rfl, rfl, rfl⟩

/-- The innovation covariance `S = ∑ w (e eᵀ) + R` is positive definite when the
weights are non-negative and `R` is positive definite. -/
theorem innovation_posDef {m : Type} [Fintype m] (w : Fin 15 → ℝ) (hw : ∀ i, 0 ≤ w i)
    (e : Fin 15 → m → ℝ) (R : Matrix m m ℝ) (hR : R.PosDef) :
    ((∑ i, w i • vecMulVec (e i) (e i)) + R).PosDef :=
  Matrix.PosDef.posSemidef_add
    (posSemidef_sum _ _ fun i => posSemidef_smul_vecMulVec_self (w i) (hw i) (e i)) hR

/-- The predicted lidar measurement is the first two components of the weighted mean
of the predicted sigma points. -/
theorem lidar_z_pred (w : Fin 15 → ℝ) (X : Matrix (Fin 5) (Fin 15) ℝ) :
    weightedMean w (fun r i => ![X 0 i, X 1 i] r) = ![weightedMean w X 0, weightedMean w X 1] := by
  funext r
  fin_cases r <;> simp [weightedMean]

/-- The NIS stored by `UpdateLidar` on a configured filter is positive when the
measurement differs from the predicted measurement in its first component. -/
theorem lidar_NIS_pos (s : UKF) (hc : s.Configured) (m : MeasurementPackage)
    (hz : m.raw_measurements_ 0 ≠ weightedMean s.weights_ s.Xsig_pred_ 0) :
    0 < (UKF.UpdateLidar s m).NIS_laser_ := by
  have hS := innovation_posDef s.weights_ hc.weights_nonneg
    (fun i r => ![s.Xsig_pred_ 0 i, s.Xsig_pred_ 1 i] r
      - weightedMean s.weights_ (fun r i => ![s.Xsig_pred_ 0 i, s.Xsig_pred_ 1 i] r) r)
    _ (lidar_noise_posDef hc)
  have hne : (![m.raw_measurements_ 0, m.raw_measurements_ 1]
      - weightedMean s.weights_ (fun r i => ![s.Xsig_pred_ 0 i, s.Xsig_pred_ 1 i] r)
      : Fin 2 → ℝ) ≠ 0 := by
    intro h
    have h0 := congrFun h 0
    rw [lidar_z_pred] at h0
    simp at h0
    exact hz (by linarith)
  have h := hS.inv.2 _ hne
  rw [star_trivial] at h
  exact h

/-- C5 fails on the code: the toggle `use_laser_` is never read. On the sample filter
with `use_laser_ = false`, already initialized, the position reading `(6, 3)` at the
filter's own time is processed by `Prediction(0)` followed by `UpdateLidar`: the NIS,
`0` after the prediction alone, is overwritten with a positive value. -/
theorem C5_disabled_laser_still_updates :
    laserDisabledSample.use_laser_ = false
      ∧ laserDisabledSample.is_initialized_ = true
      ∧ UKF.ProcessMeasurement diagonalCholesky laserDisabledSample laserReading
          = UKF.UpdateLidar (UKF.Prediction diagonalCholesky laserDisabledSample 0) laserReading
      ∧ (UKF.Prediction diagonalCholesky laserDisabledSample 0).NIS_laser_ = 0
      ∧ 0 < (UKF.ProcessMeasurement diagonalCholesky laserDisabledSample laserReading).NIS_laser_
      ∧ (UKF.ProcessMeasurement diagonalCholesky laserDisabledSample laserReading).NIS_laser_
          ≠ (UKF.Prediction diagonalCholesky laserDisabledSample 0).NIS_laser_ := by
  have hPM : UKF.ProcessMeasurement diagonalCholesky laserDisabledSample laserReading
      = UKF.UpdateLidar (UKF.Prediction diagonalCholesky laserDisabledSample 0) laserReading := by
    rw [ProcessMeasurement_of_initialized _ _ _ rfl]
    have hdt : (((laserReading.timestamp_ - laserDisabledSample.time_us_ : ℤ) : ℝ) / 1000000)
        = 0 := by
      simp [laserReading, laserDisabledSample, bootstrappedSample, UKF.construct]
    rw [hdt, subStepLoop_of_le _ _ _ (by norm_num)]
    rfl
  have hconf : (UKF.Prediction diagonalCholesky laserDisabledSample 0).Configured :=
    laserDisabledSample_configured
  have hpos : 0 < (UKF.UpdateLidar (UKF.Prediction diagonalCholesky laserDisabledSample 0)
      laserReading).NIS_laser_ := by
    apply lidar_NIS_pos _ hconf
    have hx : weightedMean (UKF.Prediction diagonalCholesky laserDisabledSample 0).weights_
        (UKF.Prediction diagonalCholesky laserDisabledSample 0).Xsig_pred_
        = laserDisabledSample.x_ :=
      Prediction_zero_x diagonalCholesky laserDisabledSample laserDisabledSample_configured
    rw [hx]
    simp [laserReading, laserDisabledSample, bootstrappedSample]
  have h0 : (UKF.Prediction diagonalCholesky laserDisabledSample 0).NIS_laser_ = 0 := rfl
  refine ⟨rfl, rfl, hPM, h0, ?_, ?_⟩
  · rw [hPM]
    exact hpos
  · rw [hPM, h0]
    exact ne_of_gt hpos

/-! ## The constructor's parameters are kept by every operation -/

/-- The constructor establishes `Configured`, whatever the unfilled storage holds. -/
theorem construct_configured (P0 : Matrix (Fin 5) (Fin 5) ℝ) (Xp0 : Matrix (Fin 5) (Fin 15) ℝ)
    (Xa0 : Matrix (Fin 7) (Fin 15) ℝ) : (UKF.construct P0 Xp0 Xa0).Configured :=
  ⟨rfl, rfl, rfl, rfl, rfl, rfl, rfl, rfl, rfl⟩

/-- `ProcessMeasurement` keeps `Configured`: no branch assigns a parameter member. -/
theorem ProcessMeasurement_configured
    (llt : Matrix (Fin 7) (Fin 7) ℝ → Matrix (Fin 7) (Fin 7) ℝ)
    (s : UKF) (m : MeasurementPackage) (hc : s.Configured) :
    (UKF.ProcessMeasurement llt s m).Configured := by
  cases hs : s.is_initialized_ with
  | false =>
    unfold UKF.ProcessMeasurement
    rw [if_pos (by rw [hs]; decide)]
    split_ifs <;> exact hc
  | true =>
    rw [ProcessMeasurement_of_initialized llt s m hs]
    have hloop : (subStepLoop (UKF.Prediction llt) { s with time_us_ := m.timestamp_ }
        (((m.timestamp_ - s.time_us_ : ℤ) : ℝ) / 1000000)).1.Configured :=
      subStepLoop_preserves (UKF.Prediction llt) UKF.Configured (fun _ _ h => h) _ _ hc
    split_ifs
    · exact hloop
    · exact hloop

/-- The bootstrapped sample filter is what `ProcessMeasurement` makes of a freshly
constructed filter and the position reading `(5.0, 3.0)` at time `0`. -/
theorem bootstrappedSample_reached :
    UKF.ProcessMeasurement id (UKF.construct 0 0 0)
      ⟨SensorType.LASER, fun i => if i = 0 then 5.0 else 3.0, 0⟩ = bootstrappedSample := by
  simp [UKF.ProcessMeasurement, UKF.construct, bootstrappedSample, identityLiteral_eq_one]
  norm_num

/-! ## The process model without noise (claims C12, C13) -/

/-- C12: with both noise components zero and `|yawd| ≤ 0.001`, the process model moves
the point along a straight line: it returns
`(px + v * dt * cos yaw, py + v * dt * sin yaw, v, yaw + yawd * dt, yawd)`, for every
`dt`. -/
theorem C12_straight_line_branch (dt : ℝ) (p : Fin 7 → ℝ)
    (h5 : p 5 = 0) (h6 : p 6 = 0) (hyawd : |p 4| ≤ 0.001) :
    predictSigmaPoint dt p =
      ![p 0 + p 2 * dt * Real.cos (p 3), p 1 + p 2 * dt * Real.sin (p 3), p 2,
        p 3 + p 4 * dt, p 4] := by
  have hn : ¬ |p 4| > 0.001 := not_lt.mpr hyawd
  simp only [predictSigmaPoint, h5, h6, if_neg hn]
  norm_num

/-- The scenario of C12: the point `[0, 0, 10, 0, 0]` without noise, over `dt = 1.0`,
goes to position `(10, 0)` with speed `10`, yaw `0` and yaw rate `0`. -/
theorem C12_straight_line_branch_witness :
    predictSigmaPoint 1.0 ![0, 0, 10, 0, 0, 0, 0] = ![10, 0, 10, 0, 0] := by
  have h := C12_straight_line_branch 1.0 ![0, 0, 10, 0, 0, 0, 0] rfl rfl
    (by simp [Fin.coe_ofNat_eq_mod]; norm_num)
  rw [h]
  simp [Fin.coe_ofNat_eq_mod]
  norm_num

/-- With zero noise and `|yawd| > 0.001`, the position the process model returns, in
closed form. -/
theorem predictSigmaPoint_curved (dt : ℝ) (p : Fin 7 → ℝ)
    (h5 : p 5 = 0) (hyawd : |p 4| > 0.001) :
    predictSigmaPoint dt p 0
        = p 0 + p 2 / p 4 * (Real.sin (p 3 + p 4 * dt) - Real.sin (p 3))
      ∧ predictSigmaPoint dt p 1
        = p 1 + p 2 / p 4 * (Real.cos (p 3) - Real.cos (p 3 + p 4 * dt)) := by
  simp [predictSigmaPoint, h5, if_pos hyawd]

/-- C13: with both noise components zero and `|yawd| > 0.001`, the position returned by
the process model, as a function of `dt`, solves the constant-turn-rate equations: it is
`(px, py)` at `dt = 0`, and at every `dt` its derivative is
`(v * cos (yaw + yawd * dt), v * sin (yaw + yawd * dt))`; the speed and the yaw rate are
returned unchanged and the yaw is `yaw + yawd * dt`. -/
theorem C13_curved_branch_solves_ode (p : Fin 7 → ℝ)
    (h5 : p 5 = 0) (h6 : p 6 = 0) (hyawd : |p 4| > 0.001) :
    predictSigmaPoint 0 p 0 = p 0 ∧ predictSigmaPoint 0 p 1 = p 1
      ∧ (∀ dt, HasDerivAt (fun t => predictSigmaPoint t p 0)
            (p 2 * Real.cos (p 3 + p 4 * dt)) dt)
      ∧ (∀ dt, HasDerivAt (fun t => predictSigmaPoint t p 1)
            (p 2 * Real.sin (p 3 + p 4 * dt)) dt)
      ∧ (∀ dt, predictSigmaPoint dt p 2 = p 2 ∧ predictSigmaPoint dt p 3 = p 3 + p 4 * dt
            ∧ predictSigmaPoint dt p 4 = p 4) := by
  have hne : p 4 ≠ 0 := by
    intro h
    rw [h, abs_zero] at hyawd
    norm_num at hyawd
  have hx : (fun t => predictSigmaPoint t p 0)
      = fun t => p 0 + p 2 / p 4 * (Real.sin (p 3 + p 4 * t) - Real.sin (p 3)) :=
    funext fun t => (predictSigmaPoint_curved t p h5 hyawd).1
  have hy : (fun t => predictSigmaPoint t p 1)
      = fun t => p 1 + p 2 / p 4 * (Real.cos (p 3) - Real.cos (p 3 + p 4 * t)) :=
    funext fun t => (predictSigmaPoint_curved t p h5 hyawd).2
  have hlin : ∀ dt, HasDerivAt (fun t => p 3 + p 4 * t) (p 4) dt := by
    intro dt
    simpa using ((hasDerivAt_id dt).const_mul (p 4)).const_add (p 3)
  refine ⟨?_, ?_, ?_, ?_, ?_⟩
  · rw [(predictSigmaPoint_curved 0 p h5 hyawd).1]
    simp
  · rw [(predictSigmaPoint_curved 0 p h5 hyawd).2]
    simp
  · intro dt
    rw [hx]
    have h := ((((hlin dt).sin).sub_const (Real.sin (p 3))).const_mul (p 2 / p 4)).const_add (p 0)
    convert h using 1
    field_simp
    ring
  · intro dt
    rw [hy]
    have h := ((((hlin dt).cos).const_sub (Real.cos (p 3))).const_mul (p 2 / p 4)).const_add (p 1)
    convert h using 1
    field_simp
    ring
  · intro dt
    simp [predictSigmaPoint, h5, h6]

/-- The scenario of C13: the point `[0, 0, 10, 0, 0.5]` without noise starts at `(0, 0)`
and moves with velocity `(10 * cos (0.5 * dt), 10 * sin (0.5 * dt))`. -/
theorem C13_curved_branch_solves_ode_witness :
    predictSigmaPoint 0 ![0, 0, 10, 0, 0.5, 0, 0] 0 = 0
      ∧ predictSigmaPoint 0 ![0, 0, 10, 0, 0.5, 0, 0] 1 = 0
      ∧ (∀ dt, HasDerivAt (fun t => predictSigmaPoint t ![0, 0, 10, 0, 0.5, 0, 0] 0)
            (10 * Real.cos (0 + 0.5 * dt)) dt)
      ∧ (∀ dt, HasDerivAt (fun t => predictSigmaPoint t ![0, 0, 10, 0, 0.5, 0, 0] 1)
            (10 * Real.sin (0 + 0.5 * dt)) dt) := by
  have h := C13_curved_branch_solves_ode ![0, 0, 10, 0, 0.5, 0, 0] rfl rfl
    (by
      show |(0.5 : ℝ)| > 0.001
      rw [abs_of_pos (by norm_num)]
      norm_num)
  exact ⟨h.1, h.2.1, h.2.2.1, h.2.2.2.1⟩

/-! ## Sigma-point generation (claim C14) -/

/-- The weighted mean of sigma points of any dimension placed symmetrically around `x`,
under the constructor's weights, is `x`. -/
theorem weightedMean_symmetric_any {n : ℕ} {s : UKF} (hc : s.Configured)
    (X : Matrix (Fin n) (Fin 15) ℝ) (x : Fin n → ℝ) (D : Matrix (Fin n) (Fin 7) ℝ)
    (hplus : ∀ r (i : Fin 7), X r ⟨i.val + 1, by omega⟩ = x r + D r i)
    (hminus : ∀ r (i : Fin 7), X r ⟨i.val + 8, by omega⟩ = x r - D r i) :
    weightedMean s.weights_ X = x := by
  funext r
  simp only [weightedMean, Finset.sum_apply, Pi.smul_apply, smul_eq_mul]
  rw [sum_sigma_columns]
  simp only [hc.weights_apply, hplus, hminus]
  simp [Fin.ext_iff, Finset.sum_add_distrib, Finset.sum_sub_distrib, ← Finset.mul_sum]
  ring

/-- The weighted covariance of sigma points of any dimension placed symmetrically
around `x` at the columns of `D`, under the constructor's weights and without any
normalisation, is `(1 / 7) • D * Dᵀ`. -/
theorem covariance_symmetric_any {n : ℕ} {s : UKF} (hc : s.Configured)
    (X : Matrix (Fin n) (Fin 15) ℝ) (x : Fin n → ℝ) (D : Matrix (Fin n) (Fin 7) ℝ)
    (hplus : ∀ r (i : Fin 7), X r ⟨i.val + 1, by omega⟩ = x r + D r i)
    (hminus : ∀ r (i : Fin 7), X r ⟨i.val + 8, by omega⟩ = x r - D r i) :
    ∑ c, s.weights_ c • vecMulVec (fun r => X r c - x r) (fun r => X r c - x r)
      = (1 / 7 : ℝ) • (D * Dᵀ) := by
  rw [sum_sigma_columns]
  simp only [hc.weights_apply, hplus, hminus]
  ext a b
  simp [Fin.ext_iff, Matrix.add_apply, Matrix.sum_apply, Matrix.smul_apply, vecMulVec_apply,
    Matrix.mul_apply, ← Finset.sum_add_distrib, Finset.mul_sum]
  apply Finset.sum_congr rfl
  intro i _
  ring

/-- C14: for every augmented mean `x_aug` and every matrix `L` with `L * Lᵀ = P_aug`,
the 15 sigma points `x_aug` and `x_aug ± sqrt(lambda_ + 7) * L.col(i)` of lines 172-176,
under the weights and `lambda_` of the constructor, have weighted mean exactly `x_aug`
and weighted covariance `∑ w_i (X_i - x_aug) (X_i - x_aug)ᵀ` exactly `P_aug`. -/
theorem C14_sigma_points_match_moments (s : UKF) (hc : s.Configured) (x_aug : Fin 7 → ℝ)
    (L P_aug : Matrix (Fin 7) (Fin 7) ℝ) (hL : L * Lᵀ = P_aug) :
    weightedMean s.weights_ (augmentedSigmaPoints s.lambda_ x_aug L) = x_aug
      ∧ ∑ c, s.weights_ c •
          vecMulVec (fun r => augmentedSigmaPoints s.lambda_ x_aug L r c - x_aug r)
            (fun r => augmentedSigmaPoints s.lambda_ x_aug L r c - x_aug r)
        = P_aug := by
  have hlam : s.lambda_ = 0 := hc.2.1
  have h7 : Real.sqrt 7 * Real.sqrt 7 = 7 := Real.mul_self_sqrt (by norm_num)
  have hplus : ∀ r (i : Fin 7), augmentedSigmaPoints s.lambda_ x_aug L r ⟨i.val + 1, by omega⟩
      = x_aug r + (Real.sqrt 7 • L) r i := by
    intro r i
    rw [augmentedSigmaPoints_plus, hlam, zero_add]
    rfl
  have hminus : ∀ r (i : Fin 7), augmentedSigmaPoints s.lambda_ x_aug L r ⟨i.val + 8, by omega⟩
      = x_aug r - (Real.sqrt 7 • L) r i := by
    intro r i
    rw [augmentedSigmaPoints_minus, hlam, zero_add]
    rfl
  refine ⟨weightedMean_symmetric_any hc _ _ _ hplus hminus, ?_⟩
  rw [covariance_symmetric_any hc _ _ _ hplus hminus, Matrix.transpose_smul,
    Matrix.smul_mul, Matrix.mul_smul, smul_smul, smul_smul, hL]
  have e : (1 / 7 : ℝ) * (Real.sqrt 7 * Real.sqrt 7) = 1 := by
    rw [h7]
    norm_num
  rw [mul_assoc, e, one_smul]

/-- The scenario of C14: the sigma points generated for the bootstrapped sample filter
from the Cholesky factor of its augmented covariance have the augmented mean
`[5, 3, 0, 0, 0, 0, 0]` as weighted mean and the augmented covariance as weighted
covariance. -/
theorem C14_sigma_points_match_moments_witness :
    weightedMean bootstrappedSample.weights_
        (augmentedSigmaPoints bootstrappedSample.lambda_ (augmentedMean bootstrappedSample.x_)
          (diagonalCholesky (augmentedCovariance bootstrappedSample.P_ bootstrappedSample.std_a_
            bootstrappedSample.std_yawdd_)))
        = augmentedMean ![5, 3, 0, 0, 0]
      ∧ ∑ c, bootstrappedSample.weights_ c •
          vecMulVec
            (fun r => augmentedSigmaPoints bootstrappedSample.lambda_
              (augmentedMean bootstrappedSample.x_)
              (diagonalCholesky (augmentedCovariance bootstrappedSample.P_
                bootstrappedSample.std_a_ bootstrappedSample.std_yawdd_)) r c
              - augmentedMean bootstrappedSample.x_ r)
            (fun r => augmentedSigmaPoints bootstrappedSample.lambda_
              (augmentedMean bootstrappedSample.x_)
              (diagonalCholesky (augmentedCovariance bootstrappedSample.P_
                bootstrappedSample.std_a_ bootstrappedSample.std_yawdd_)) r c
              - augmentedMean bootstrappedSample.x_ r)
        = augmentedCovariance bootstrappedSample.P_ bootstrappedSample.std_a_
            bootstrappedSample.std_yawdd_ := by
  have hnn : ∀ i, 0 ≤ augmentedDiagonal (fun _ => 1) 0.8 0.6 i := by
    intro i
    fin_cases i <;> simp [augmentedDiagonal, Fin.coe_ofNat_eq_mod] <;> norm_num
  exact C14_sigma_points_match_moments bootstrappedSample bootstrappedSample_configured
    (augmentedMean bootstrappedSample.x_) _ _
    (by
      rw [bootstrappedSample_augmented]
      exact diagonalCholesky_mul_transpose _ hnn)

/-! ## The innovation covariance and the NIS (claim C16) -/

/-- `UpdateLidar` in terms of its named parts. -/
theorem UpdateLidar_eq (s : UKF) (m : MeasurementPackage) :
    UKF.UpdateLidar s m =
      { s with
          NIS_laser_ := s.lidarInnovation m ⬝ᵥ (s.lidarS⁻¹ *ᵥ s.lidarInnovation m)
          x_ := s.x_ + (s.lidarTc * s.lidarS⁻¹) *ᵥ s.lidarInnovation m
          P_ := s.P_ - (s.lidarTc * s.lidarS⁻¹) * s.lidarS * (s.lidarTc * s.lidarS⁻¹)ᵀ } :=
  rfl

/-- `UpdateRadar` in terms of its named parts. -/
theorem UpdateRadar_eq (s : UKF) (m : MeasurementPackage) :
    UKF.UpdateRadar s m =
      { s with
          NIS_radar_ := s.radarInnovation m ⬝ᵥ (s.radarS⁻¹ *ᵥ s.radarInnovation m)
          x_ := s.x_ + (s.radarTc * s.radarS⁻¹) *ᵥ s.radarInnovation m
          P_ := s.P_ - (s.radarTc * s.radarS⁻¹) * s.radarS * (s.radarTc * s.radarS⁻¹)ᵀ } :=
  rfl

/-- On an initialized filter `ProcessMeasurement` is the update of the predicted state. -/
theorem ProcessMeasurement_eq_update
    (llt : Matrix (Fin 7) (Fin 7) ℝ → Matrix (Fin 7) (Fin 7) ℝ)
    (s : UKF) (m : MeasurementPackage) (hs : s.is_initialized_ = true) :
    UKF.ProcessMeasurement llt s m =
      if m.sensor_type_ = SensorType.RADAR then UKF.UpdateRadar (UKF.predictedFor llt s m) m
      else UKF.UpdateLidar (UKF.predictedFor llt s m) m :=
  ProcessMeasurement_of_initialized llt s m hs

/-- The lidar innovation covariance of a configured filter is positive definite. -/
theorem lidarS_posDef (s : UKF) (hc : s.Configured) : s.lidarS.PosDef :=
  innovation_posDef s.weights_ hc.weights_nonneg _ _ (lidar_noise_posDef hc)

/-- The radar innovation covariance of a configured filter is positive definite. -/
theorem radarS_posDef (s : UKF) (hc : s.Configured) : s.radarS.PosDef :=
  innovation_posDef s.weights_ hc.weights_nonneg _ _ (radar_noise_posDef hc)

/-- A real positive definite matrix is symmetric, has a unit determinant and is
inverted by `⁻¹` on both sides. -/
theorem posDef_invertible {n : Type} [Fintype n] [DecidableEq n] {M : Matrix n n ℝ}
    (h : M.PosDef) : M.IsSymm ∧ IsUnit M.det ∧ M * M⁻¹ = 1 ∧ M⁻¹ * M = 1 := by
  have hdet : IsUnit M.det := (Matrix.isUnit_iff_isUnit_det _).mp h.isUnit
  exact ⟨isSymm_of_posSemidef h.posSemidef, hdet, Matrix.mul_nonsing_inv _ hdet,
    Matrix.nonsing_inv_mul _ hdet⟩

/-- The quadratic form of the inverse of a positive definite matrix is non-negative,
and zero only at the zero vector. -/
theorem posDef_inv_quadratic {n : Type} [Fintype n] [DecidableEq n] {M : Matrix n n ℝ}
    (h : M.PosDef) (y : n → ℝ) :
    0 ≤ y ⬝ᵥ (M⁻¹ *ᵥ y) ∧ (y ⬝ᵥ (M⁻¹ *ᵥ y) = 0 ↔ y = 0) := by
  have hinv := h.inv
  by_cases hy : y = 0
  · subst hy
    simp
  · have hpos := hinv.2 y hy
    rw [star_trivial] at hpos
    exact ⟨le_of_lt hpos, ⟨fun h0 => absurd h0 (ne_of_gt hpos), fun h0 => absurd h0 hy⟩⟩

/-- The predicted lidar measurement after `Prediction(0)` on the bootstrapped sample
filter is `(5, 3)`. -/
theorem bootstrappedSample_lidar_z_pred :
    (UKF.Prediction diagonalCholesky bootstrappedSample 0).lidarPredictedMeasurement
      = ![5, 3] := by
  have hx : weightedMean bootstrappedSample.weights_
      (UKF.Prediction diagonalCholesky bootstrappedSample 0).Xsig_pred_
      = bootstrappedSample.x_ :=
    Prediction_zero_x diagonalCholesky bootstrappedSample bootstrappedSample_configured
  have hz := lidar_z_pred bootstrappedSample.weights_
    (UKF.Prediction diagonalCholesky bootstrappedSample 0).Xsig_pred_
  rw [hx] at hz
  exact hz

/-- A map of the state that commutes with every step commutes with the sub-stepping
loop. -/
theorem subStepLoop_map {σ : Type} (step : σ → ℝ → σ) (f : σ → σ)
    (hf : ∀ s dt, step (f s) dt = f (step s dt)) (s : σ) (dt : ℝ) :
    subStepLoop step (f s) dt = (f (subStepLoop step s dt).1, (subStepLoop step s dt).2) := by
  induction s, dt using subStepLoop.induct step with
  | case1 s dt hdt ih =>
    rw [subStepLoop, dif_pos hdt, hf, ih]
    conv_rhs => rw [subStepLoop, dif_pos hdt]
  | case2 s dt hdt =>
    rw [subStepLoop, dif_neg hdt]
    conv_rhs => rw [subStepLoop, dif_neg hdt]

/-- The predicted state for other prior NIS values is the predicted state with those
NIS values: prediction neither reads nor writes the NIS scalars. -/
theorem predictedFor_withNIS (llt : Matrix (Fin 7) (Fin 7) ℝ → Matrix (Fin 7) (Fin 7) ℝ)
    (s : UKF) (m : MeasurementPackage) (a b : ℝ) :
    UKF.predictedFor llt (s.withNIS a b) m = (UKF.predictedFor llt s m).withNIS a b := by
  have h := subStepLoop_map (UKF.Prediction llt) (fun s' : UKF => s'.withNIS a b)
    (fun _ _ => rfl) { s with time_us_ := m.timestamp_ }
    (((m.timestamp_ - s.time_us_ : ℤ) : ℝ) / 1000000)
  unfold UKF.predictedFor
  change UKF.Prediction llt
      (subStepLoop (UKF.Prediction llt)
        ((fun s' : UKF => s'.withNIS a b) { s with time_us_ := m.timestamp_ })
        (((m.timestamp_ - s.time_us_ : ℤ) : ℝ) / 1000000)).1
      (subStepLoop (UKF.Prediction llt)
        ((fun s' : UKF => s'.withNIS a b) { s with time_us_ := m.timestamp_ })
        (((m.timestamp_ - s.time_us_ : ℤ) : ℝ) / 1000000)).2 = _
  rw [h]
  rfl

/-- The predicted state carries the NIS scalars of the filter it started from. -/
theorem predictedFor_keeps_NIS (llt : Matrix (Fin 7) (Fin 7) ℝ → Matrix (Fin 7) (Fin 7) ℝ)
    (s : UKF) (m : MeasurementPackage) :
    (UKF.predictedFor llt s m).NIS_laser_ = s.NIS_laser_
      ∧ (UKF.predictedFor llt s m).NIS_radar_ = s.NIS_radar_ :=
  subStepLoop_preserves (UKF.Prediction llt)
    (fun s' => s'.NIS_laser_ = s.NIS_laser_ ∧ s'.NIS_radar_ = s.NIS_radar_)
    (fun _ _ h => h) { s with time_us_ := m.timestamp_ } _ ⟨rfl, rfl⟩

/-- C16: on an initialized filter, `ProcessMeasurement` of a LASER measurement stores
`innovationᵀ S⁻¹ innovation` of the predicted state in `NIS_laser_` and leaves
`NIS_radar_` as it was; of a RADAR measurement it stores the radar value in `NIS_radar_`
and leaves `NIS_laser_` as it was; and the resulting mean and covariance are the same
whatever the two NIS scalars held before. -/
theorem C16_NIS_frame (llt : Matrix (Fin 7) (Fin 7) ℝ → Matrix (Fin 7) (Fin 7) ℝ)
    (s : UKF) (m : MeasurementPackage) (hs : s.is_initialized_ = true) :
    (m.sensor_type_ = SensorType.LASER →
        (UKF.ProcessMeasurement llt s m).NIS_laser_
            = (UKF.predictedFor llt s m).lidarInnovation m
                ⬝ᵥ ((UKF.predictedFor llt s m).lidarS⁻¹
                  *ᵥ (UKF.predictedFor llt s m).lidarInnovation m)
          ∧ (UKF.ProcessMeasurement llt s m).NIS_radar_ = s.NIS_radar_)
      ∧ (m.sensor_type_ = SensorType.RADAR →
        (UKF.ProcessMeasurement llt s m).NIS_radar_
            = (UKF.predictedFor llt s m).radarInnovation m
                ⬝ᵥ ((UKF.predictedFor llt s m).radarS⁻¹
                  *ᵥ (UKF.predictedFor llt s m).radarInnovation m)
          ∧ (UKF.ProcessMeasurement llt s m).NIS_laser_ = s.NIS_laser_)
      ∧ (∀ a b : ℝ,
        (UKF.ProcessMeasurement llt (s.withNIS a b) m).x_
            = (UKF.ProcessMeasurement llt s m).x_
          ∧ (UKF.ProcessMeasurement llt (s.withNIS a b) m).P_
            = (UKF.ProcessMeasurement llt s m).P_) := by
  have hkeep := predictedFor_keeps_NIS llt s m
  refine ⟨?_, ?_, ?_⟩
  · intro hm
    rw [ProcessMeasurement_eq_update llt s m hs, if_neg (by rw [hm]; decide), UpdateLidar_eq]
    exact ⟨rfl, hkeep.2⟩
  · intro hm
    rw [ProcessMeasurement_eq_update llt s m hs, if_pos hm, UpdateRadar_eq]
    exact ⟨rfl, hkeep.1⟩
  · intro a b
    rw [ProcessMeasurement_eq_update llt s m hs,
      ProcessMeasurement_eq_update llt (s.withNIS a b) m hs,
      predictedFor_withNIS]
    split_ifs
    · exact ⟨rfl, rfl⟩
    · exact ⟨rfl, rfl⟩

/-- The scenario of C16: the bootstrapped sample filter, holding `7` and `9` in its NIS
members, processes the position reading `(6, 3)`: `NIS_radar_` is still `9`, and the
mean and covariance are those obtained from the filter with both NIS members `0`. -/
theorem C16_NIS_frame_witness :
    (UKF.ProcessMeasurement diagonalCholesky (bootstrappedSample.withNIS 7 9)
        laserReading).NIS_radar_ = 9
      ∧ (UKF.ProcessMeasurement diagonalCholesky (bootstrappedSample.withNIS 7 9)
        laserReading).x_
          = (UKF.ProcessMeasurement diagonalCholesky bootstrappedSample laserReading).x_
      ∧ (UKF.ProcessMeasurement diagonalCholesky (bootstrappedSample.withNIS 7 9)
        laserReading).P_
          = (UKF.ProcessMeasurement diagonalCholesky bootstrappedSample laserReading).P_ := by
  have h1 := C16_NIS_frame diagonalCholesky (bootstrappedSample.withNIS 7 9) laserReading rfl
  have h2 := C16_NIS_frame diagonalCholesky bootstrappedSample laserReading rfl
  exact ⟨(h1.1 rfl).2, (h2.2.2 7 9).1, (h2.2.2 7 9).2⟩

/-! ## The lidar update is the linear Kalman update (claim C17) -/

/-- The embedding of the two measurement indices into the five state indices. -/
theorem castLE_two_five :
    Fin.castLE (by norm_num : 2 ≤ 5) (0 : Fin 2) = 0
      ∧ Fin.castLE (by norm_num : 2 ≤ 5) (1 : Fin 2) = 1 :=
  ⟨rfl, rfl⟩

/-- The state deviation in its first two components is the plain difference: only
component `3` is angle-normalised. -/
theorem stateDiff_position (X : Matrix (Fin 5) (Fin 15) ℝ) (x : Fin 5 → ℝ) (i : Fin 15)
    (a : Fin 2) :
    stateDiff X x i (Fin.castLE (by norm_num) a) = lidarZsig X a i - x (Fin.castLE (by norm_num) a) := by
  fin_cases a <;> simp [stateDiff, lidarZsig, Function.update, castLE_two_five.2]

/-- `H x` is the first two components of `x`. -/
theorem positionH_mulVec (x : Fin 5 → ℝ) (a : Fin 2) :
    (positionH *ᵥ x) a = x (Fin.castLE (by norm_num) a) := by
  fin_cases a <;>
    simp [positionH, Matrix.mulVec, Matrix.dotProduct, Fin.sum_univ_succ, castLE_two_five.2]

/-- `P Hᵀ` is the first two columns of `P`. -/
theorem mul_positionH_transpose (P : Matrix (Fin 5) (Fin 5) ℝ) (r : Fin 5) (b : Fin 2) :
    (P * positionHᵀ) r b = P r (Fin.castLE (by norm_num) b) := by
  fin_cases b <;>
    simp [positionH, Matrix.mul_apply, Fin.sum_univ_succ, castLE_two_five.2]

/-- `H P Hᵀ` is the top left 2x2 block of `P`. -/
theorem positionH_mul_mul_transpose (P : Matrix (Fin 5) (Fin 5) ℝ) (a b : Fin 2) :
    (positionH * P * positionHᵀ) a b
      = P (Fin.castLE (by norm_num) a) (Fin.castLE (by norm_num) b) := by
  rw [Matrix.mul_assoc, Matrix.mul_apply]
  simp only [mul_positionH_transpose]
  fin_cases a <;> simp [positionH, Fin.sum_univ_succ, castLE_two_five.2]

/-- On a state whose mean and covariance are the weighted moments of its predicted
sigma points (as `Prediction` leaves them), the parts of the lidar update are read off
the mean and covariance: `z_pred` is the first two components of the mean, `S` the top
left block of the covariance plus `R`, and `Tc` the first two columns of the covariance. -/
theorem lidar_parts_of_moments (s : UKF)
    (hx : s.x_ = weightedMean s.weights_ s.Xsig_pred_)
    (hP : s.P_ = ∑ i, s.weights_ i •
      vecMulVec (stateDiff s.Xsig_pred_ s.x_ i) (stateDiff s.Xsig_pred_ s.x_ i)) :
    (∀ a, s.lidarPredictedMeasurement a = s.x_ (Fin.castLE (by norm_num) a))
      ∧ (∀ a b, s.lidarS a b
          = s.P_ (Fin.castLE (by norm_num) a) (Fin.castLE (by norm_num) b) + s.lidarR a b)
      ∧ (∀ r b, s.lidarTc r b = s.P_ r (Fin.castLE (by norm_num) b)) := by
  have hz : ∀ a, s.lidarPredictedMeasurement a = s.x_ (Fin.castLE (by norm_num) a) := by
    intro a
    have h := congrFun (lidar_z_pred s.weights_ s.Xsig_pred_) a
    rw [← hx] at h
    rw [show s.lidarPredictedMeasurement a
      = weightedMean s.weights_ (fun r i => ![s.Xsig_pred_ 0 i, s.Xsig_pred_ 1 i] r) a from rfl, h]
    fin_cases a <;> simp [castLE_two_five.2]
  have hPapp : ∀ r c, s.P_ r c
      = ∑ i, s.weights_ i * (stateDiff s.Xsig_pred_ s.x_ i r * stateDiff s.Xsig_pred_ s.x_ i c) := by
    intro r c
    conv_lhs => rw [hP]
    simp [Matrix.sum_apply, vecMulVec_apply]
  refine ⟨hz, ?_, ?_⟩
  · intro a b
    rw [hPapp]
    simp only [UKF.lidarS, Matrix.add_apply, Matrix.sum_apply, Matrix.smul_apply,
      vecMulVec_apply, smul_eq_mul, hz, stateDiff_position]
  · intro r b
    rw [hPapp]
    simp only [UKF.lidarTc, Matrix.sum_apply, Matrix.smul_apply, vecMulVec_apply, smul_eq_mul,
      hz, stateDiff_position]

/-- C17: for every prior state, factorisation and `dt`, `UpdateLidar` run after
`Prediction` is the linear Kalman update with `H = [I₂ | 0]`: the predicted measurement
is `H x`, the first two components of the predicted mean; `S` is `H P Hᵀ + R`, the top
left 2x2 block of the predicted covariance plus `R = diag(std_laspx², std_laspy²)`; `Tc`
is `P Hᵀ`, the first two columns of the predicted covariance; and the mean, covariance
and NIS it leaves are those of `linearKalmanUpdate`. -/
theorem C17_lidar_update_is_linear_kalman
    (llt : Matrix (Fin 7) (Fin 7) ℝ → Matrix (Fin 7) (Fin 7) ℝ)
    (s : UKF) (dt : ℝ) (m : MeasurementPackage) :
    ((UKF.Prediction llt s dt).lidarPredictedMeasurement
          = positionH *ᵥ (UKF.Prediction llt s dt).x_
        ∧ ∀ a, (UKF.Prediction llt s dt).lidarPredictedMeasurement a
          = (UKF.Prediction llt s dt).x_ (Fin.castLE (by norm_num) a))
      ∧ ((UKF.Prediction llt s dt).lidarS
          = positionH * (UKF.Prediction llt s dt).P_ * positionHᵀ
            + (UKF.Prediction llt s dt).lidarR
        ∧ (∀ a b, (UKF.Prediction llt s dt).lidarS a b
          = (UKF.Prediction llt s dt).P_ (Fin.castLE (by norm_num) a) (Fin.castLE (by norm_num) b)
            + (UKF.Prediction llt s dt).lidarR a b)
        ∧ (UKF.Prediction llt s dt).lidarR
          = Matrix.diagonal ![s.std_laspx_ * s.std_laspx_, s.std_laspy_ * s.std_laspy_])
      ∧ ((UKF.Prediction llt s dt).lidarTc = (UKF.Prediction llt s dt).P_ * positionHᵀ
        ∧ ∀ r b, (UKF.Prediction llt s dt).lidarTc r b
          = (UKF.Prediction llt s dt).P_ r (Fin.castLE (by norm_num) b))
      ∧ ((UKF.UpdateLidar (UKF.Prediction llt s dt) m).x_,
          (UKF.UpdateLidar (UKF.Prediction llt s dt) m).P_,
          (UKF.UpdateLidar (UKF.Prediction llt s dt) m).NIS_laser_)
        = linearKalmanUpdate positionH (UKF.Prediction llt s dt).lidarR
            (UKF.Prediction llt s dt).x_ (UKF.Prediction llt s dt).P_
            ![m.raw_measurements_ 0, m.raw_measurements_ 1] := by
  obtain ⟨hz, hS, hT⟩ := lidar_parts_of_moments (UKF.Prediction llt s dt) rfl rfl
  have hzH : (UKF.Prediction llt s dt).lidarPredictedMeasurement
      = positionH *ᵥ (UKF.Prediction llt s dt).x_ := by
    funext a
    rw [hz, positionH_mulVec]
  have hSH : (UKF.Prediction llt s dt).lidarS
      = positionH * (UKF.Prediction llt s dt).P_ * positionHᵀ
        + (UKF.Prediction llt s dt).lidarR := by
    ext a b
    rw [hS, Matrix.add_apply, positionH_mul_mul_transpose]
  have hTH : (UKF.Prediction llt s dt).lidarTc = (UKF.Prediction llt s dt).P_ * positionHᵀ := by
    ext r b
    rw [hT, mul_positionH_transpose]
  have hR : (UKF.Prediction llt s dt).lidarR
      = Matrix.diagonal ![s.std_laspx_ * s.std_laspx_, s.std_laspy_ * s.std_laspy_] := by
    ext a b
    fin_cases a <;> fin_cases b <;> simp [UKF.lidarR, UKF.Prediction]
  refine ⟨⟨hzH, hz⟩, ⟨hSH, hS, hR⟩, ⟨hTH, hT⟩, ?_⟩
  rw [UpdateLidar_eq]
  simp only [linearKalmanUpdate, UKF.lidarInnovation, ← hzH, ← hSH, ← hTH]

/-! ## Radar bootstrap and radar measurement model (claims C15, C20) -/

/-- The polar point `(rho, phi)` with `rho > 0` and `phi` in `(-π, π]` has range `rho`
and bearing `phi`. -/
theorem polar_round_trip (rho phi : ℝ) (hrho : 0 < rho) (h1 : -Real.pi < phi)
    (h2 : phi ≤ Real.pi) :
    Real.sqrt (Real.cos phi * rho * (Real.cos phi * rho) + Real.sin phi * rho * (Real.sin phi * rho))
        = rho
      ∧ atan2 (Real.sin phi * rho) (Real.cos phi * rho) = phi := by
  constructor
  · have e : Real.cos phi * rho * (Real.cos phi * rho) + Real.sin phi * rho * (Real.sin phi * rho)
        = rho * rho := by
      have := Real.sin_sq_add_cos_sq phi
      nlinarith
    rw [e]
    exact Real.sqrt_mul_self (le_of_lt hrho)
  · unfold atan2
    have e : (⟨Real.cos phi * rho, Real.sin phi * rho⟩ : ℂ)
        = (rho : ℂ) * (Complex.cos phi + Complex.sin phi * Complex.I) := by
      apply Complex.ext
      · simp [← Complex.ofReal_cos, ← Complex.ofReal_sin, mul_comm]
      · simp [← Complex.ofReal_cos, ← Complex.ofReal_sin, mul_comm]
    rw [e]
    exact Complex.arg_mul_cos_add_sin_mul_I hrho ⟨h1, h2⟩

/-- C20: for every `rho > 0` and `phi` in `(-π, π]`, the radar measurement model applied
to the state `[rho * cos phi, rho * sin phi, 0, 0, 0]` that the RADAR bootstrap of
`ProcessMeasurement` produces returns exactly `(rho, phi, 0)`. -/
theorem C20_radar_bootstrap_round_trip
    (llt : Matrix (Fin 7) (Fin 7) ℝ → Matrix (Fin 7) (Fin 7) ℝ)
    (s : UKF) (m : MeasurementPackage)
    (hs : s.is_initialized_ = false) (hm : m.sensor_type_ = SensorType.RADAR)
    (hrho : 0 < m.raw_measurements_ 0)
    (h1 : -Real.pi < m.raw_measurements_ 1) (h2 : m.raw_measurements_ 1 ≤ Real.pi) :
    (UKF.ProcessMeasurement llt s m).x_
        = ![m.raw_measurements_ 0 * Real.cos (m.raw_measurements_ 1),
            m.raw_measurements_ 0 * Real.sin (m.raw_measurements_ 1), 0, 0, 0]
      ∧ radarMeasurement (UKF.ProcessMeasurement llt s m).x_
        = ![m.raw_measurements_ 0, m.raw_measurements_ 1, 0] := by
  have hx : (UKF.ProcessMeasurement llt s m).x_
      = ![Real.cos (m.raw_measurements_ 1) * m.raw_measurements_ 0,
          Real.sin (m.raw_measurements_ 1) * m.raw_measurements_ 0, 0, 0, 0] := by
    simp [UKF.ProcessMeasurement, hs, hm]
  obtain ⟨hr, hp⟩ := polar_round_trip _ _ hrho h1 h2
  refine ⟨?_, ?_⟩
  · rw [hx]
    simp [mul_comm]
  · rw [hx]
    simp only [radarMeasurement, Matrix.cons_val_zero, Matrix.cons_val_one, Matrix.head_cons]
    rw [hr, hp]
    simp

/-- The scenario of C20: the radar reading `(rho, phi, rho_dot) = (5, π / 2, 7)` on a
freshly constructed filter bootstraps a state whose radar measurement is `(5, π / 2, 0)`. -/
theorem C20_radar_bootstrap_round_trip_witness :
    radarMeasurement
        (UKF.ProcessMeasurement id (UKF.construct 0 0 0)
          ⟨SensorType.RADAR, fun i => if i = 0 then 5 else if i = 1 then Real.pi / 2 else 7,
            1000⟩).x_
      = ![5, Real.pi / 2, 0] := by
  have hpi := Real.pi_pos
  have h := (C20_radar_bootstrap_round_trip id (UKF.construct 0 0 0)
    ⟨SensorType.RADAR, fun i => if i = 0 then 5 else if i = 1 then Real.pi / 2 else 7, 1000⟩
    rfl rfl (by norm_num) (by simp; linarith) (by simp; linarith)).2
  simpa using h

/-- The range computed at line 368 is zero exactly when `px = 0` and `py = 0`. -/
theorem radarMeasurement_range_eq_zero_iff (v : Fin 5 → ℝ) :
    radarMeasurement v 0 = 0 ↔ v 0 = 0 ∧ v 1 = 0 := by
  have h : radarMeasurement v 0 = Real.sqrt (v 0 * v 0 + v 1 * v 1) := by
    simp [radarMeasurement]
  rw [h, Real.sqrt_eq_zero (add_nonneg (mul_self_nonneg _) (mul_self_nonneg _))]
  constructor
  · intro h0
    constructor <;> nlinarith [mul_self_nonneg (v 0), mul_self_nonneg (v 1)]
  · rintro ⟨h0, h1⟩
    rw [h0, h1]
    ring

/-- The range rate computed at line 370 is a quotient by the range of line 368, for
every state vector: no branch guards the division. -/
theorem radarMeasurement_range_rate (v : Fin 5 → ℝ) :
    radarMeasurement v 2
      = (v 0 * Real.cos (v 3) * v 2 + v 1 * Real.sin (v 3) * v 2) / radarMeasurement v 0 := by
  simp [radarMeasurement]

/-- The central predicted sigma point of `Prediction` is the process model applied to
the augmented mean. -/
theorem Prediction_central_sigma_point
    (llt : Matrix (Fin 7) (Fin 7) ℝ → Matrix (Fin 7) (Fin 7) ℝ) (s : UKF) (dt : ℝ) (r : Fin 5) :
    (UKF.Prediction llt s dt).Xsig_pred_ r 0 = predictSigmaPoint dt (augmentedMean s.x_) r := by
  have h : (UKF.Prediction llt s dt).Xsig_pred_ r 0
      = predictSigmaPoint dt (fun k => augmentedSigmaPoints s.lambda_ (augmentedMean s.x_)
          (llt (augmentedCovariance s.P_ s.std_a_ s.std_yawdd_)) k 0) r := rfl
  rw [h]
  simp only [augmentedSigmaPoints_zero]

/-- The process model leaves the origin of the augmented space at the origin, for every
`dt`. -/
theorem predictSigmaPoint_origin (dt : ℝ) :
    predictSigmaPoint dt (augmentedMean ![0, 0, 0, 0, 0]) = ![0, 0, 0, 0, 0] := by
  have h : augmentedMean ![0, 0, 0, 0, 0] = fun _ => 0 := by
    funext r
    fin_cases r <;> simp [augmentedMean, Fin.coe_ofNat_eq_mod]
  rw [h]
  simp [predictSigmaPoint]

/-- The RADAR bootstrap of `ProcessMeasurement` (lines 100-109 and 116-124). -/
theorem radar_bootstrap_state (llt : Matrix (Fin 7) (Fin 7) ℝ → Matrix (Fin 7) (Fin 7) ℝ)
    (s : UKF) (m : MeasurementPackage)
    (hs : s.is_initialized_ = false) (hm : m.sensor_type_ = SensorType.RADAR) :
    UKF.ProcessMeasurement llt s m =
      { s with x_ := ![Real.cos (m.raw_measurements_ 1) * m.raw_measurements_ 0,
                       Real.sin (m.raw_measurements_ 1) * m.raw_measurements_ 0, 0, 0, 0]
               P_ := 1
               is_initialized_ := true
               time_us_ := m.timestamp_ } := by
  simp [UKF.ProcessMeasurement, hs, hm, identityLiteral_eq_one]

/-- C15: the range rate of `UpdateRadar` is a quotient by the range for every sigma
point, with no guard, and the range is `0` exactly when `px = 0` and `py = 0`. The zero
divisor is reached through `ProcessMeasurement`: a first RADAR reading with `rho = 0`
on a freshly constructed filter bootstraps the mean `[0, 0, 0, 0, 0]`, and for every
second RADAR reading at most `0.1 s` later the state handed to `UpdateRadar` has a
central predicted sigma point with `px = py = 0`, whose range, the divisor, is `0`. -/
theorem C15_radar_zero_range_reachable
    (llt : Matrix (Fin 7) (Fin 7) ℝ → Matrix (Fin 7) (Fin 7) ℝ)
    (P0 : Matrix (Fin 5) (Fin 5) ℝ) (Xp0 : Matrix (Fin 5) (Fin 15) ℝ)
    (Xa0 : Matrix (Fin 7) (Fin 15) ℝ) (m1 m2 : MeasurementPackage)
    (h1 : m1.sensor_type_ = SensorType.RADAR) (hrho : m1.raw_measurements_ 0 = 0)
    (h2 : m2.sensor_type_ = SensorType.RADAR)
    (hdt : ((m2.timestamp_ - m1.timestamp_ : ℤ) : ℝ) / 1000000 ≤ 0.1) :
    (∀ v, radarMeasurement v 2
        = (v 0 * Real.cos (v 3) * v 2 + v 1 * Real.sin (v 3) * v 2) / radarMeasurement v 0)
      ∧ (∀ v, radarMeasurement v 0 = 0 ↔ v 0 = 0 ∧ v 1 = 0)
      ∧ (UKF.ProcessMeasurement llt (UKF.construct P0 Xp0 Xa0) m1).x_ = ![0, 0, 0, 0, 0]
      ∧ UKF.ProcessMeasurement llt (UKF.ProcessMeasurement llt (UKF.construct P0 Xp0 Xa0) m1) m2
        = UKF.UpdateRadar
            (UKF.predictedFor llt (UKF.ProcessMeasurement llt (UKF.construct P0 Xp0 Xa0) m1) m2)
            m2
      ∧ (UKF.predictedFor llt (UKF.ProcessMeasurement llt (UKF.construct P0 Xp0 Xa0) m1)
          m2).Xsig_pred_ 0 0 = 0
      ∧ (UKF.predictedFor llt (UKF.ProcessMeasurement llt (UKF.construct P0 Xp0 Xa0) m1)
          m2).Xsig_pred_ 1 0 = 0
      ∧ radarMeasurement
          (fun k => (UKF.predictedFor llt
            (UKF.ProcessMeasurement llt (UKF.construct P0 Xp0 Xa0) m1) m2).Xsig_pred_ k 0) 0
        = 0 := by
  have hboot := radar_bootstrap_state llt (UKF.construct P0 Xp0 Xa0) m1 rfl h1
  have hx : (UKF.ProcessMeasurement llt (UKF.construct P0 Xp0 Xa0) m1).x_ = ![0, 0, 0, 0, 0] := by
    rw [hboot]
    simp [hrho]
  have hinit : (UKF.ProcessMeasurement llt (UKF.construct P0 Xp0 Xa0) m1).is_initialized_
      = true := by
    rw [hboot]
  have htime : (UKF.ProcessMeasurement llt (UKF.construct P0 Xp0 Xa0) m1).time_us_
      = m1.timestamp_ := by
    rw [hboot]
  have hpred : UKF.predictedFor llt (UKF.ProcessMeasurement llt (UKF.construct P0 Xp0 Xa0) m1) m2
      = UKF.Prediction llt
          { UKF.ProcessMeasurement llt (UKF.construct P0 Xp0 Xa0) m1 with
              time_us_ := m2.timestamp_ }
          (((m2.timestamp_ - m1.timestamp_ : ℤ) : ℝ) / 1000000) := by
    unfold UKF.predictedFor
    rw [htime, subStepLoop_of_le _ _ _ hdt]
  have hcol : ∀ r, (UKF.predictedFor llt
      (UKF.ProcessMeasurement llt (UKF.construct P0 Xp0 Xa0) m1) m2).Xsig_pred_ r 0
      = (![0, 0, 0, 0, 0] : Fin 5 → ℝ) r := by
    intro r
    rw [hpred, Prediction_central_sigma_point]
    have e : ({ UKF.ProcessMeasurement llt (UKF.construct P0 Xp0 Xa0) m1 with
        time_us_ := m2.timestamp_ } : UKF).x_ = ![0, 0, 0, 0, 0] := hx
    rw [e, predictSigmaPoint_origin]
  have h00 := hcol 0
  have h10 := hcol 1
  simp only [Matrix.cons_val_zero, Matrix.cons_val_one, Matrix.head_cons] at h00 h10
  refine ⟨radarMeasurement_range_rate, radarMeasurement_range_eq_zero_iff, hx, ?_, h00, h10, ?_⟩
  · rw [ProcessMeasurement_eq_update llt _ m2 hinit, if_pos h2]
  · rw [radarMeasurement_range_eq_zero_iff]
    exact ⟨h00, h10⟩

/-- The scenario of C15: a freshly constructed filter is given the RADAR reading
`(rho, phi, rho_dot) = (0, 0, 0)` at time `0` and then the RADAR reading `(1, 0, 0)` at
time `50000`, that is `0.05 s` later: the central sigma point handed to `UpdateRadar`
has range `0`. -/
theorem C15_radar_zero_range_reachable_witness :
    radarMeasurement
        (fun k => (UKF.predictedFor diagonalCholesky
          (UKF.ProcessMeasurement diagonalCholesky (UKF.construct 0 0 0)
            ⟨SensorType.RADAR, fun _ => 0, 0⟩)
          ⟨SensorType.RADAR, fun i => if i = 0 then 1 else 0, 50000⟩).Xsig_pred_ k 0) 0
      = 0 :=
  (C15_radar_zero_range_reachable diagonalCholesky 0 0 0 ⟨SensorType.RADAR, fun _ => 0, 0⟩
    ⟨SensorType.RADAR, fun i => if i = 0 then 1 else 0, 50000⟩ rfl rfl rfl
    (by norm_num)).2.2.2.2.2.2

/-! ## Binary64 rounding -/

/-- The rounding to an integer moves its argument by at most one half. -/
theorem roundHalfEven_sub_le (y : ℚ) : |(roundHalfEven y : ℚ) - y| ≤ 1 / 2 := by
  have h1 := Int.floor_le y
  have h2 := Int.lt_floor_add_one y
  unfold roundHalfEven
  split_ifs with a b c
  · rw [abs_le]
    constructor <;> linarith
  · push_cast
    rw [abs_le]
    constructor <;> linarith
  · rw [abs_le]
    constructor <;> linarith
  · push_cast
    rw [abs_le]
    constructor <;> linarith

/-- An integer is rounded to itself. -/
theorem roundHalfEven_intCast (n : ℤ) : roundHalfEven (n : ℚ) = n := by
  unfold roundHalfEven
  simp

/-- The rounding to an integer is monotone. -/
theorem roundHalfEven_mono {y z : ℚ} (h : y ≤ z) : roundHalfEven y ≤ roundHalfEven z := by
  by_contra hlt
  push_neg at hlt
  have hy := abs_le.mp (roundHalfEven_sub_le y)
  have hz := abs_le.mp (roundHalfEven_sub_le z)
  have h1 : (roundHalfEven z : ℚ) + 1 ≤ roundHalfEven y := by exact_mod_cast hlt
  have e : y = z := by linarith
  subst e
  exact lt_irrefl _ hlt

/-- A rational within less than one half of an integer is rounded to it. -/
theorem roundHalfEven_eq_of_abs_lt (y : ℚ) (m : ℤ) (h : |y - m| < 1 / 2) :
    roundHalfEven y = m := by
  have hy := abs_le.mp (roundHalfEven_sub_le y)
  have hm := abs_lt.mp h
  have h1 : (roundHalfEven y : ℚ) < m + 1 := by linarith
  have h2 : (m : ℚ) < roundHalfEven y + 1 := by linarith
  have h3 : roundHalfEven y < m + 1 := by exact_mod_cast h1
  have h4 : m < roundHalfEven y + 1 := by exact_mod_cast h2
  omega

/-- A rational half way between an odd integer and the next is rounded up. -/
theorem roundHalfEven_tie_odd (y : ℚ) (m : ℤ) (h : y = m + 1 / 2) (hm : m % 2 = 1) :
    roundHalfEven y = m + 1 := by
  have hf : ⌊y⌋ = m := by
    rw [Int.floor_eq_iff, h]
    constructor <;> linarith
  unfold roundHalfEven
  rw [hf, h]
  have e : (m : ℚ) + 1 / 2 - m = 1 / 2 := by ring
  rw [e, if_neg (lt_irrefl _), if_neg (lt_irrefl _), if_neg (by omega)]

/-- The exponent of a positive rational between two consecutive powers of two. -/
theorem log_eq_of_mem (a : ℚ) (e : ℤ) (h1 : (2 : ℚ) ^ e ≤ a) (h2 : a < 2 ^ (e + 1)) :
    Int.log 2 a = e := by
  have ha : 0 < a := lt_of_lt_of_le (zpow_pos (by norm_num) e) h1
  have l1 : e ≤ Int.log 2 a :=
    (Int.zpow_le_iff_le_log (by norm_num) ha).mp (by exact_mod_cast h1)
  have l2 : Int.log 2 a < e + 1 :=
    (Int.lt_zpow_iff_log_lt (by norm_num) ha).mp (by exact_mod_cast h2)
  omega

/-- The rounding of a magnitude whose exponent is known. -/
theorem roundMagnitude_of_mem (a : ℚ) (e : ℤ) (h1 : (2 : ℚ) ^ e ≤ a) (h2 : a < 2 ^ (e + 1)) :
    roundMagnitude a = (roundHalfEven (a / 2 ^ (e - 52)) : ℚ) * 2 ^ (e - 52) := by
  unfold roundMagnitude
  rw [log_eq_of_mem a e h1 h2]

/-- The rounding of zero is zero. -/
theorem roundMagnitude_zero : roundMagnitude 0 = 0 := by
  unfold roundMagnitude
  rw [zero_div]
  have h := roundHalfEven_intCast 0
  simp only [Int.cast_zero] at h
  rw [h]
  simp

/-- The two bounds on a positive rational by the powers of two around it. -/
theorem zpow_log_bounds (a : ℚ) (ha : 0 < a) :
    (2 : ℚ) ^ Int.log 2 a ≤ a ∧ a < 2 ^ (Int.log 2 a + 1) := by
  constructor
  · exact_mod_cast Int.zpow_log_le_self (by norm_num : 1 < 2) ha
  · exact_mod_cast Int.lt_zpow_succ_log_self (by norm_num : 1 < 2) a

/-- A power of two as a whole multiple of a lower one. -/
theorem zpow_eq_natCast_mul (e : ℤ) (n : ℕ) :
    (2 : ℚ) ^ (e + n) = ((2 ^ n : ℤ) : ℚ) * 2 ^ e := by
  rw [zpow_add₀ (by norm_num), zpow_natCast]
  push_cast
  ring

/-- The rounding of a positive magnitude stays between the two powers of two around
it. -/
theorem roundMagnitude_bounds (a : ℚ) (e : ℤ) (h1 : (2 : ℚ) ^ e ≤ a) (h2 : a < 2 ^ (e + 1)) :
    (2 : ℚ) ^ e ≤ roundMagnitude a ∧ roundMagnitude a ≤ 2 ^ (e + 1) := by
  have hu : (0 : ℚ) < 2 ^ (e - 52) := zpow_pos (by norm_num) _
  have e1 : (2 : ℚ) ^ e = ((2 ^ 52 : ℤ) : ℚ) * 2 ^ (e - 52) := by
    have h := zpow_eq_natCast_mul (e - 52) 52
    have e' : e - 52 + ((52 : ℕ) : ℤ) = e := by push_cast; ring
    rw [e'] at h
    exact h
  have e2 : (2 : ℚ) ^ (e + 1) = ((2 ^ 53 : ℤ) : ℚ) * 2 ^ (e - 52) := by
    have h := zpow_eq_natCast_mul (e - 52) 53
    have e' : e - 52 + ((53 : ℕ) : ℤ) = e + 1 := by push_cast; ring
    rw [e'] at h
    exact h
  rw [roundMagnitude_of_mem a e h1 h2]
  constructor
  · rw [e1]
    apply mul_le_mul_of_nonneg_right _ hu.le
    have h : ((2 ^ 52 : ℤ) : ℚ) ≤ a / 2 ^ (e - 52) := by
      rw [le_div_iff₀ hu, ← e1]
      exact h1
    have h' := roundHalfEven_mono h
    rw [roundHalfEven_intCast] at h'
    exact_mod_cast h'
  · rw [e2]
    apply mul_le_mul_of_nonneg_right _ hu.le
    have h : a / 2 ^ (e - 52) ≤ ((2 ^ 53 : ℤ) : ℚ) := by
      rw [div_le_iff₀ hu, ← e2]
      exact h2.le
    have h' := roundHalfEven_mono h
    rw [roundHalfEven_intCast] at h'
    exact_mod_cast h'

/-- The rounding of a non-negative magnitude is non-negative. -/
theorem roundMagnitude_nonneg (a : ℚ) (ha : 0 ≤ a) : 0 ≤ roundMagnitude a := by
  rcases eq_or_lt_of_le ha with h | h
  · rw [← h, roundMagnitude_zero]
  · have hb := zpow_log_bounds a h
    exact le_trans (zpow_pos (by norm_num) _).le (roundMagnitude_bounds a _ hb.1 hb.2).1

/-- The rounding of magnitudes is monotone. -/
theorem roundMagnitude_mono {a b : ℚ} (ha : 0 ≤ a) (h : a ≤ b) :
    roundMagnitude a ≤ roundMagnitude b := by
  rcases eq_or_lt_of_le ha with h0 | h0
  · rw [← h0, roundMagnitude_zero]
    exact roundMagnitude_nonneg b (le_trans ha h)
  · have hb0 : 0 < b := lt_of_lt_of_le h0 h
    have ba := zpow_log_bounds a h0
    have bb := zpow_log_bounds b hb0
    have hlog : Int.log 2 a ≤ Int.log 2 b := Int.log_mono_right h0 h
    rcases eq_or_lt_of_le hlog with he | he
    · unfold roundMagnitude
      rw [← he]
      have hu : (0 : ℚ) < 2 ^ (Int.log 2 a - 52) := zpow_pos (by norm_num) _
      apply mul_le_mul_of_nonneg_right _ hu.le
      have h' : a / 2 ^ (Int.log 2 a - 52) ≤ b / 2 ^ (Int.log 2 a - 52) :=
        div_le_div_of_nonneg_right h hu.le
      exact_mod_cast roundHalfEven_mono h'
    · have h1 := (roundMagnitude_bounds a _ ba.1 ba.2).2
      have h2 := (roundMagnitude_bounds b _ bb.1 bb.2).1
      have h3 : (2 : ℚ) ^ (Int.log 2 a + 1) ≤ 2 ^ Int.log 2 b :=
        zpow_le_zpow_right₀ (by norm_num) (by omega)
      linarith

/-- The rounding of binary64 arithmetic is monotone. -/
theorem roundDouble_mono {x y : ℚ} (h : x ≤ y) : roundDouble x ≤ roundDouble y := by
  unfold roundDouble
  by_cases hx : x < 0
  · by_cases hy : y < 0
    · rw [if_pos hx, if_pos hy]
      have := roundMagnitude_mono (a := -y) (b := -x) (by linarith) (by linarith)
      linarith
    · rw [if_pos hx, if_neg hy]
      have h1 := roundMagnitude_nonneg (-x) (by linarith)
      have h2 := roundMagnitude_nonneg y (not_lt.mp hy)
      linarith
  · have hy : ¬ y < 0 := by
      intro hy
      exact hx (lt_of_le_of_lt h hy)
    rw [if_neg hx, if_neg hy]
    exact roundMagnitude_mono (not_lt.mp hx) h

/-- The rounding of binary64 arithmetic commutes with negation. -/
theorem roundDouble_neg (x : ℚ) : roundDouble (-x) = -roundDouble x := by
  unfold roundDouble
  rcases lt_trichotomy x 0 with h | h | h
  · have h' : ¬ -x < 0 := by linarith
    rw [if_neg h', if_pos h, neg_neg]
  · rw [h]
    simp [roundMagnitude_zero]
  · have h' : -x < 0 := by linarith
    have hx : ¬ x < 0 := by linarith
    rw [if_pos h', if_neg hx, neg_neg]

/-- The relative error of the rounding of a magnitude is at most `2 ^ (-53)`. -/
theorem roundMagnitude_sub_le (a : ℚ) (ha : 0 ≤ a) : |roundMagnitude a - a| ≤ a / 2 ^ 53 := by
  rcases eq_or_lt_of_le ha with h0 | h0
  · rw [← h0, roundMagnitude_zero]
    simp
  · have ba := zpow_log_bounds a h0
    have hu : (0 : ℚ) < 2 ^ (Int.log 2 a - 52) := zpow_pos (by norm_num) _
    have hr := roundHalfEven_sub_le (a / 2 ^ (Int.log 2 a - 52))
    have e1 : roundMagnitude a - a
        = ((roundHalfEven (a / 2 ^ (Int.log 2 a - 52)) : ℚ) - a / 2 ^ (Int.log 2 a - 52))
          * 2 ^ (Int.log 2 a - 52) := by
      unfold roundMagnitude
      field_simp
    have e2 : (2 : ℚ) ^ Int.log 2 a = ((2 ^ 52 : ℤ) : ℚ) * 2 ^ (Int.log 2 a - 52) := by
      have h := zpow_eq_natCast_mul (Int.log 2 a - 52) 52
      have e' : Int.log 2 a - 52 + ((52 : ℕ) : ℤ) = Int.log 2 a := by push_cast; ring
      rw [e'] at h
      exact h
    rw [e1, abs_mul, abs_of_pos hu]
    have h3 : |(roundHalfEven (a / 2 ^ (Int.log 2 a - 52)) : ℚ) - a / 2 ^ (Int.log 2 a - 52)|
        * 2 ^ (Int.log 2 a - 52) ≤ 1 / 2 * 2 ^ (Int.log 2 a - 52) :=
      mul_le_mul_of_nonneg_right hr hu.le
    have h4 : (2 ^ 52 : ℚ) * 2 ^ (Int.log 2 a - 52) ≤ a := by
      have := ba.1
      rw [e2] at this
      exact_mod_cast this
    rw [le_div_iff₀ (by norm_num)]
    nlinarith

/-- The relative error of the rounding of binary64 arithmetic is at most `2 ^ (-53)`. -/
theorem roundDouble_sub_le (x : ℚ) : |roundDouble x - x| ≤ |x| / 2 ^ 53 := by
  unfold roundDouble
  by_cases hx : x < 0
  · rw [if_pos hx, abs_of_neg hx]
    have h := roundMagnitude_sub_le (-x) (by linarith)
    have e : -roundMagnitude (-x) - x = -(roundMagnitude (-x) - -x) := by ring
    rw [e, abs_neg]
    exact h
  · rw [if_neg hx, abs_of_nonneg (not_lt.mp hx)]
    exact roundMagnitude_sub_le x (not_lt.mp hx)

/-- The rounding of binary64 arithmetic at a value whose exponent and nearest
significand are known. -/
theorem roundDouble_eq_of_abs_lt (x : ℚ) (e m : ℤ) (h1 : (2 : ℚ) ^ e ≤ x)
    (h2 : x < 2 ^ (e + 1)) (h : |x / 2 ^ (e - 52) - m| < 1 / 2) :
    roundDouble x = m * 2 ^ (e - 52) := by
  have hx : 0 < x := lt_of_lt_of_le (zpow_pos (by norm_num) e) h1
  unfold roundDouble
  rw [if_neg (by linarith), roundMagnitude_of_mem x e h1 h2, roundHalfEven_eq_of_abs_lt _ m h]

/-- The rounding of binary64 arithmetic at a tie above an odd significand. -/
theorem roundDouble_eq_of_tie_odd (x : ℚ) (e m : ℤ) (h1 : (2 : ℚ) ^ e ≤ x)
    (h2 : x < 2 ^ (e + 1)) (h : x / 2 ^ (e - 52) = m + 1 / 2) (hm : m % 2 = 1) :
    roundDouble x = (m + 1) * 2 ^ (e - 52) := by
  have hx : 0 < x := lt_of_lt_of_le (zpow_pos (by norm_num) e) h1
  unfold roundDouble
  rw [if_neg (by linarith), roundMagnitude_of_mem x e h1 h2, roundHalfEven_tie_odd _ m h hm]
  push_cast
  ring

/-- A value of at least `2 ^ e` is rounded to a whole multiple of `2 ^ (e - 52)`. -/
theorem roundDouble_grid (x : ℚ) (e : ℤ) (h : (2 : ℚ) ^ e ≤ x) :
    ∃ n : ℤ, roundDouble x = n * 2 ^ (e - 52) := by
  have hx : 0 < x := lt_of_lt_of_le (zpow_pos (by norm_num) e) h
  have hle : e ≤ Int.log 2 x := (Int.zpow_le_iff_le_log (by norm_num) hx).mp (by exact_mod_cast h)
  obtain ⟨k, hk⟩ := Int.le.dest hle
  refine ⟨roundHalfEven (x / 2 ^ (Int.log 2 x - 52)) * 2 ^ k, ?_⟩
  unfold roundDouble roundMagnitude
  rw [if_neg (by linarith)]
  have e' : Int.log 2 x - 52 = (e - 52) + k := by omega
  rw [e', zpow_eq_natCast_mul]
  push_cast
  ring

/-- The value of `M_PI`. -/
theorem M_PI_eq : M_PI = 884279719003555 / 2 ^ 48 := by
  unfold M_PI
  rw [roundDouble_eq_of_abs_lt _ 1 7074237752028440 (by norm_num) (by norm_num)
    (by rw [abs_lt]; constructor <;> norm_num)]
  norm_num

/-- The product `2.*M_PI` is exact. -/
theorem roundDouble_two_M_PI : roundDouble (2 * M_PI) = 2 * M_PI := by
  rw [M_PI_eq, roundDouble_eq_of_abs_lt _ 2 7074237752028440 (by norm_num) (by norm_num)
    (by rw [abs_lt]; constructor <;> norm_num)]
  norm_num

/-- The constant `M_PI` is a `double`. -/
theorem roundDouble_M_PI : roundDouble M_PI = M_PI := by
  rw [M_PI_eq, roundDouble_eq_of_abs_lt _ 1 7074237752028440 (by norm_num) (by norm_num)
    (by rw [abs_lt]; constructor <;> norm_num)]
  norm_num

/-- The value of the literal `0.05`. -/
theorem subStepSeconds_eq : subStepSeconds = 3602879701896397 / 2 ^ 56 := by
  unfold subStepSeconds
  rw [roundDouble_eq_of_abs_lt _ (-5) 7205759403792794 (by norm_num) (by norm_num)
    (by rw [abs_lt]; constructor <;> norm_num)]
  norm_num

/-- The value of the literal `0.1`. -/
theorem subStepLimit_eq : subStepLimit = 3602879701896397 / 2 ^ 55 := by
  unfold subStepLimit
  rw [roundDouble_eq_of_abs_lt _ (-4) 7205759403792794 (by norm_num) (by norm_num)
    (by rw [abs_lt]; constructor <;> norm_num)]
  norm_num

/-- A power of two is a `double`. -/
theorem roundDouble_two_zpow (e : ℤ) : roundDouble (2 ^ e) = 2 ^ e := by
  have h := roundDouble_eq_of_abs_lt (2 ^ e) e (2 ^ 52) le_rfl
    (zpow_lt_zpow_right₀ (by norm_num) (by omega)) (by
      have e1 : (2 : ℚ) ^ e / 2 ^ (e - 52) = 2 ^ (52 : ℤ) := by
        rw [← zpow_sub₀ (by norm_num)]
        congr 1
        ring
      rw [e1]
      norm_num)
  rw [h]
  have e2 : (2 : ℚ) ^ e = 2 ^ (52 : ℤ) * 2 ^ (e - 52) := by
    rw [← zpow_add₀ (by norm_num)]
    congr 1
    ring
  rw [e2]
  norm_num

/-! ## The angle normalisation in binary64 arithmetic (claims C10, C11) -/

/-- The subtracting loop in binary64 arithmetic on a value of at most `2 ^ 55`: it
leaves after `k` subtractions (so within `k + 1` tests) with a value `r ≤ M_PI`; a
value that starts at most at `M_PI` is left alone, one that starts above ends at
least at `-M_PI`, and `r` is `k` times `2 * M_PI` below the start up to `k` rounding
errors of relative size `2 ^ (-53)`. -/
theorem subWhileAbovePiDouble_spec (n : ℕ) : ∀ x : ℚ, x ≤ 2 ^ 55 → x ≤ M_PI + 2 * n →
    ∃ (k : ℕ) (r : ℚ), (∀ fuel, k < fuel → subWhileAbovePiDouble fuel x = some r)
      ∧ r ≤ M_PI ∧ (x ≤ M_PI → r = x ∧ k = 0) ∧ (M_PI < x → -M_PI ≤ r ∧ 1 ≤ k)
      ∧ |r - (x - k * (2 * M_PI))| ≤ k * |x| / 2 ^ 53 := by
  have hpi : M_PI = 884279719003555 / 2 ^ 48 := M_PI_eq
  have base : ∀ x : ℚ, x ≤ M_PI →
      ∃ (k : ℕ) (r : ℚ), (∀ fuel, k < fuel → subWhileAbovePiDouble fuel x = some r)
        ∧ r ≤ M_PI ∧ (x ≤ M_PI → r = x ∧ k = 0) ∧ (M_PI < x → -M_PI ≤ r ∧ 1 ≤ k)
        ∧ |r - (x - k * (2 * M_PI))| ≤ k * |x| / 2 ^ 53 := by
    intro x hx
    refine ⟨0, x, ?_, hx, fun _ => ⟨rfl, rfl⟩, fun h => absurd hx (not_le.mpr h), by simp⟩
    intro fuel hf
    obtain ⟨f, rfl⟩ := Nat.exists_eq_succ_of_ne_zero (Nat.pos_iff_ne_zero.mp hf)
    rw [subWhileAbovePiDouble, if_neg (not_lt.mpr hx)]
  induction n with
  | zero =>
    intro x _ hx
    exact base x (by simpa using hx)
  | succ n ih =>
    intro x hx1 hx2
    by_cases hx : x ≤ M_PI
    · exact base x hx
    · have hgt : M_PI < x := lt_of_not_le hx
      have hx0 : 0 < x := by rw [hpi] at hgt; linarith
      have herr := roundDouble_sub_le (x - 2 * M_PI)
      have habs : |x - 2 * M_PI| ≤ x := by
        rw [abs_le, hpi]
        rw [hpi] at hgt
        constructor <;> linarith
      have herr2 : |roundDouble (x - 2 * M_PI) - (x - 2 * M_PI)| ≤ x / 2 ^ 53 :=
        le_trans herr (div_le_div_of_nonneg_right habs (by norm_num))
      have h4 : x / 2 ^ 53 ≤ 4 := by
        rw [div_le_iff₀ (by norm_num)]
        linarith
      have hlow : -M_PI ≤ roundDouble (x - 2 * M_PI) := by
        have h := roundDouble_mono (x := -M_PI) (y := x - 2 * M_PI) (by linarith)
        rw [roundDouble_neg, roundDouble_M_PI] at h
        exact h
      have hup : roundDouble (x - 2 * M_PI) ≤ x - 2 := by
        have h := (abs_le.mp herr2).2
        rw [hpi] at h ⊢
        linarith
      have hx' : |roundDouble (x - 2 * M_PI)| ≤ x := by
        rw [abs_le]
        constructor <;> linarith
      obtain ⟨k, r, hfuel, hr1, hr2, hr3, hr4⟩ := ih (roundDouble (x - 2 * M_PI))
        (by linarith) (by push_cast at hx2; linarith)
      refine ⟨k + 1, r, ?_, hr1, fun h => absurd h hx, fun _ => ⟨?_, by omega⟩, ?_⟩
      · intro fuel hf
        obtain ⟨f, rfl⟩ := Nat.exists_eq_succ_of_ne_zero (by omega : fuel ≠ 0)
        rw [subWhileAbovePiDouble, if_pos hgt, roundDouble_two_M_PI]
        exact hfuel f (by omega)
      · by_cases h : roundDouble (x - 2 * M_PI) ≤ M_PI
        · rw [(hr2 h).1]
          exact hlow
        · exact (hr3 (lt_of_not_le h)).1
      · have e : r - (x - ((k + 1 : ℕ) : ℚ) * (2 * M_PI))
            = (r - (roundDouble (x - 2 * M_PI) - k * (2 * M_PI)))
              + (roundDouble (x - 2 * M_PI) - (x - 2 * M_PI)) := by
          push_cast
          ring
        have hk : (k : ℚ) * |roundDouble (x - 2 * M_PI)| / 2 ^ 53 ≤ k * x / 2 ^ 53 :=
          div_le_div_of_nonneg_right
            (mul_le_mul_of_nonneg_left hx' (Nat.cast_nonneg k)) (by norm_num)
        rw [e, abs_of_pos hx0]
        refine le_trans (abs_add _ _) ?_
        have e2 : ((k + 1 : ℕ) : ℚ) * x / 2 ^ 53 = k * x / 2 ^ 53 + x / 2 ^ 53 := by
          push_cast
          ring
        rw [e2]
        linarith

/-- The adding loop is the mirror image of the subtracting loop. -/
theorem addWhileBelowNegPiDouble_eq (fuel : ℕ) : ∀ x : ℚ,
    addWhileBelowNegPiDouble fuel x
      = (subWhileAbovePiDouble fuel (-x)).map (fun r => -r) := by
  induction fuel with
  | zero =>
    intro x
    rfl
  | succ f ih =>
    intro x
    rw [addWhileBelowNegPiDouble, subWhileAbovePiDouble]
    by_cases h : x < -M_PI
    · have h' : -x > M_PI := by linarith
      rw [if_pos h, if_pos h', ih]
      have e : -(x + roundDouble (2 * M_PI)) = -x - roundDouble (2 * M_PI) := by ring
      rw [← roundDouble_neg, e]
    · have h' : ¬ -x > M_PI := by
        intro h'
        exact h (by linarith)
      rw [if_neg h, if_neg h']
      simp

/-- The angle normalisation in binary64 arithmetic on a value of magnitude at most
`2 ^ 55`: it returns, within `|j| + 1` tests of each loop, a value `r` of
`[-M_PI, M_PI]`, which is the argument itself when that is in `[-M_PI, M_PI]`, and
`r` is `j` times `2 * M_PI` away from the argument up to `|j|` rounding errors of
relative size `2 ^ (-53)`. -/
theorem normalizeAngleDouble_spec (d : ℚ) (hd : |d| ≤ 2 ^ 55) :
    ∃ (j : ℤ) (r : ℚ), (∀ fuel, j.natAbs < fuel → normalizeAngleDouble fuel d = some r)
      ∧ -M_PI ≤ r ∧ r ≤ M_PI ∧ (-M_PI ≤ d → d ≤ M_PI → r = d ∧ j = 0)
      ∧ |r - (d + j * (2 * M_PI))| ≤ |(j : ℚ)| * |d| / 2 ^ 53 := by
  have hpi : M_PI = 884279719003555 / 2 ^ 48 := M_PI_eq
  have hd' := abs_le.mp hd
  have hceil : ∀ x : ℚ, x ≤ M_PI + 2 * (⌈x⌉₊ : ℕ) := by
    intro x
    have h := Nat.le_ceil x
    have h0 : (0 : ℚ) ≤ (⌈x⌉₊ : ℕ) := Nat.cast_nonneg _
    rw [hpi]
    linarith
  by_cases hgt : M_PI < d
  · obtain ⟨k, r, hfuel, hr1, -, hr3, hr4⟩ :=
      subWhileAbovePiDouble_spec ⌈d⌉₊ d hd'.2 (hceil d)
    refine ⟨-(k : ℤ), r, ?_, (hr3 hgt).1, hr1, fun _ h => absurd hgt (not_lt.mpr h), ?_⟩
    · intro fuel hf
      have hf' : k < fuel := by simpa using hf
      obtain ⟨f, rfl⟩ := Nat.exists_eq_succ_of_ne_zero (by omega : fuel ≠ 0)
      unfold normalizeAngleDouble
      rw [hfuel _ hf', Option.some_bind, addWhileBelowNegPiDouble,
        if_neg (not_lt.mpr (hr3 hgt).1)]
    · have e : r - (d + ((-(k : ℤ) : ℤ) : ℚ) * (2 * M_PI)) = r - (d - k * (2 * M_PI)) := by
        push_cast
        ring
      have e2 : |((-(k : ℤ) : ℤ) : ℚ)| = k := by
        push_cast
        rw [abs_neg, abs_of_nonneg (Nat.cast_nonneg k)]
      rw [e, e2]
      exact hr4
  · have hle : d ≤ M_PI := not_lt.mp hgt
    have hsub : ∀ fuel, 0 < fuel → subWhileAbovePiDouble fuel d = some d := by
      intro fuel hf
      obtain ⟨f, rfl⟩ := Nat.exists_eq_succ_of_ne_zero (Nat.pos_iff_ne_zero.mp hf)
      rw [subWhileAbovePiDouble, if_neg hgt]
    obtain ⟨k, r, hfuel, hr1, hr2, hr3, hr4⟩ :=
      subWhileAbovePiDouble_spec ⌈-d⌉₊ (-d) (by linarith) (hceil (-d))
    refine ⟨(k : ℤ), -r, ?_, by linarith, ?_, ?_, ?_⟩
    · intro fuel hf
      have hf' : k < fuel := by simpa using hf
      unfold normalizeAngleDouble
      rw [hsub fuel (by omega), Option.some_bind, addWhileBelowNegPiDouble_eq, hfuel _ hf']
      rfl
    · by_cases h : -d ≤ M_PI
      · rw [(hr2 h).1]
        linarith
      · have := (hr3 (lt_of_not_le h)).1
        linarith
    · intro h1 _
      have h := hr2 (by linarith)
      rw [h.1, h.2]
      simp
    · have e : -r - (d + ((k : ℤ) : ℚ) * (2 * M_PI)) = -(r - (-d - k * (2 * M_PI))) := by
        push_cast
        ring
      have e2 : |(((k : ℤ) : ℤ) : ℚ)| = k := by
        push_cast
        rw [abs_of_nonneg (Nat.cast_nonneg k)]
      rw [e, e2, abs_neg]
      rw [abs_neg] at hr4
      exact hr4

/-- The subtraction `2 ^ 57 - 2 * M_PI` is rounded back to `2 ^ 57`: the loop
`while (x > M_PI) x -= 2.*M_PI;` never leaves. -/
theorem subWhileAbovePiDouble_stuck (fuel : ℕ) : subWhileAbovePiDouble fuel (2 ^ 57) = none := by
  have hstep : roundDouble (2 ^ 57 - roundDouble (2 * M_PI)) = 2 ^ 57 := by
    rw [roundDouble_two_M_PI, M_PI_eq,
      roundDouble_eq_of_abs_lt _ 56 (2 ^ 53) (by norm_num) (by norm_num)
        (by rw [abs_lt]; constructor <;> norm_num)]
    norm_num
  induction fuel with
  | zero => rfl
  | succ f ih =>
    rw [subWhileAbovePiDouble, if_pos (by rw [M_PI_eq]; norm_num), hstep]
    exact ih

/-- The normalisation in binary64 arithmetic of the `double` nearest to `4π + 0.1`,
`12.666370614359172`: two subtractions of `2 * M_PI`, both exact, leave
`0.09999999999999964`. -/
theorem normalizeAngleDouble_sample :
    normalizeAngleDouble 3 (7130532747370571 / 2 ^ 49) = some (56294995342131 / 2 ^ 49) := by
  have hpi : M_PI = 884279719003555 / 2 ^ 48 := M_PI_eq
  have h1 : roundDouble (7130532747370571 / 2 ^ 49 - 2 * M_PI) = 3593413871356351 / 2 ^ 49 := by
    rw [hpi, roundDouble_eq_of_abs_lt _ 2 7186827742712702 (by norm_num) (by norm_num)
      (by rw [abs_lt]; constructor <;> norm_num)]
    norm_num
  have h2 : roundDouble (3593413871356351 / 2 ^ 49 - 2 * M_PI) = 56294995342131 / 2 ^ 49 := by
    rw [hpi, roundDouble_eq_of_abs_lt _ (-4) 7205759403792768 (by norm_num) (by norm_num)
      (by rw [abs_lt]; constructor <;> norm_num)]
    norm_num
  unfold normalizeAngleDouble
  rw [subWhileAbovePiDouble, if_pos (by rw [hpi]; norm_num), roundDouble_two_M_PI, h1,
    subWhileAbovePiDouble, if_pos (by rw [hpi]; norm_num), roundDouble_two_M_PI, h2,
    subWhileAbovePiDouble, if_neg (by rw [hpi]; norm_num), Option.some_bind,
    addWhileBelowNegPiDouble, if_neg (by rw [hpi]; norm_num)]

/-- C10, as the code has it: in binary64 arithmetic, for every angle difference `d` of
magnitude at most `2 ^ 55` the normalisation leaves both loops (with `n + 1` tests of
each condition allowed, for some `n`) and returns a value of the closed interval
`[-M_PI, M_PI]`; a `d` of that interval, `-M_PI` included, is returned as it is. -/
theorem C10_normalizeAngle_range (d : ℚ) (hd : |d| ≤ 2 ^ 55) :
    ∃ (n : ℕ) (r : ℚ), (∀ fuel, n < fuel → normalizeAngleDouble fuel d = some r)
      ∧ -M_PI ≤ r ∧ r ≤ M_PI ∧ (-M_PI ≤ d → d ≤ M_PI → r = d) := by
  obtain ⟨j, r, h1, h2, h3, h4, -⟩ := normalizeAngleDouble_spec d hd
  exact ⟨j.natAbs, r, h1, h2, h3, fun a b => (h4 a b).1⟩

/-- The scenario of C10 at the lower endpoint: `-M_PI` is within the bound, and the
normalisation returns it as it is. -/
theorem C10_normalizeAngle_range_witness :
    |(-M_PI)| ≤ 2 ^ 55
      ∧ ∃ (n : ℕ) (r : ℚ), (∀ fuel, n < fuel → normalizeAngleDouble fuel (-M_PI) = some r)
          ∧ r = -M_PI := by
  have hd : |(-M_PI)| ≤ 2 ^ 55 := by
    rw [M_PI_eq, abs_neg, abs_of_pos (by norm_num)]
    norm_num
  have hpos : (0 : ℚ) ≤ M_PI := by
    rw [M_PI_eq]
    norm_num
  obtain ⟨n, r, h1, -, -, h4⟩ := C10_normalizeAngle_range (-M_PI) hd
  exact ⟨hd, n, r, h1, h4 le_rfl (by linarith)⟩

/-- C11, as the code has it: in binary64 arithmetic, for every angle `d` of magnitude
at most `2 ^ 55` the normalisation returns a value `r` of `[-M_PI, M_PI]` after `|j|`
additions or subtractions of `2 * M_PI`, and `r` is `d + j * (2 * M_PI)` up to `|j|`
rounding errors of relative size `2 ^ (-53)`, each at most `|d| / 2 ^ 53`; for `d`
in `[-M_PI, M_PI]` there is no turn and `r = d`. -/
theorem C11_normalizeAngle_wraps (d : ℚ) (hd : |d| ≤ 2 ^ 55) :
    ∃ (j : ℤ) (r : ℚ), (∀ fuel, j.natAbs < fuel → normalizeAngleDouble fuel d = some r)
      ∧ -M_PI ≤ r ∧ r ≤ M_PI
      ∧ |r - (d + j * (2 * M_PI))| ≤ |(j : ℚ)| * |d| / 2 ^ 53
      ∧ (-M_PI ≤ d → d ≤ M_PI → r = d ∧ j = 0) := by
  obtain ⟨j, r, h1, h2, h3, h4, h5⟩ := normalizeAngleDouble_spec d hd
  exact ⟨j, r, h1, h2, h3, h5, h4⟩

/-- The scenario of C11: the `double` nearest to `4π + 0.1`, `12.666370614359172`, is
within the bound; it is normalised to `0.09999999999999964`, which is not the `double`
`0.1`, and the general statement gives a result within `[-M_PI, M_PI]`. -/
theorem C11_normalizeAngle_wraps_witness :
    |(7130532747370571 / 2 ^ 49 : ℚ)| ≤ 2 ^ 55
      ∧ (∃ (j : ℤ) (r : ℚ),
          (∀ fuel, j.natAbs < fuel →
            normalizeAngleDouble fuel (7130532747370571 / 2 ^ 49) = some r)
          ∧ -M_PI ≤ r ∧ r ≤ M_PI
          ∧ |r - (7130532747370571 / 2 ^ 49 + j * (2 * M_PI))|
              ≤ |(j : ℚ)| * |(7130532747370571 / 2 ^ 49 : ℚ)| / 2 ^ 53)
      ∧ normalizeAngleDouble 3 (7130532747370571 / 2 ^ 49) = some (56294995342131 / 2 ^ 49)
      ∧ (56294995342131 / 2 ^ 49 : ℚ) ≠ roundDouble (1 / 10) := by
  have hd : |(7130532747370571 / 2 ^ 49 : ℚ)| ≤ 2 ^ 55 := by
    rw [abs_of_pos (by norm_num)]
    norm_num
  obtain ⟨j, r, h1, h2, h3, h4, -⟩ := C11_normalizeAngle_wraps (7130532747370571 / 2 ^ 49) hd
  refine ⟨hd, ⟨j, r, h1, h2, h3, h4⟩, normalizeAngleDouble_sample, ?_⟩
  have h := subStepLimit_eq
  unfold subStepLimit at h
  rw [h]
  norm_num

/-- C11 as stated fails in the code's arithmetic: `2 ^ 57` is `theta + 2πk` for an
integer `k` and a `theta` strictly between `-π` and `π`, but `2 ^ 57 - 2 * M_PI` is
rounded back to `2 ^ 57`, so the subtracting loop never leaves and the normalisation
returns nothing, whatever the number of tests allowed. -/
theorem C11_normalizeAngle_wraps_counterexample :
    (∃ (theta : ℝ) (k : ℤ), -Real.pi < theta ∧ theta < Real.pi
        ∧ (((2 : ℚ) ^ 57 : ℚ) : ℝ) = theta + 2 * Real.pi * k)
      ∧ roundDouble (2 ^ 57 - roundDouble (2 * M_PI)) = 2 ^ 57
      ∧ ¬ ∃ (fuel : ℕ) (r : ℚ), normalizeAngleDouble fuel (2 ^ 57) = some r := by
  have hpi := Real.pi_pos
  refine ⟨?_, ?_, ?_⟩
  · have hr := abs_sub_round ((2 : ℝ) ^ 57 / (2 * Real.pi))
    have key : (2 : ℝ) ^ 57 - 2 * Real.pi * round ((2 : ℝ) ^ 57 / (2 * Real.pi))
        = ((2 : ℝ) ^ 57 / (2 * Real.pi) - round ((2 : ℝ) ^ 57 / (2 * Real.pi)))
          * (2 * Real.pi) := by
      field_simp
    have hodd : ∀ n : ℤ, (2 : ℝ) ^ 57 ≠ Real.pi * ((2 * n + 1 : ℤ) : ℝ) := by
      intro n h
      have hne : (2 * n + 1 : ℤ) ≠ 0 := by omega
      have hirr := (irrational_pi.mul_int hne).ne_nat (2 ^ 57)
      apply hirr
      rw [← h]
      norm_num
    obtain ⟨hlo, hhi⟩ := abs_le.mp hr
    refine ⟨2 ^ 57 - 2 * Real.pi * round ((2 : ℝ) ^ 57 / (2 * Real.pi)),
      round ((2 : ℝ) ^ 57 / (2 * Real.pi)), ?_, ?_, ?_⟩
    · rcases lt_or_eq_of_le hlo with h | h
      · rw [key]
        have := mul_lt_mul_of_pos_right h (by linarith : 0 < 2 * Real.pi)
        linarith
      · exfalso
        apply hodd (round ((2 : ℝ) ^ 57 / (2 * Real.pi)) - 1)
        rw [← h] at key
        push_cast
        linarith
    · rcases lt_or_eq_of_le hhi with h | h
      · rw [key]
        have := mul_lt_mul_of_pos_right h (by linarith : 0 < 2 * Real.pi)
        linarith
      · exfalso
        apply hodd (round ((2 : ℝ) ^ 57 / (2 * Real.pi)))
        rw [h] at key
        push_cast
        linarith
    · push_cast
      ring
  · rw [roundDouble_two_M_PI, M_PI_eq,
      roundDouble_eq_of_abs_lt _ 56 (2 ^ 53) (by norm_num) (by norm_num)
        (by rw [abs_lt]; constructor <;> norm_num)]
    norm_num
  · rintro ⟨fuel, r, h⟩
    unfold normalizeAngleDouble at h
    rw [subWhileAbovePiDouble_stuck] at h
    simp at h

/-! ## Sub-stepping of the elapsed time in binary64 arithmetic (claim C4) -/

/-- The loop of lines 131-135 in binary64 arithmetic on an elapsed time of at most
`0.1` leaves at its first test. -/
theorem subStepLoopDouble_of_le {σ : Type} (step : σ → ℚ → σ) (s : σ) (dt : ℚ)
    (h : dt ≤ subStepLimit) (fuel : ℕ) (hf : 0 < fuel) :
    subStepLoopDouble step fuel s dt = some (s, dt) := by
  obtain ⟨f, rfl⟩ := Nat.exists_eq_succ_of_ne_zero (Nat.pos_iff_ne_zero.mp hf)
  rw [subStepLoopDouble, if_neg (not_lt.mpr h)]

/-- A `double` above the literal `0.1` is a whole multiple of `2 ^ (-56)`. -/
theorem roundDouble_grid_of_gt_limit (y : ℚ) (h : subStepLimit < roundDouble y) :
    ∃ n : ℤ, roundDouble y = n / 2 ^ 56 := by
  have hy : (2 : ℚ) ^ (-4 : ℤ) ≤ y := by
    by_contra hlt
    have h1 := roundDouble_mono (le_of_lt (not_le.mp hlt))
    rw [roundDouble_two_zpow, subStepLimit_eq] at *
    norm_num at h1
    linarith
  obtain ⟨n, hn⟩ := roundDouble_grid y (-4) hy
  have e : (2 : ℚ) ^ ((-4 : ℤ) - 52) = 1 / 2 ^ 56 := by norm_num
  refine ⟨n, ?_⟩
  rw [hn, e]
  ring

/-- The loop of lines 131-135 in binary64 arithmetic on a `double` elapsed time above
`0.1` and at most `2 ^ 44`: it leaves after `k ≥ 1` steps of `0.05` (so within `k + 1`
tests) with a remainder `r`, `0.05 < r ≤ 0.1`, and `k * 0.05 + r` is the elapsed time
up to `k` rounding errors of relative size `2 ^ (-53)`; `k` and `r` depend on the
elapsed time only, not on the step function or the state. -/
theorem subStepLoopDouble_of_gt (n : ℕ) : ∀ (x y : ℚ), x = roundDouble y →
    subStepLimit < x → x ≤ 2 ^ 44 → x ≤ n / 25 →
    ∃ (k : ℕ) (r : ℚ), 1 ≤ k ∧ subStepSeconds < r ∧ r ≤ subStepLimit
      ∧ |k * subStepSeconds + r - x| ≤ k * x / 2 ^ 53
      ∧ ∀ (σ : Type) (step : σ → ℚ → σ) (s : σ) (fuel : ℕ), k < fuel →
          subStepLoopDouble step fuel s x
            = some ((List.replicate k subStepSeconds).foldl step s, r) := by
  have hc : subStepSeconds = 3602879701896397 / 2 ^ 56 := subStepSeconds_eq
  have hL : subStepLimit = 3602879701896397 / 2 ^ 55 := subStepLimit_eq
  induction n with
  | zero =>
    intro x y _ h1 _ h3
    rw [hL] at h1
    norm_num at h3
    linarith
  | succ n ih =>
    intro x y hxy h1 h2 h3
    have hx0 : 0 < x := by rw [hL] at h1; linarith
    obtain ⟨n0, hn0⟩ := roundDouble_grid_of_gt_limit y (by rw [← hxy]; exact h1)
    rw [← hxy] at hn0
    have hn1 : 2 * 3602879701896397 + 1 ≤ n0 := by
      have h : ((2 * 3602879701896397 : ℤ) : ℚ) < n0 := by
        rw [hn0, hL, lt_div_iff₀ (by norm_num)] at h1
        push_cast
        linarith
      have h' : (2 * 3602879701896397 : ℤ) < n0 := by exact_mod_cast h
      omega
    have hge : (3602879701896398 : ℚ) / 2 ^ 56 ≤ x - subStepSeconds := by
      have h : ((2 * 3602879701896397 + 1 : ℤ) : ℚ) ≤ n0 := by exact_mod_cast hn1
      rw [hn0, hc]
      push_cast at h
      rw [div_sub_div_same, div_le_div_iff_of_pos_right (by norm_num)]
      linarith
    have hnext : roundDouble (3602879701896398 / 2 ^ 56) = 3602879701896398 / 2 ^ 56 := by
      rw [roundDouble_eq_of_abs_lt _ (-5) 7205759403792796 (by norm_num) (by norm_num)
        (by rw [abs_lt]; constructor <;> norm_num)]
      norm_num
    have hlow : (3602879701896398 : ℚ) / 2 ^ 56 ≤ roundDouble (x - subStepSeconds) := by
      have h := roundDouble_mono hge
      rw [hnext] at h
      exact h
    have herr := roundDouble_sub_le (x - subStepSeconds)
    have habs : |x - subStepSeconds| ≤ x := by
      rw [abs_le]
      rw [hc] at hge ⊢
      constructor <;> linarith
    have herr2 : |roundDouble (x - subStepSeconds) - (x - subStepSeconds)| ≤ x / 2 ^ 53 :=
      le_trans herr (div_le_div_of_nonneg_right habs (by norm_num))
    have h9 : x / 2 ^ 53 ≤ 1 / 2 ^ 9 := by
      rw [div_le_div_iff₀ (by norm_num) (by norm_num)]
      linarith
    have hup : roundDouble (x - subStepSeconds) ≤ x - 1 / 25 := by
      have h := (abs_le.mp herr2).2
      linarith
    by_cases hle : roundDouble (x - subStepSeconds) ≤ subStepLimit
    · refine ⟨1, roundDouble (x - subStepSeconds), le_rfl, ?_, hle, ?_, ?_⟩
      · linarith
      · have e : ((1 : ℕ) : ℚ) * subStepSeconds + roundDouble (x - subStepSeconds) - x
            = roundDouble (x - subStepSeconds) - (x - subStepSeconds) := by
          push_cast
          ring
        rw [e]
        simpa using herr2
      · intro σ step s fuel hf
        obtain ⟨f, rfl⟩ := Nat.exists_eq_succ_of_ne_zero (by omega : fuel ≠ 0)
        rw [subStepLoopDouble, if_pos h1, subStepLoopDouble_of_le _ _ _ hle f (by omega)]
        rfl
    · obtain ⟨k, r, hk, hr1, hr2, hsum, hloop⟩ := ih (roundDouble (x - subStepSeconds))
        (x - subStepSeconds) rfl (lt_of_not_le hle) (by linarith) (by
          push_cast at h3
          linarith)
      refine ⟨k + 1, r, by omega, hr1, hr2, ?_, ?_⟩
      · have e : ((k + 1 : ℕ) : ℚ) * subStepSeconds + r - x
            = (k * subStepSeconds + r - roundDouble (x - subStepSeconds))
              + (roundDouble (x - subStepSeconds) - (x - subStepSeconds)) := by
          push_cast
          ring
        have hk' : (k : ℚ) * roundDouble (x - subStepSeconds) / 2 ^ 53 ≤ k * x / 2 ^ 53 :=
          div_le_div_of_nonneg_right
            (mul_le_mul_of_nonneg_left (by linarith) (Nat.cast_nonneg k)) (by norm_num)
        rw [e]
        refine le_trans (abs_add _ _) ?_
        have e2 : ((k + 1 : ℕ) : ℚ) * x / 2 ^ 53 = k * x / 2 ^ 53 + x / 2 ^ 53 := by
          push_cast
          ring
        rw [e2]
        linarith
      · intro σ step s fuel hf
        obtain ⟨f, rfl⟩ := Nat.exists_eq_succ_of_ne_zero (by omega : fuel ≠ 0)
        rw [subStepLoopDouble, if_pos h1, hloop σ step _ f (by omega)]
        rfl

/-- The elapsed time of two time stamps less than `2 ^ 63` apart is at most
`2 ^ 44` seconds. -/
theorem elapsedSeconds_le (t t0 : ℤ) (h : t - t0 < 2 ^ 63) : elapsedSeconds t t0 ≤ 2 ^ 44 := by
  have h1 : ((t - t0 : ℤ) : ℚ) ≤ 2 ^ (63 : ℤ) := by
    have : ((t - t0 : ℤ) : ℚ) < ((2 ^ 63 : ℤ) : ℚ) := by exact_mod_cast h
    push_cast at this
    norm_num
    linarith
  have h2 := roundDouble_mono h1
  rw [roundDouble_two_zpow] at h2
  have h3 : roundDouble ((t - t0 : ℤ) : ℚ) / 1000000 ≤ 2 ^ (44 : ℤ) := by
    rw [div_le_iff₀ (by norm_num)]
    norm_num at h2 ⊢
    linarith
  have h4 := roundDouble_mono h3
  rw [roundDouble_two_zpow] at h4
  unfold elapsedSeconds
  norm_num at h4 ⊢
  exact h4

/-- On an initialized filter `ProcessMeasurementDouble` is lines 127-143: when the
loop leaves with the state `s2` and the remainder `r`, the result is the update of
`Prediction(r)` on `s2`. -/
theorem ProcessMeasurementDouble_of_loop (fuel : ℕ)
    (llt : Matrix (Fin 7) (Fin 7) ℝ → Matrix (Fin 7) (Fin 7) ℝ)
    (s : UKF) (m : MeasurementPackage) (hs : s.is_initialized_ = true) (s2 : UKF) (r : ℚ)
    (h : subStepLoopDouble (fun t d => UKF.Prediction llt t (d : ℝ)) fuel
        { s with time_us_ := m.timestamp_ } (elapsedSeconds m.timestamp_ s.time_us_)
      = some (s2, r)) :
    UKF.ProcessMeasurementDouble fuel llt s m =
      some (if m.sensor_type_ = SensorType.RADAR then
          UKF.UpdateRadar (UKF.Prediction llt s2 (r : ℝ)) m
        else UKF.UpdateLidar (UKF.Prediction llt s2 (r : ℝ)) m) := by
  unfold UKF.ProcessMeasurementDouble
  rw [if_neg (by rw [hs]; decide)]
  simp only [h]
  split_ifs <;> rfl

/-- The elapsed time between the time stamps `0` and `200000` is the `double` `0.2`,
and the loop of lines 131-135 makes three steps on it: `0.2 - 0.05` is rounded to
`0.15000000000000002`, the next two subtractions are exact, and the loop leaves at
`0.05000000000000002`. -/
theorem subStepLoopDouble_sample :
    elapsedSeconds 200000 0 = 3602879701896397 / 2 ^ 54
      ∧ ∀ (σ : Type) (step : σ → ℚ → σ) (s0 : σ),
          subStepLoopDouble step 4 s0 (elapsedSeconds 200000 0)
            = some (step (step (step s0 subStepSeconds) subStepSeconds) subStepSeconds,
                1801439850948199 / 2 ^ 55) := by
  have hc : subStepSeconds = 3602879701896397 / 2 ^ 56 := subStepSeconds_eq
  have hL : subStepLimit = 3602879701896397 / 2 ^ 55 := subStepLimit_eq
  have h0 : roundDouble (((200000 - 0 : ℤ) : ℚ)) = 200000 := by
    rw [roundDouble_eq_of_abs_lt _ 17 6871947673600000 (by norm_num) (by norm_num)
      (by rw [abs_lt]; constructor <;> norm_num)]
    norm_num
  have hdt : elapsedSeconds 200000 0 = 3602879701896397 / 2 ^ 54 := by
    unfold elapsedSeconds
    rw [h0, roundDouble_eq_of_abs_lt _ (-3) 7205759403792794 (by norm_num) (by norm_num)
      (by rw [abs_lt]; constructor <;> norm_num)]
    norm_num
  have h1 : roundDouble (3602879701896397 / 2 ^ 54 - 3602879701896397 / 2 ^ 56)
      = 1351079888211149 / 2 ^ 53 := by
    rw [roundDouble_eq_of_tie_odd _ (-3) 5404319552844595 (by norm_num) (by norm_num)
      (by norm_num) (by norm_num)]
    norm_num
  have h2 : roundDouble (1351079888211149 / 2 ^ 53 - 3602879701896397 / 2 ^ 56)
      = 7205759403792795 / 2 ^ 56 := by
    rw [roundDouble_eq_of_abs_lt _ (-4) 7205759403792795 (by norm_num) (by norm_num)
      (by rw [abs_lt]; constructor <;> norm_num)]
    norm_num
  have h3 : roundDouble (7205759403792795 / 2 ^ 56 - 3602879701896397 / 2 ^ 56)
      = 1801439850948199 / 2 ^ 55 := by
    rw [roundDouble_eq_of_abs_lt _ (-5) 7205759403792796 (by norm_num) (by norm_num)
      (by rw [abs_lt]; constructor <;> norm_num)]
    norm_num
  refine ⟨hdt, ?_⟩
  intro σ step s0
  rw [hdt, subStepLoopDouble, if_pos (by rw [hL]; norm_num),
    subStepLoopDouble, if_pos (by rw [hL, hc, h1]; norm_num),
    subStepLoopDouble, if_pos (by rw [hL, hc, h1, h2]; norm_num),
    subStepLoopDouble, if_neg (by rw [hL, hc, h1, h2, h3]; norm_num)]
  rw [hc, h1, h2, h3]

/-- C4, as the code has it: on an initialized filter and time stamps whose difference
is a `long long`, with `dt` the `double` elapsed time `(timestamp - filter time) / 10^6`:
if `dt ≤ 0.1`, `ProcessMeasurement` is the update after one `Prediction` of step `dt`;
if `dt > 0.1`, there are `k ≥ 1` and a `double` `r` with `0.05 < r ≤ 0.1` (the
`double` literals) such that the loop leaves after exactly `k` steps of `0.05`, within
`k + 1` tests, for every step function, `ProcessMeasurement` is the update after `k`
predictions of step `0.05` followed by one of step `r`, and `k * 0.05 + r` is `dt` up
to `k` rounding errors of relative size `2 ^ (-53)`, each at most `dt / 2 ^ 53`. -/
theorem C4_prediction_substeps (llt : Matrix (Fin 7) (Fin 7) ℝ → Matrix (Fin 7) (Fin 7) ℝ)
    (s : UKF) (m : MeasurementPackage) (hs : s.is_initialized_ = true)
    (hfit : -2 ^ 63 ≤ m.timestamp_ - s.time_us_ ∧ m.timestamp_ - s.time_us_ < 2 ^ 63) :
    let dt : ℚ := elapsedSeconds m.timestamp_ s.time_us_
    let update : UKF → UKF := fun s3 =>
      if m.sensor_type_ = SensorType.RADAR then UKF.UpdateRadar s3 m else UKF.UpdateLidar s3 m
    let s1 : UKF := { s with time_us_ := m.timestamp_ }
    let step : UKF → ℚ → UKF := fun t d => UKF.Prediction llt t (d : ℝ)
    (dt ≤ subStepLimit → ∀ fuel, 0 < fuel →
        UKF.ProcessMeasurementDouble fuel llt s m
          = some (update (UKF.Prediction llt s1 (dt : ℝ))))
      ∧ (subStepLimit < dt → ∃ (k : ℕ) (r : ℚ), 1 ≤ k ∧ subStepSeconds < r ∧ r ≤ subStepLimit
          ∧ |k * subStepSeconds + r - dt| ≤ k * dt / 2 ^ 53
          ∧ (∀ (σ : Type) (f : σ → ℚ → σ) (s0 : σ) (fuel : ℕ), k < fuel →
              subStepLoopDouble f fuel s0 dt
                = some ((List.replicate k subStepSeconds).foldl f s0, r))
          ∧ ∀ fuel, k < fuel →
              UKF.ProcessMeasurementDouble fuel llt s m
                = some (update (UKF.Prediction llt
                    ((List.replicate k subStepSeconds).foldl step s1) (r : ℝ)))) := by
  intro dt update s1 step
  constructor
  · intro h fuel hf
    exact ProcessMeasurementDouble_of_loop fuel llt s m hs s1 dt
      (subStepLoopDouble_of_le _ _ _ h fuel hf)
  · intro h
    have hn : dt ≤ ((⌈dt * 25⌉₊ : ℕ) : ℚ) / 25 := by
      rw [le_div_iff₀ (by norm_num)]
      exact Nat.le_ceil _
    obtain ⟨k, r, hk, hr1, hr2, hsum, hloop⟩ :=
      subStepLoopDouble_of_gt ⌈dt * 25⌉₊ dt _ rfl h
        (elapsedSeconds_le m.timestamp_ s.time_us_ hfit.2) hn
    refine ⟨k, r, hk, hr1, hr2, hsum, hloop, ?_⟩
    intro fuel hf
    exact ProcessMeasurementDouble_of_loop fuel llt s m hs _ r (hloop UKF step s1 fuel hf)

/-- The scenario of C4 with the time stamps `0` and `200000`: the elapsed time is above
`0.1`, and there are `k ≥ 1` steps of `0.05` and a remainder within `(0.05, 0.1]` after
which `ProcessMeasurement` applies the lidar update. -/
theorem C4_prediction_substeps_witness :
    subStepLimit < elapsedSeconds 200000 0
      ∧ ∃ (k : ℕ) (r : ℚ), 1 ≤ k ∧ subStepSeconds < r ∧ r ≤ subStepLimit
          ∧ |k * subStepSeconds + r - elapsedSeconds 200000 0|
              ≤ k * elapsedSeconds 200000 0 / 2 ^ 53
          ∧ ∀ fuel, k < fuel →
              UKF.ProcessMeasurementDouble fuel id bootstrappedSample
                  ⟨SensorType.LASER, fun _ => 1, 200000⟩
                = some (UKF.UpdateLidar (UKF.Prediction id
                    ((List.replicate k subStepSeconds).foldl
                      (fun (t : UKF) (d : ℚ) => UKF.Prediction id t (d : ℝ))
                      { bootstrappedSample with time_us_ := 200000 }) (r : ℝ))
                    ⟨SensorType.LASER, fun _ => 1, 200000⟩) := by
  have hgt : subStepLimit < elapsedSeconds 200000 0 := by
    rw [subStepLoopDouble_sample.1, subStepLimit_eq]
    norm_num
  have h := (C4_prediction_substeps id bootstrappedSample
    ⟨SensorType.LASER, fun _ => 1, 200000⟩ rfl
    ⟨by simp [bootstrappedSample, UKF.construct],
      by simp [bootstrappedSample, UKF.construct]⟩).2
  obtain ⟨k, r, hk, hr1, hr2, hsum, -, hPM⟩ := h hgt
  refine ⟨hgt, k, r, hk, hr1, hr2, hsum, ?_⟩
  intro fuel hf
  rw [hPM fuel hf]
  simp

/-- C4 as stated fails in the code's arithmetic at the time stamps `0` and `200000`:
the elapsed time is the `double` `0.2`, four times the `double` `0.05`; the loop makes
three steps of `0.05`, not two, and leaves the remainder `0.05000000000000002`, so
`ProcessMeasurement` is the update after three predictions of step `0.05` and one of
step `0.05000000000000002`; and `3 * 0.05 + r` is not the elapsed time, neither with
the `double` `0.05` nor with the decimal fractions `0.05` and `0.2`. -/
theorem C4_prediction_substeps_counterexample :
    elapsedSeconds 200000 0 = 4 * subStepSeconds
      ∧ subStepLoopDouble (fun (n : ℕ) _ => n + 1) 4 0 (elapsedSeconds 200000 0)
          = some (3, 1801439850948199 / 2 ^ 55)
      ∧ UKF.ProcessMeasurementDouble 4 id bootstrappedSample
            ⟨SensorType.LASER, fun _ => 1, 200000⟩
          = some (UKF.UpdateLidar
              (UKF.Prediction id
                (UKF.Prediction id
                  (UKF.Prediction id
                    (UKF.Prediction id { bootstrappedSample with time_us_ := 200000 }
                      (subStepSeconds : ℝ))
                    (subStepSeconds : ℝ))
                  (subStepSeconds : ℝ))
                ((1801439850948199 / 2 ^ 55 : ℚ) : ℝ))
              ⟨SensorType.LASER, fun _ => 1, 200000⟩)
      ∧ (3 : ℚ) * subStepSeconds + 1801439850948199 / 2 ^ 55 ≠ elapsedSeconds 200000 0
      ∧ (3 : ℚ) * (5 / 100) + 1801439850948199 / 2 ^ 55 ≠ 2 / 10 := by
  have hc : subStepSeconds = 3602879701896397 / 2 ^ 56 := subStepSeconds_eq
  obtain ⟨hdt, hloop⟩ := subStepLoopDouble_sample
  refine ⟨?_, hloop ℕ _ 0, ?_, ?_, ?_⟩
  · rw [hdt, hc]
    norm_num
  · have h := ProcessMeasurementDouble_of_loop 4 id bootstrappedSample
      ⟨SensorType.LASER, fun _ => 1, 200000⟩ rfl _ _
      (hloop UKF (fun t d => UKF.Prediction id t (d : ℝ))
        { bootstrappedSample with time_us_ := 200000 })
    rw [h, if_neg (by simp)]
  · rw [hdt, hc]
    norm_num
  · norm_num

/-! ## The innovation covariance and the NIS where a range may be zero (claims C18, C19) -/

/-- A sigma point has a value in measurement space exactly when its range is not
zero. -/
theorem radarMeasurementDefined_isSome (v : Fin 5 → ℝ) :
    (radarMeasurementDefined v).isSome ↔ radarMeasurement v 0 ≠ 0 := by
  have h : radarMeasurement v 0 = Real.sqrt (v 0 * v 0 + v 1 * v 1) := by
    simp [radarMeasurement]
  unfold radarMeasurementDefined
  rw [h]
  by_cases h0 : Real.sqrt (v 0 * v 0 + v 1 * v 1) = 0
  · simp [h0]
  · simp [h0]

/-- Where every sigma point has non-zero range the radar innovation covariance is the
real matrix `radarS`. -/
theorem radarSDefined_of_range (s : UKF)
    (h : ∀ i, radarMeasurement (fun k => s.Xsig_pred_ k i) 0 ≠ 0) :
    s.radarSDefined = some s.radarS := by
  unfold UKF.radarSDefined
  rw [if_pos (fun i => (radarMeasurementDefined_isSome _).mpr (h i))]

/-- Where every sigma point has non-zero range the radar NIS is the real number that
`UpdateRadar` stores. -/
theorem radarNISDefined_of_range (s : UKF) (m : MeasurementPackage)
    (h : ∀ i, radarMeasurement (fun k => s.Xsig_pred_ k i) 0 ≠ 0) :
    s.radarNISDefined m = some (UKF.UpdateRadar s m).NIS_radar_ := by
  unfold UKF.radarNISDefined
  rw [if_pos (fun i => (radarMeasurementDefined_isSome _).mpr (h i))]

/-- The filter `zeroRangeFilter` is initialized at the origin at time `0`, with the
constructor's parameters. -/
theorem zeroRangeFilter_state :
    zeroRangeFilter.x_ = ![0, 0, 0, 0, 0] ∧ zeroRangeFilter.is_initialized_ = true
      ∧ zeroRangeFilter.time_us_ = 0 ∧ zeroRangeFilter.Configured := by
  have hboot := radar_bootstrap_state diagonalCholesky (UKF.construct 0 0 0)
    ⟨SensorType.RADAR, fun _ => 0, 0⟩ rfl rfl
  unfold zeroRangeFilter
  refine ⟨?_, ?_, ?_, ProcessMeasurement_configured _ _ _ (construct_configured 0 0 0)⟩
  · rw [hboot]
    simp
  · rw [hboot]
  · rw [hboot]

/-- The state `zeroRangePredicted` is one `Prediction` of `0.05 s` on `zeroRangeFilter`;
it has the constructor's parameters, and its central sigma point has range zero. -/
theorem zeroRangePredicted_state :
    zeroRangePredicted.Configured
      ∧ radarMeasurement (fun k => zeroRangePredicted.Xsig_pred_ k 0) 0 = 0 := by
  obtain ⟨hx, -, htime, hc⟩ := zeroRangeFilter_state
  have hdt : ((laterRadarReading.timestamp_ - zeroRangeFilter.time_us_ : ℤ) : ℝ) / 1000000
      ≤ 0.1 := by
    rw [htime]
    simp [laterRadarReading]
    norm_num
  have hpred : zeroRangePredicted
      = UKF.Prediction diagonalCholesky
          { zeroRangeFilter with time_us_ := laterRadarReading.timestamp_ }
          (((laterRadarReading.timestamp_ - zeroRangeFilter.time_us_ : ℤ) : ℝ) / 1000000) := by
    unfold zeroRangePredicted UKF.predictedFor
    rw [subStepLoop_of_le _ _ _ hdt]
  have hcol : ∀ r, zeroRangePredicted.Xsig_pred_ r 0 = (![0, 0, 0, 0, 0] : Fin 5 → ℝ) r := by
    intro r
    rw [hpred, Prediction_central_sigma_point]
    have e : ({ zeroRangeFilter with time_us_ := laterRadarReading.timestamp_ } : UKF).x_
        = ![0, 0, 0, 0, 0] := hx
    rw [e, predictSigmaPoint_origin]
  constructor
  · rw [hpred]
    exact hc
  · rw [radarMeasurement_range_eq_zero_iff]
    have h00 := hcol 0
    have h10 := hcol 1
    simp only [Matrix.cons_val_zero, Matrix.cons_val_one, Matrix.head_cons] at h00 h10
    exact ⟨h00, h10⟩

/-- The state `zeroRangePredicted` is reached through `ProcessMeasurement`: given
`laterRadarReading`, the filter `zeroRangeFilter` calls `UpdateRadar` on it. -/
theorem zeroRangePredicted_reached :
    UKF.ProcessMeasurement diagonalCholesky zeroRangeFilter laterRadarReading
      = UKF.UpdateRadar zeroRangePredicted laterRadarReading := by
  unfold zeroRangePredicted
  rw [ProcessMeasurement_eq_update _ _ _ zeroRangeFilter_state.2.1,
    if_pos (show laterRadarReading.sensor_type_ = SensorType.RADAR from rfl)]

/-- C18, as the code has it: for a filter with the constructor's parameters, all 15
weights are non-negative and the noise matrices `R` are diagonal with strictly positive
entries; for every set of predicted sigma points the innovation covariance `S` formed
in `UpdateLidar` is symmetric positive definite, hence invertible (the determinant is a
unit and `S⁻¹` is a two-sided inverse); and for every set of predicted sigma points
each of which has non-zero range, the innovation covariance formed in `UpdateRadar` is
a real matrix, symmetric positive definite and invertible in the same sense. -/
theorem C18_innovation_covariance_posDef (s : UKF) (hc : s.Configured) :
    (∀ c, 0 ≤ s.weights_ c)
      ∧ (s.lidarR = Matrix.diagonal ![s.std_laspx_ * s.std_laspx_, s.std_laspy_ * s.std_laspy_]
          ∧ 0 < s.std_laspx_ * s.std_laspx_ ∧ 0 < s.std_laspy_ * s.std_laspy_)
      ∧ (s.radarR = Matrix.diagonal ![s.std_radr_ * s.std_radr_,
            s.std_radphi_ * s.std_radphi_, s.std_radrd_ * s.std_radrd_]
          ∧ 0 < s.std_radr_ * s.std_radr_ ∧ 0 < s.std_radphi_ * s.std_radphi_
          ∧ 0 < s.std_radrd_ * s.std_radrd_)
      ∧ (s.lidarS.PosDef ∧ s.lidarS.IsSymm ∧ IsUnit s.lidarS.det
          ∧ s.lidarS * s.lidarS⁻¹ = 1 ∧ s.lidarS⁻¹ * s.lidarS = 1)
      ∧ ((∀ i, radarMeasurement (fun k => s.Xsig_pred_ k i) 0 ≠ 0) →
          s.radarSDefined = some s.radarS
            ∧ s.radarS.PosDef ∧ s.radarS.IsSymm ∧ IsUnit s.radarS.det
            ∧ s.radarS * s.radarS⁻¹ = 1 ∧ s.radarS⁻¹ * s.radarS = 1) := by
  have hx : s.std_laspx_ = 0.15 := hc.2.2.2.2.1
  have hy : s.std_laspy_ = 0.15 := hc.2.2.2.2.2.1
  have hr : s.std_radr_ = 0.3 := hc.2.2.2.2.2.2.1
  have hp : s.std_radphi_ = 0.03 := hc.2.2.2.2.2.2.2.1
  have hd : s.std_radrd_ = 0.3 := hc.2.2.2.2.2.2.2.2
  refine ⟨hc.weights_nonneg, ⟨?_, ?_, ?_⟩, ⟨?_, ?_, ?_, ?_⟩,
    ⟨lidarS_posDef s hc, posDef_invertible (lidarS_posDef s hc)⟩,
    fun hrange => ⟨radarSDefined_of_range s hrange, radarS_posDef s hc,
      posDef_invertible (radarS_posDef s hc)⟩⟩
  · ext a b
    fin_cases a <;> fin_cases b <;> simp [UKF.lidarR]
  · rw [hx]
    norm_num
  · rw [hy]
    norm_num
  · ext a b
    fin_cases a <;> fin_cases b <;> simp [UKF.radarR, vecHead, vecTail]
  · rw [hr]
    norm_num
  · rw [hp]
    norm_num
  · rw [hd]
    norm_num

/-- The scenario of C18: after `Prediction(0)` on the bootstrapped sample filter every
sigma point has non-zero range, both innovation covariances are positive definite and
inverted by `S⁻¹`, and the radar one is a real matrix. -/
theorem C18_innovation_covariance_posDef_witness :
    ((UKF.Prediction diagonalCholesky bootstrappedSample 0).lidarS.PosDef
        ∧ (UKF.Prediction diagonalCholesky bootstrappedSample 0).lidarS
            * (UKF.Prediction diagonalCholesky bootstrappedSample 0).lidarS⁻¹ = 1)
      ∧ (∀ i, radarMeasurement
          (fun k => (UKF.Prediction diagonalCholesky bootstrappedSample 0).Xsig_pred_ k i) 0 ≠ 0)
      ∧ ((UKF.Prediction diagonalCholesky bootstrappedSample 0).radarSDefined
          = some (UKF.Prediction diagonalCholesky bootstrappedSample 0).radarS
        ∧ (UKF.Prediction diagonalCholesky bootstrappedSample 0).radarS.PosDef
        ∧ (UKF.Prediction diagonalCholesky bootstrappedSample 0).radarS
            * (UKF.Prediction diagonalCholesky bootstrappedSample 0).radarS⁻¹ = 1) := by
  have h := C18_innovation_covariance_posDef (UKF.Prediction diagonalCholesky bootstrappedSample 0)
    bootstrappedSample_configured
  have hrange : ∀ i, radarMeasurement
      (fun k => (UKF.Prediction diagonalCholesky bootstrappedSample 0).Xsig_pred_ k i) 0 ≠ 0 :=
    fun i => radarMeasurement_range_ne_zero _ (bootstrappedSample_px_pos i)
  have hr := h.2.2.2.2 hrange
  exact ⟨⟨h.2.2.2.1.1, h.2.2.2.1.2.2.2.1⟩, hrange, hr.1, hr.2.1, hr.2.2.2.2.1⟩

/-- C18 as stated fails for a set of predicted sigma points that `ProcessMeasurement`
produces: a first RADAR reading with range `0` and a second RADAR reading `0.05 s`
later hand `UpdateRadar` a state with the constructor's parameters whose central sigma
point has range zero; its range rate is `0 / 0`, and the innovation covariance is not
a real matrix, so not a positive definite one. -/
theorem C18_innovation_covariance_posDef_counterexample :
    zeroRangePredicted.Configured
      ∧ UKF.ProcessMeasurement diagonalCholesky zeroRangeFilter laterRadarReading
          = UKF.UpdateRadar zeroRangePredicted laterRadarReading
      ∧ radarMeasurementDefined (fun k => zeroRangePredicted.Xsig_pred_ k 0) = none
      ∧ zeroRangePredicted.radarSDefined = none
      ∧ ¬ ∃ S, zeroRangePredicted.radarSDefined = some S ∧ S.PosDef := by
  obtain ⟨hc, hzero⟩ := zeroRangePredicted_state
  have hnone : radarMeasurementDefined (fun k => zeroRangePredicted.Xsig_pred_ k 0) = none := by
    have h := (radarMeasurementDefined_isSome (fun k => zeroRangePredicted.Xsig_pred_ k 0)).not
    rw [not_not] at h
    have h' := h.mpr hzero
    cases hv : radarMeasurementDefined (fun k => zeroRangePredicted.Xsig_pred_ k 0) with
    | none => rfl
    | some v =>
      rw [hv] at h'
      exact absurd rfl h'
  have hS : zeroRangePredicted.radarSDefined = none := by
    unfold UKF.radarSDefined
    rw [if_neg]
    intro hall
    have h0 := hall 0
    rw [hnone] at h0
    exact absurd h0 (by simp)
  refine ⟨hc, ?_, hnone, hS, ?_⟩
  · exact zeroRangePredicted_reached
  · rintro ⟨S, hS', -⟩
    rw [hS] at hS'
    exact absurd hS' (by simp)

/-- C19, as the code has it: for a filter with the constructor's parameters, every set
of predicted sigma points and every measurement, the NIS stored by `UpdateLidar` is
non-negative, and zero exactly when the innovation is the zero vector; and for every
set of predicted sigma points each of which has non-zero range, the NIS stored by
`UpdateRadar` is a real number, non-negative, and zero exactly when the innovation
with its bearing normalised is the zero vector. -/
theorem C19_NIS_nonneg (s : UKF) (hc : s.Configured) (m : MeasurementPackage) :
    (0 ≤ (UKF.UpdateLidar s m).NIS_laser_
        ∧ ((UKF.UpdateLidar s m).NIS_laser_ = 0 ↔ s.lidarInnovation m = 0))
      ∧ ((∀ i, radarMeasurement (fun k => s.Xsig_pred_ k i) 0 ≠ 0) →
          s.radarNISDefined m = some (UKF.UpdateRadar s m).NIS_radar_
            ∧ 0 ≤ (UKF.UpdateRadar s m).NIS_radar_
            ∧ ((UKF.UpdateRadar s m).NIS_radar_ = 0 ↔ s.radarInnovation m = 0)) :=
  ⟨posDef_inv_quadratic (lidarS_posDef s hc) (s.lidarInnovation m),
    fun hrange => ⟨radarNISDefined_of_range s m hrange,
      posDef_inv_quadratic (radarS_posDef s hc) (s.radarInnovation m)⟩⟩

/-- The scenario of C19: after `Prediction(0)` on the bootstrapped sample filter, the
position reading `(6, 3)` gives a non-negative lidar NIS, the reading `(5, 3)`, equal to
the predicted measurement, gives the lidar NIS `0`, every sigma point has non-zero
range, and a radar reading gives a radar NIS that is a non-negative real number. -/
theorem C19_NIS_nonneg_witness :
    0 ≤ (UKF.UpdateLidar (UKF.Prediction diagonalCholesky bootstrappedSample 0)
        laserReading).NIS_laser_
      ∧ (UKF.UpdateLidar (UKF.Prediction diagonalCholesky bootstrappedSample 0)
        ⟨SensorType.LASER, fun i => if i = 0 then 5 else 3, 0⟩).NIS_laser_ = 0
      ∧ (∀ i, radarMeasurement
          (fun k => (UKF.Prediction diagonalCholesky bootstrappedSample 0).Xsig_pred_ k i) 0 ≠ 0)
      ∧ (UKF.Prediction diagonalCholesky bootstrappedSample 0).radarNISDefined
          ⟨SensorType.RADAR, fun _ => 1, 0⟩
          = some (UKF.UpdateRadar (UKF.Prediction diagonalCholesky bootstrappedSample 0)
              ⟨SensorType.RADAR, fun _ => 1, 0⟩).NIS_radar_
      ∧ 0 ≤ (UKF.UpdateRadar (UKF.Prediction diagonalCholesky bootstrappedSample 0)
        ⟨SensorType.RADAR, fun _ => 1, 0⟩).NIS_radar_ := by
  have hrange : ∀ i, radarMeasurement
      (fun k => (UKF.Prediction diagonalCholesky bootstrappedSample 0).Xsig_pred_ k i) 0 ≠ 0 :=
    fun i => radarMeasurement_range_ne_zero _ (bootstrappedSample_px_pos i)
  have hr := (C19_NIS_nonneg (UKF.Prediction diagonalCholesky bootstrappedSample 0)
    bootstrappedSample_configured ⟨SensorType.RADAR, fun _ => 1, 0⟩).2 hrange
  refine ⟨(C19_NIS_nonneg (UKF.Prediction diagonalCholesky bootstrappedSample 0)
      bootstrappedSample_configured laserReading).1.1, ?_, hrange, hr.1, hr.2.1⟩
  apply (C19_NIS_nonneg (UKF.Prediction diagonalCholesky bootstrappedSample 0)
    bootstrappedSample_configured ⟨SensorType.LASER, fun i => if i = 0 then 5 else 3, 0⟩).1.2.mpr
  unfold UKF.lidarInnovation
  rw [bootstrappedSample_lidar_z_pred]
  funext r
  fin_cases r <;> simp

/-- C19 as stated fails for a set of predicted sigma points that `ProcessMeasurement`
produces: a first RADAR reading with range `0` and a second RADAR reading `0.05 s`
later hand `UpdateRadar` a state with the constructor's parameters whose central sigma
point has range zero; its range rate is `0 / 0`, and the value stored in `NIS_radar_`
is not a number, so not a non-negative one. -/
theorem C19_NIS_nonneg_counterexample :
    zeroRangePredicted.Configured
      ∧ UKF.ProcessMeasurement diagonalCholesky zeroRangeFilter laterRadarReading
          = UKF.UpdateRadar zeroRangePredicted laterRadarReading
      ∧ radarMeasurement (fun k => zeroRangePredicted.Xsig_pred_ k 0) 0 = 0
      ∧ zeroRangePredicted.radarNISDefined laterRadarReading = none
      ∧ ¬ ∃ v, zeroRangePredicted.radarNISDefined laterRadarReading = some v ∧ 0 ≤ v := by
  obtain ⟨hc, hzero⟩ := zeroRangePredicted_state
  have hN : zeroRangePredicted.radarNISDefined laterRadarReading = none := by
    unfold UKF.radarNISDefined
    rw [if_neg]
    intro hall
    exact (radarMeasurementDefined_isSome _).mp (hall 0) hzero
  refine ⟨hc, ?_, hzero, hN, ?_⟩
  · exact zeroRangePredicted_reached
  · rintro ⟨v, hv, -⟩
    rw [hN] at hv
    exact absurd hv (by simp)
